import Mathlib

/-!
Prefix trie with frequency-based autocomplete (`triePrefix.c`).

A shallow embedding of the trie of `src/triePrefix.c` and of its two operations
`insert` and `query`, followed by the properties proved about them.

Modelling conventions.

* A C value of type `trieNode *` is a `trieNode`: either `NULL` or a node with the
  five fields of the struct. The 26 slots of `children` are a function on `Fin 26`.
  `insert` updates the tree in place; here it returns the updated tree.
* A C string is the `List Char` of its characters before the terminating NUL;
  `strlen` is `List.length`, and `word[k] - 'a'` is the character code minus 97 (a byte
  that a signed `char` reads as negative is a code above 127 here; either way the
  index falls outside `0..25`).
* The position `k` of the recursion is kept as the pair of the characters before it and
  the characters from it on; the entry points `insert` and `query` take `k` itself and
  are called with `k = 0`, as `main` does.
* The `int` fields `freq` and `sumPrefixFreq` are 32 bits wide. `insert32` is `insert`
  with its three `+=` (lines 86, 88, 106) on 32-bit counters, an overflow wrapping around
  modulo `2^32`. `insert` is the same run with the three additions carried out exactly;
  the two leave the same tree as long as no addition overflows
  (`insertFrom32_of_bounded`, `insertAll32_of_bounded`). What depends on the sums
  themselves is stated of `insert32`.
* `malloc` leaves `maxFreq` indeterminate, because `initialize` never assigns it.
  The value found there is supplied by `junk`, indexed by the path of the node
  being allocated; a path is allocated at most once, so every allocation may hold a
  value of its own.
* Reading `children[childIndex]` with `childIndex` outside `0..25` leaves the array and
  the allocated node. Such a read either faults or finds some pointer value; which of
  the two, and which value, is supplied by `oob` (`none` for a fault). `query`
  therefore returns an `Option`: `none` when the run does not return a string.
* `insertIndices` and `queryIndices` list the indices the two functions use on
  `children[childIndex]`.
* `queryMem` is `query` once more, on a memory of cells in which the nodes and the
  returned strings live side by side, so that what the function writes can be told from
  what it reads.
-/

namespace TriePrefix

/-- The C type `trieNode *`: a null pointer, or a node holding `isWord`, `freq`,
`sumPrefixFreq`, `maxFreq` and the 26 child pointers. -/
inductive trieNode where
  | NULL : trieNode
  | node (isWord freq sumPrefixFreq maxFreq : Int) (children : Fin 26 → trieNode) : trieNode

namespace trieNode

/-- The pointer test `if (p)`. -/
def present : trieNode → Bool
  | NULL => false
  | node _ _ _ _ _ => true

/-- Field read `p->isWord` (0 on `NULL`, which the code never dereferences). -/
def isWord : trieNode → Int
  | NULL => 0
  | node w _ _ _ _ => w

/-- Field read `p->freq`. -/
def freq : trieNode → Int
  | NULL => 0
  | node _ f _ _ _ => f

/-- Field read `p->sumPrefixFreq`. -/
def sumPrefixFreq : trieNode → Int
  | NULL => 0
  | node _ _ s _ _ => s

/-- Field read `p->maxFreq`. -/
def maxFreq : trieNode → Int
  | NULL => 0
  | node _ _ _ m _ => m

/-- Field read `p->children[i]` for an index inside the array. -/
def children : trieNode → Fin 26 → trieNode
  | NULL => fun _ => NULL
  | node _ _ _ _ ch => ch

end trieNode

open trieNode

/-- The string literal `"unrecognized prefix"`. -/
def UNRECOGNIZED_PREFIX : List Char := "unrecognized prefix".toList

/-- The expression `word[k] - 'a'`. -/
def childIndex (c : Char) : Int := (c.toNat : Int) - 97

/-- The expression `'a' + i`. -/
def letter (i : Fin 26) : Char := Char.ofNat (97 + i.val)

/-- The function `initialize` (a reserved word in Lean, hence `initNode`): `isWord`,
`freq` and `sumPrefixFreq` are set to 0 and every child to `NULL`; `maxFreq` is not
assigned and keeps what the allocation held. -/
def initNode (junk : Int) : trieNode :=
  node 0 0 0 junk (fun _ => NULL)

/-- The array read `children[i]` for an arbitrary `int` index: the slot when the index
is inside `0..25`; otherwise the read leaves the array, and `oob i` tells whether it
faults (`none`) or which pointer value it finds. -/
def readChild (oob : Int → Option trieNode) (children : Fin 26 → trieNode) (i : Int) :
    Option trieNode :=
  if h : 0 ≤ i ∧ i < 26 then some (children ⟨i.toNat, by omega⟩) else oob i

/-- The loop of `insert` that recomputes `maxFreq` (lines 109-116): for each present
child whose `sumPrefixFreq` exceeds the node's current `maxFreq`, the running value is
set to the `sumPrefixFreq` of the child at `childIndex`. -/
def maxChildFreqLoop (children : Fin 26 → trieNode) (rootMaxFreq : Int) (idx : Fin 26) : Int :=
  (List.finRange 26).foldl
    (fun maxChildFreq i =>
      match children i with
      | NULL => maxChildFreq
      | node _ _ s _ _ => if s > rootMaxFreq then (children idx).sumPrefixFreq else maxChildFreq)
    0

/-- Lines 101-104 of `insert`: a `NULL` slot `i` receives a freshly allocated node whose
`maxFreq` holds `g`; a present child is left alone. -/
def ensureChild (children : Fin 26 → trieNode) (i : Fin 26) (g : Int) : Fin 26 → trieNode :=
  if (children i).present then children else Function.update children i (initNode g)

/-- The body of `insert` on the characters from position `k` on; `pre` is the part of
the word already consumed (the path of `root`). The node is updated in place in C; here
the updated node is returned. The three `+=` are carried out exactly here, which is what
the code computes as long as none of them overflows; `insertFrom32` is the same body with
the additions on 32 bits. -/
def insertFrom (junk : List Char → Int) (freq : Int) :
    List Char → List Char → trieNode → trieNode
  | _, _, NULL => NULL
  | _, [], node _ fr s m ch => node 1 (fr + freq) (s + freq) m ch
  | pre, c :: rest, node w fr s m ch =>
    if h : childIndex c < 0 ∨ childIndex c ≥ 26 then node w fr s m ch
    else
      let i : Fin 26 := ⟨(childIndex c).toNat, by omega⟩
      let ch1 := ensureChild ch i (junk (pre ++ [c]))
      let maxChildFreq := maxChildFreqLoop ch1 m i
      node w fr (s + freq) maxChildFreq
        (Function.update ch1 i (insertFrom junk freq (pre ++ [c]) rest (ch1 i)))

/-- The function `insert(root, word, freq, k)`, with exact additions. A `NULL` root is
never passed: `main` passes the node made by `initialize`, and the recursive call passes a
child that has just been allocated when it was absent. -/
def insert (junk : List Char → Int) (root : trieNode) (word : List Char) (freq : Int)
    (k : Nat) : trieNode :=
  insertFrom junk freq (word.take k) (word.drop k) root

/-- The first loop of `query` (lines 142-150): the largest `sumPrefixFreq` among the
present children, starting from 0. -/
def queryMaxFreq (children : Fin 26 → trieNode) : Int :=
  (List.finRange 26).foldl
    (fun maxFreq i =>
      match children i with
      | NULL => maxFreq
      | node _ _ s _ _ => if s > maxFreq then s else maxFreq)
    0

/-- The second loop of `query` (lines 153-162): the letters of the present children
whose `sumPrefixFreq` equals `maxFreq`, appended in index order. -/
def queryCollect (children : Fin 26 → trieNode) (maxFreq : Int) : List Char :=
  (List.finRange 26).foldl
    (fun result i =>
      match children i with
      | NULL => result
      | node _ _ s _ _ => if s = maxFreq then result ++ [letter i] else result)
    []

/-- The branch `k == strlen(prefix)` of `query` (lines 136-176): the two loops, and the
sentinel when no letter was collected (`pos == 0`). -/
def queryHere (children : Fin 26 → trieNode) : List Char :=
  let result := queryCollect children (queryMaxFreq children)
  if result.length = 0 then UNRECOGNIZED_PREFIX else result

/-- The body of `query` on the characters of the prefix from position `k` on. The child
pointer is read (line 181) before the range of `childIndex` is checked (line 189). -/
def queryFrom (oob : Int → Option trieNode) : List Char → trieNode → Option (List Char)
  | _, NULL => some UNRECOGNIZED_PREFIX
  | [], node _ _ _ _ ch => some (queryHere ch)
  | c :: rest, node _ _ _ _ ch =>
    match readChild oob ch (childIndex c) with
    | none => none
    | some slot =>
      if slot.present = false then some UNRECOGNIZED_PREFIX
      else if childIndex c < 0 ∨ childIndex c ≥ 26 then some UNRECOGNIZED_PREFIX
      else queryFrom oob rest slot

/-- The function `query(root, prefix, k)`; `none` when a read outside the child array
faults. -/
def query (oob : Int → Option trieNode) (root : trieNode) (pre : List Char) (k : Nat) :
    Option (List Char) :=
  queryFrom oob (pre.drop k) root

/-! ## Vocabulary of the statements -/

/-- The character is one of `a`..`z` (codes 97..122). -/
def isLetter (c : Char) : Bool := decide (97 ≤ c.toNat ∧ c.toNat ≤ 122)

/-- The slot of the child array a character selects, when it is one of `a`..`z`. -/
def slotOf (c : Char) : Option (Fin 26) :=
  if h : childIndex c < 0 ∨ childIndex c ≥ 26 then none
  else some ⟨(childIndex c).toNat, by omega⟩

/-- The node reached from `t` along the path `p`; `NULL` when the path leaves the tree
or `p` holds a character outside `a`..`z`. -/
def nodeAt : trieNode → List Char → trieNode
  | t, [] => t
  | t, c :: rest =>
    match slotOf c with
    | none => NULL
    | some i => nodeAt (t.children i) rest

/-- What `query` answers once the prefix is used up and `t` is the node reached: the
sentinel at `NULL` (line 129), the branch `k == strlen(prefix)` otherwise. -/
def answerAt : trieNode → List Char
  | NULL => UNRECOGNIZED_PREFIX
  | node _ _ _ _ ch => queryHere ch

/-- The calls `insert(root, w, f, 0)` for the entries `(w, f)` of `L`, in order. -/
def insertAll (junk : List Char → Int) (root : trieNode) (L : List (List Char × Int)) :
    trieNode :=
  L.foldl (fun t e => insert junk t e.1 e.2 0) root

/-- The longest initial part of a word made of letters `a`..`z` only. -/
def validPart (w : List Char) : List Char := w.takeWhile isLetter

/-- The 26 letters in alphabetical order. -/
def alphabet : List Char := (List.finRange 26).map letter

/-- The slot passes the test of the second loop of `query`: the child is present and
its `sumPrefixFreq` equals `m`. -/
def tied (ch : Fin 26 → trieNode) (m : Int) (i : Fin 26) : Bool :=
  (ch i).present && decide ((ch i).sumPrefixFreq = m)

/-- Every node of the tree has `sumPrefixFreq ≥ 0`. -/
def allNonneg : trieNode → Bool
  | NULL => true
  | node _ _ s _ ch => decide (0 ≤ s) && (List.finRange 26).all (fun i => allNonneg (ch i))

/-- The child in slot `i` is present and no present child has a larger
`sumPrefixFreq`. -/
def isTop (ch : Fin 26 → trieNode) (i : Fin 26) : Bool :=
  (ch i).present &&
    decide (∀ j : Fin 26, (ch j).present = true → (ch j).sumPrefixFreq ≤ (ch i).sumPrefixFreq)

/-- The sum of the frequencies of the entries of `L` whose word satisfies `q`. -/
def freqSum (L : List (List Char × Int)) (q : List Char → Bool) : Int :=
  ((L.filter (fun e => q e.1)).map (fun e => e.2)).sum

/-- Every word of `L` is made of letters `a`..`z` only. -/
def wordsValid (L : List (List Char × Int)) : Prop :=
  ∀ e ∈ L, ∀ c ∈ e.1, isLetter c = true

/-- The quantity `mass(c)` of the reference definition: the sum of the frequencies of the
entries of `L` whose word starts with `P` followed by the letter `c`. -/
def mass (L : List (List Char × Int)) (P : List Char) (c : Char) : Int :=
  freqSum L (fun w => decide (P ++ [c] <+: w))

/-- At least one entry of `L` has a word that starts with `P` followed by `c`. -/
def continues (L : List (List Char × Int)) (P : List Char) (c : Char) : Bool :=
  L.any (fun e => decide (P ++ [c] <+: e.1))

/-- The reference definition of the answer, read off the list of inserted entries: with
`C` the letters that continue `P` in some entry, the sentinel when `C` is empty, and
otherwise the letters of `C` of largest mass, in alphabetical order. -/
def referenceQuery (L : List (List Char × Int)) (P : List Char) : List Char :=
  let C := alphabet.filter (continues L P)
  if C = [] then UNRECOGNIZED_PREFIX
  else C.filter (fun c => C.all (fun d => decide (mass L P d ≤ mass L P c)))

/-- The sum of the `freq` fields of all nodes in the subtree rooted at a node, the node
itself included. -/
def subtreeFreq : trieNode → Int
  | NULL => 0
  | node _ fr _ _ ch => fr + ((List.finRange 26).map (fun i => subtreeFreq (ch i))).sum

/-- The aggregation invariant: at every node of the tree, `sumPrefixFreq` is the sum of
the `freq` fields over the subtree rooted there. -/
def aggregated : trieNode → Bool
  | NULL => true
  | node _ fr s _ ch =>
    decide (s = fr + ((List.finRange 26).map (fun i => subtreeFreq (ch i))).sum) &&
      (List.finRange 26).all (fun i => aggregated (ch i))

/-- The largest `sumPrefixFreq` among the present children of a node, and 0 when the node
has no child: what the struct comment says `maxFreq` holds. -/
def childMax (ch : Fin 26 → trieNode) : Int :=
  ((((List.finRange 26).filter (fun i => (ch i).present)).map
    (fun i => (ch i).sumPrefixFreq)).max?).getD 0

/-- At every node of the tree, `maxFreq` is the largest `sumPrefixFreq` among the
children of the node (0 without children). -/
def maxFreqCached : trieNode → Bool
  | NULL => true
  | node _ _ _ m ch =>
    decide (m = childMax ch) && (List.finRange 26).all (fun i => maxFreqCached (ch i))

/-- The two trees have the same nodes and, at every node, the same `isWord`, `freq` and
`sumPrefixFreq`; they may differ in the values of `maxFreq` only. -/
def sameButMaxFreq : trieNode → trieNode → Bool
  | NULL, NULL => true
  | NULL, node _ _ _ _ _ => false
  | node _ _ _ _ _, NULL => false
  | node w f s _ ch, node w2 f2 s2 _ ch2 =>
    decide (w = w2) && decide (f = f2) && decide (s = s2) &&
      (List.finRange 26).all (fun i => sameButMaxFreq (ch i) (ch2 i))

/-- The values of `childIndex` with which a call of `insert` indexes `children`, in the
order of the accesses `children[childIndex]`: line 101, line 103 when the child is
allocated, line 113 once for every round of the loop that takes the assignment, and
line 122; then those of the recursive call. Nothing is indexed after the range check of
line 96 fails. -/
def insertIndices (junk : List Char → Int) (freq : Int) :
    List Char → List Char → trieNode → List Int
  | _, _, NULL => []
  | _, [], node _ _ _ _ _ => []
  | pre, c :: rest, node _ _ _ m ch =>
    if h : childIndex c < 0 ∨ childIndex c ≥ 26 then []
    else
      let i : Fin 26 := ⟨(childIndex c).toNat, by omega⟩
      let ch1 := ensureChild ch i (junk (pre ++ [c]))
      [childIndex c] ++ (if (ch i).present then [] else [childIndex c])
        ++ (((List.finRange 26).filter
              (fun j => (ch1 j).present && decide ((ch1 j).sumPrefixFreq > m))).map
            (fun _ => childIndex c))
        ++ [childIndex c] ++ insertIndices junk freq (pre ++ [c]) rest (ch1 i)

/-- The values of `childIndex` with which a call of `query` indexes `children`, in the
order of the accesses `children[childIndex]`: line 181, and line 197 when the call
recurses; then those of the recursive call. -/
def queryIndices (oob : Int → Option trieNode) : List Char → trieNode → List Int
  | _, NULL => []
  | [], node _ _ _ _ _ => []
  | c :: rest, node _ _ _ _ ch =>
    childIndex c ::
      (match readChild oob ch (childIndex c) with
      | none => []
      | some slot =>
        if slot.present = false then []
        else if childIndex c < 0 ∨ childIndex c ≥ 26 then []
        else childIndex c :: queryIndices oob rest slot)

/-- The largest value of a 32-bit `int`. -/
def INT_MAX : Int := 2147483647

/-- The value a 32-bit `int` holds after an addition whose exact result is `x`, when
overflow wraps around modulo `2^32`. -/
def wrap32 (x : Int) : Int := (x + 2147483648) % 4294967296 - 2147483648

/-- The body of `insert` with the `int` fields as the code has them: `freq += freq`
(line 86) and `sumPrefixFreq += freq` (lines 88 and 106) are 32-bit additions that wrap
around. Everything else is as in `insertFrom`. -/
def insertFrom32 (junk : List Char → Int) (freq : Int) :
    List Char → List Char → trieNode → trieNode
  | _, _, NULL => NULL
  | _, [], node _ fr s m ch => node 1 (wrap32 (fr + freq)) (wrap32 (s + freq)) m ch
  | pre, c :: rest, node w fr s m ch =>
    if h : childIndex c < 0 ∨ childIndex c ≥ 26 then node w fr s m ch
    else
      let i : Fin 26 := ⟨(childIndex c).toNat, by omega⟩
      let ch1 := ensureChild ch i (junk (pre ++ [c]))
      let maxChildFreq := maxChildFreqLoop ch1 m i
      node w fr (wrap32 (s + freq)) maxChildFreq
        (Function.update ch1 i (insertFrom32 junk freq (pre ++ [c]) rest (ch1 i)))

/-- The function `insert(root, word, freq, k)` on the 32-bit counters of the code. -/
def insert32 (junk : List Char → Int) (root : trieNode) (word : List Char) (freq : Int)
    (k : Nat) : trieNode :=
  insertFrom32 junk freq (word.take k) (word.drop k) root

/-- The calls `insert(root, w, f, 0)` for the entries of `L`, in order, on 32-bit
counters. -/
def insertAll32 (junk : List Char → Int) (root : trieNode) (L : List (List Char × Int)) :
    trieNode :=
  L.foldl (fun t e => insert32 junk t e.1 e.2 0) root

/-- Every node of the tree has `freq ≥ 0` and `sumPrefixFreq ≥ 0`. -/
def countersNonneg : trieNode → Bool
  | NULL => true
  | node _ fr s _ ch =>
    decide (0 ≤ fr) && decide (0 ≤ s) && (List.finRange 26).all (fun i => countersNonneg (ch i))

/-- Every node of the tree has `freq` and `sumPrefixFreq` between 0 and `B`. -/
def boundedBy (B : Int) : trieNode → Bool
  | NULL => true
  | node _ fr s _ ch =>
    decide (0 ≤ fr) && decide (fr ≤ B) && decide (0 ≤ s) && decide (s ≤ B) &&
      (List.finRange 26).all (fun i => boundedBy B (ch i))

/-! ## The memory view of `query`

To state that `query` writes to no node, the tree is laid out in a memory of cells:
nodes hold the addresses of their children (0 for `NULL`), and the strings `query`
returns live in cells of their own. `malloc` hands out the address `next` and moves it
on; a string cell holds the characters written so far from index 0 (the sizes 20 and 27
of the buffers are not modelled). -/

/-- A cell of the memory: a `trieNode` with the addresses of its 26 children, or the
characters of a `char` array. -/
inductive Cell where
  | nodeCell (isWord freq sumPrefixFreq maxFreq : Int) (children : Fin 26 → Nat) : Cell
  | chars (content : List Char) : Cell

/-- The memory: the cell at each address, and the address `malloc` hands out next. -/
structure Heap where
  /-- The cell at each address, `none` where nothing is allocated. -/
  cells : Nat → Option Cell
  /-- The address the coming `malloc` returns. -/
  next : Nat

namespace Heap

/-- The call `malloc(n)` for a `char` array: a new empty cell at the address `next`. -/
def malloc (h : Heap) : Heap × Nat :=
  ({ cells := Function.update h.cells h.next (some (Cell.chars [])), next := h.next + 1 },
    h.next)

/-- The call `free(p)`. -/
def free (h : Heap) (p : Nat) : Heap :=
  { h with cells := Function.update h.cells p none }

/-- The assignment `p[pos] = c` on a `char` array: the character at index `pos` is
replaced, or appended when `pos` is the first index not written yet. -/
def store (h : Heap) (p : Nat) (pos : Nat) (c : Char) : Heap :=
  match h.cells p with
  | some (Cell.chars l) =>
    { h with
      cells := (Function.update h.cells p
        (some (Cell.chars (if pos < l.length then l.set pos c else l ++ [c])))) }
  | _ => h

/-- The call `strcpy(p, s)`: the characters of `s` and the terminating NUL. -/
def strcpy (h : Heap) (p : Nat) (s : List Char) : Heap :=
  match h.cells p with
  | some (Cell.chars _) =>
    { h with cells := Function.update h.cells p (some (Cell.chars (s ++ [Char.ofNat 0]))) }
  | _ => h

/-- The address `a` holds a node. -/
def isNode (h : Heap) (a : Nat) : Bool :=
  match h.cells a with
  | some (Cell.nodeCell _ _ _ _ _) => true
  | _ => false

/-- The read `a->children[i]` for an index inside the array. -/
def child (h : Heap) (a : Nat) (i : Fin 26) : Nat :=
  match h.cells a with
  | some (Cell.nodeCell _ _ _ _ kids) => kids i
  | _ => 0

/-- The read `a->sumPrefixFreq`. -/
def sumAt (h : Heap) (a : Nat) : Int :=
  match h.cells a with
  | some (Cell.nodeCell _ _ s _ _) => s
  | _ => 0

/-- The C string at address `p`: the characters before the first NUL. -/
def stringAt (h : Heap) (p : Nat) : List Char :=
  match h.cells p with
  | some (Cell.chars l) => l.takeWhile (fun c => c != Char.ofNat 0)
  | _ => []

end Heap

/-- The three places of `query` that make the sentinel: `malloc(20)` and `strcpy`. -/
def sentinelResult (h : Heap) : Heap × Nat :=
  (h.malloc.1.strcpy h.malloc.2 UNRECOGNIZED_PREFIX, h.malloc.2)

/-- The first loop of `query` on the memory (lines 142-150). -/
def queryMaxFreqMem (h : Heap) (root : Nat) : Int :=
  (List.finRange 26).foldl
    (fun maxFreq i =>
      if h.child root i ≠ 0 ∧ h.sumAt (h.child root i) > maxFreq
      then h.sumAt (h.child root i) else maxFreq)
    0

/-- The second loop of `query` on the memory (lines 153-162): each round reads the child
from the memory as it is then, and a tie writes its letter to `result[pos]`. -/
def queryCollectMem (h : Heap) (root result : Nat) (maxFreq : Int) : Heap × Nat :=
  (List.finRange 26).foldl
    (fun (st : Heap × Nat) i =>
      if st.1.child root i ≠ 0 ∧ st.1.sumAt (st.1.child root i) = maxFreq
      then (st.1.store result st.2 (letter i), st.2 + 1) else st)
    (h, 0)

/-- The branch `k == strlen(prefix)` of `query` on the memory (lines 136-176). -/
def queryHereMem (h : Heap) (root : Nat) : Heap × Nat :=
  let h1 := h.malloc.1
  let result := h.malloc.2
  let maxFreq := queryMaxFreqMem h1 root
  let st := queryCollectMem h1 root result maxFreq
  if st.2 = 0 then sentinelResult (st.1.free result)
  else (st.1.store result st.2 (Char.ofNat 0), result)

/-- The read `root->children[i]` on the memory for an arbitrary index: the slot inside
`0..25`; outside, the read faults (`none`) or finds some address, as `oob` tells. -/
def readChildMem (oob : Int → Option Nat) (h : Heap) (root : Nat) (i : Int) : Option Nat :=
  if hi : 0 ≤ i ∧ i < 26 then some (h.child root ⟨i.toNat, by omega⟩) else oob i

/-- The body of `query` on the memory, on the characters of the prefix from position `k`
on: the memory after the call and the address of the returned string; `none` when a
read faults (outside the child array, or through a pointer that holds no node). -/
def queryMemFrom (oob : Int → Option Nat) : List Char → Heap → Nat → Option (Heap × Nat)
  | [], h, root =>
    if root = 0 then some (sentinelResult h)
    else if h.isNode root then some (queryHereMem h root)
    else none
  | c :: rest, h, root =>
    if root = 0 then some (sentinelResult h)
    else if h.isNode root then
      match readChildMem oob h root (childIndex c) with
      | none => none
      | some p =>
        if p = 0 then some (sentinelResult h)
        else if childIndex c < 0 ∨ childIndex c ≥ 26 then some (sentinelResult h)
        else queryMemFrom oob rest h p
    else none

/-- The function `query(root, prefix, k)` on the memory. -/
def queryMem (oob : Int → Option Nat) (h : Heap) (root : Nat) (pre : List Char) (k : Nat) :
    Option (Heap × Nat) :=
  queryMemFrom oob (pre.drop k) h root

/-- The string a call of `query` on the memory returns, when it returns. -/
def queryString (oob : Int → Option Nat) (h : Heap) (root : Nat) (pre : List Char) :
    Option (List Char) :=
  (queryMem oob h root pre 0).map (fun x => x.1.stringAt x.2)

/-- The queries of `main` one after the other (lines 48-52): each call of `query` is
followed by the `free` of its result. `none` when a call faults. -/
def runQueries (oob : Int → Option Nat) (root : Nat) : List (List Char) → Heap → Option Heap
  | [], h => some h
  | q :: qs, h =>
    match queryMem oob h root q 0 with
    | none => none
    | some x => runQueries oob root qs (x.1.free x.2)

/-- The memory `h` holds the tree `t` at address `a`: `NULL` is the address 0, and a node
is an allocated node cell with the same four fields whose child addresses hold the
children. -/
def represents (h : Heap) : Nat → trieNode → Bool
  | a, NULL => decide (a = 0)
  | a, node w f s m ch =>
    match h.cells a with
    | some (Cell.nodeCell w2 f2 s2 m2 kids) =>
      decide (a ≠ 0) && decide (a < h.next) && decide (w = w2) && decide (f = f2) &&
        decide (s = s2) && decide (m = m2) &&
        (List.finRange 26).all (fun i => represents h (kids i) (ch i))
    | _ => false

/-- What the out-of-range reads of the tree view find, given those of the memory view:
a fault for a fault, `NULL` for the address 0, some node otherwise. -/
def treeOob (oob : Int → Option Nat) (i : Int) : Option trieNode :=
  (oob i).map (fun p => if p = 0 then NULL else initNode 0)

/-- A memory with the tree of the single word `"c"`, frequency 5: the root at address 1
and the node of `"c"` at address 2. -/
def sampleHeap : Heap :=
  { cells := fun a =>
      if a = 1 then some (Cell.nodeCell 0 0 5 0 (fun i => if i = 2 then 2 else 0))
      else if a = 2 then some (Cell.nodeCell 1 5 5 0 (fun _ => 0))
      else none,
    next := 3 }

/-- Every cell allocated in `h` is the same in `h2`, and `malloc` has not moved back. -/
def keepsCells (h h2 : Heap) : Prop :=
  h.next ≤ h2.next ∧ ∀ a, a < h.next → h2.cells a = h.cells a

/-! ## Basic facts about characters and slots -/

theorem slotOf_eq_none_iff (c : Char) : slotOf c = none ↔ isLetter c = false := by
  unfold slotOf isLetter childIndex
  split <;> simp <;> omega

theorem slotOf_isSome_iff (c : Char) : (∃ i, slotOf c = some i) ↔ isLetter c = true := by
  unfold slotOf isLetter childIndex
  split <;> simp <;> omega

theorem slotOf_letter : ∀ i : Fin 26, slotOf (letter i) = some i := by decide

theorem letter_of_slotOf {c : Char} {i : Fin 26} (h : slotOf c = some i) : letter i = c := by
  unfold slotOf at h
  split at h
  · exact absurd h (by simp)
  · rename_i hc
    simp only [Option.some.injEq] at h
    subst h
    unfold letter
    unfold childIndex at hc ⊢
    have : 97 + ((c.toNat : Int) - 97).toNat = c.toNat := by omega
    simp only [this]
    exact Char.ofNat_toNat c

/-! ## Unfolding `insert` and `query` one character at a time -/

theorem insertFrom_NULL (junk : List Char → Int) (f : Int) (pre w : List Char) :
    insertFrom junk f pre w NULL = NULL := by
  cases w <;> rfl

theorem insertFrom_nil (junk : List Char → Int) (f : Int) (pre : List Char)
    (w fr s m : Int) (ch : Fin 26 → trieNode) :
    insertFrom junk f pre [] (node w fr s m ch) = node 1 (fr + f) (s + f) m ch := rfl

theorem insertFrom_cons_none (junk : List Char → Int) (f : Int) (pre rest : List Char)
    {c : Char} (h : slotOf c = none) (w fr s m : Int) (ch : Fin 26 → trieNode) :
    insertFrom junk f pre (c :: rest) (node w fr s m ch) = node w fr s m ch := by
  unfold slotOf at h
  split at h
  · rename_i hc
    simp only [insertFrom, hc, dite_true]
  · exact absurd h (by simp)

theorem insertFrom_cons_some (junk : List Char → Int) (f : Int) (pre rest : List Char)
    {c : Char} {i : Fin 26} (h : slotOf c = some i) (w fr s m : Int)
    (ch : Fin 26 → trieNode) :
    insertFrom junk f pre (c :: rest) (node w fr s m ch) =
      node w fr (s + f) (maxChildFreqLoop (ensureChild ch i (junk (pre ++ [c]))) m i)
        (Function.update (ensureChild ch i (junk (pre ++ [c]))) i
          (insertFrom junk f (pre ++ [c]) rest (ensureChild ch i (junk (pre ++ [c])) i))) := by
  unfold slotOf at h
  split at h
  · exact absurd h (by simp)
  · rename_i hc
    simp only [Option.some.injEq] at h
    subst h
    simp only [insertFrom, hc, dite_false]

theorem insert_zero (junk : List Char → Int) (t : trieNode) (w : List Char) (f : Int) :
    insert junk t w f 0 = insertFrom junk f [] w t := by
  simp [insert]

theorem ensureChild_same_present (ch : Fin 26 → trieNode) (i : Fin 26) (g : Int) :
    (ensureChild ch i g i).present = true := by
  unfold ensureChild
  split
  · assumption
  · simp [initNode, present]

theorem ensureChild_of_ne (ch : Fin 26 → trieNode) {i j : Fin 26} (g : Int) (h : j ≠ i) :
    ensureChild ch i g j = ch j := by
  unfold ensureChild
  split
  · rfl
  · simp [Function.update, h]

theorem nodeAt_NULL : ∀ p : List Char, nodeAt NULL p = NULL
  | [] => rfl
  | c :: rest => by
    unfold nodeAt
    cases slotOf c with
    | none => rfl
    | some i => exact nodeAt_NULL rest

theorem nodeAt_initNode_cons (g : Int) (c : Char) (r : List Char) :
    nodeAt (initNode g) (c :: r) = NULL := by
  unfold nodeAt
  cases slotOf c with
  | none => rfl
  | some i => exact nodeAt_NULL r

theorem present_false_iff (t : trieNode) : t.present = false ↔ t = NULL := by
  cases t <;> simp [present]

theorem nodeAt_ensureChild_cons (ch : Fin 26 → trieNode) (i : Fin 26) (g : Int)
    (c : Char) (r : List Char) :
    nodeAt (ensureChild ch i g i) (c :: r) = nodeAt (ch i) (c :: r) := by
  unfold ensureChild
  split
  · rfl
  · rename_i hp
    have hN : ch i = NULL := (present_false_iff _).1 (by simpa using hp)
    simp only [Function.update_same, hN]
    rw [nodeAt_initNode_cons, nodeAt_NULL]

theorem validPart_cons_letter {c : Char} (h : isLetter c = true) (rest : List Char) :
    validPart (c :: rest) = c :: validPart rest := by
  simp [validPart, List.takeWhile_cons, h]

theorem validPart_cons_other {c : Char} (h : isLetter c = false) (rest : List Char) :
    validPart (c :: rest) = [] := by
  simp [validPart, List.takeWhile_cons, h]

theorem nodeAt_cons_of_slot (t : trieNode) {c : Char} {i : Fin 26} (h : slotOf c = some i)
    (r : List Char) : nodeAt t (c :: r) = nodeAt (t.children i) r := by
  simp [nodeAt, h]

theorem nodeAt_cons_of_none (t : trieNode) {c : Char} (h : slotOf c = none)
    (r : List Char) : nodeAt t (c :: r) = NULL := by
  simp [nodeAt, h]

/-- Off the path spelled by the letters of `w`, `insert` leaves every subtree as it was. -/
theorem nodeAt_insertFrom_off (junk : List Char → Int) (f : Int) :
    ∀ (w pre p : List Char) (t : trieNode), ¬ p <+: validPart w →
      nodeAt (insertFrom junk f pre w t) p = nodeAt t p := by
  intro w
  induction w with
  | nil =>
    intro pre p t hp
    cases t with
    | NULL => rfl
    | node w0 fr s m ch =>
      cases p with
      | nil => exact absurd (List.nil_prefix) hp
      | cons d r =>
        rw [insertFrom_nil]
        cases hd : slotOf d with
        | none => rw [nodeAt_cons_of_none _ hd, nodeAt_cons_of_none _ hd]
        | some j => rw [nodeAt_cons_of_slot _ hd, nodeAt_cons_of_slot _ hd]; rfl
  | cons c rest ih =>
    intro pre p t hp
    cases t with
    | NULL => rw [insertFrom_NULL]
    | node w0 fr s m ch =>
      cases hc : slotOf c with
      | none => rw [insertFrom_cons_none junk f pre rest hc]
      | some i =>
        have hcl : isLetter c = true := (slotOf_isSome_iff c).1 ⟨i, hc⟩
        rw [validPart_cons_letter hcl] at hp
        rw [insertFrom_cons_some junk f pre rest hc]
        cases p with
        | nil => exact absurd (List.nil_prefix) hp
        | cons d r =>
          cases hd : slotOf d with
          | none => rw [nodeAt_cons_of_none _ hd, nodeAt_cons_of_none _ hd]
          | some j =>
            rw [nodeAt_cons_of_slot _ hd, nodeAt_cons_of_slot _ hd]
            simp only [children]
            by_cases hji : j = i
            · subst hji
              have hdc : d = c := by rw [← letter_of_slotOf hd, ← letter_of_slotOf hc]
              subst hdc
              have hr : ¬ r <+: validPart rest := by
                intro h
                exact hp ((List.cons_prefix_cons).2 ⟨rfl, h⟩)
              rw [Function.update_same, ih _ _ _ hr]
              cases r with
              | nil => exact absurd (List.nil_prefix) hr
              | cons e r2 => exact nodeAt_ensureChild_cons ch j _ e r2
            · rw [Function.update_noteq hji, ensureChild_of_ne ch _ hji]

theorem ensureChild_data (ch : Fin 26 → trieNode) (i : Fin 26) (g : Int) (r : List Char) :
    (nodeAt (ensureChild ch i g i) r).isWord = (nodeAt (ch i) r).isWord ∧
    (nodeAt (ensureChild ch i g i) r).freq = (nodeAt (ch i) r).freq ∧
    (nodeAt (ensureChild ch i g i) r).sumPrefixFreq = (nodeAt (ch i) r).sumPrefixFreq := by
  cases r with
  | cons e r2 => rw [nodeAt_ensureChild_cons]; exact ⟨rfl, rfl, rfl⟩
  | nil =>
    unfold ensureChild
    split
    · exact ⟨rfl, rfl, rfl⟩
    · rename_i hp
      have hN : ch i = NULL := (present_false_iff _).1 (by simpa using hp)
      simp [nodeAt, hN, initNode, isWord, freq, sumPrefixFreq]

/-- On the path spelled by the letters of `w`, `insert` makes every node present, marks
and credits the node of `w` itself, and adds `f` to `sumPrefixFreq` at every node it
walked through. -/
theorem nodeAt_insertFrom_on (junk : List Char → Int) (f : Int) :
    ∀ (w pre p : List Char) (t : trieNode), t.present = true → p <+: validPart w →
      (nodeAt (insertFrom junk f pre w t) p).present = true ∧
      (nodeAt (insertFrom junk f pre w t) p).isWord
        = (if p = w then 1 else (nodeAt t p).isWord) ∧
      (nodeAt (insertFrom junk f pre w t) p).freq
        = (nodeAt t p).freq + (if p = w then f else 0) ∧
      (nodeAt (insertFrom junk f pre w t) p).sumPrefixFreq
        = (nodeAt t p).sumPrefixFreq
          + (if p.length < (validPart w).length ∨ p = w then f else 0) := by
  intro w
  induction w with
  | nil =>
    intro pre p t ht hp
    have hp0 : p = [] := by simpa [validPart] using hp
    subst hp0
    cases t with
    | NULL => simp [present] at ht
    | node w0 fr s m ch =>
      simp [insertFrom_nil, nodeAt, present, isWord, freq, sumPrefixFreq]
  | cons c rest ih =>
    intro pre p t ht hp
    cases t with
    | NULL => simp [present] at ht
    | node w0 fr s m ch =>
      cases hc : slotOf c with
      | none =>
        have hcl : isLetter c = false := (slotOf_eq_none_iff c).1 hc
        rw [validPart_cons_other hcl] at hp ⊢
        have hp0 : p = [] := by simpa using hp
        subst hp0
        rw [insertFrom_cons_none junk f pre rest hc]
        simp [nodeAt, present]
      | some i =>
        have hcl : isLetter c = true := (slotOf_isSome_iff c).1 ⟨i, hc⟩
        rw [validPart_cons_letter hcl] at hp ⊢
        rw [insertFrom_cons_some junk f pre rest hc]
        cases p with
        | nil => simp [nodeAt, present, isWord, freq, sumPrefixFreq]
        | cons d r =>
          obtain ⟨hdc, hr⟩ := (List.cons_prefix_cons).1 hp
          subst hdc
          rw [nodeAt_cons_of_slot _ hc, nodeAt_cons_of_slot _ hc]
          simp only [children, Function.update_same]
          obtain ⟨h1, h2, h3, h4⟩ :=
            ih (pre ++ [d]) r (ensureChild ch i (junk (pre ++ [d])) i)
              (ensureChild_same_present ch i _) hr
          obtain ⟨e1, e2, e3⟩ := ensureChild_data ch i (junk (pre ++ [d])) r
          rw [e1] at h2
          rw [e2] at h3
          rw [e3] at h4
          refine ⟨h1, ?_, ?_, ?_⟩
          · rw [h2]; simp
          · rw [h3]; simp
          · rw [h4]; simp

/-! ## The two loops of `query` -/

theorem queryFrom_NULL (oob : Int → Option trieNode) (p : List Char) :
    queryFrom oob p NULL = some UNRECOGNIZED_PREFIX := by
  cases p <;> rfl

theorem queryFrom_nil (oob : Int → Option trieNode) (t : trieNode) :
    queryFrom oob [] t = some (answerAt t) := by
  cases t <;> rfl

theorem readChild_of_slot (oob : Int → Option trieNode) (ch : Fin 26 → trieNode) {c : Char}
    {i : Fin 26} (h : slotOf c = some i) : readChild oob ch (childIndex c) = some (ch i) := by
  unfold slotOf at h
  split at h
  · exact absurd h (by simp)
  · rename_i hc
    simp only [Option.some.injEq] at h
    subst h
    unfold readChild
    rw [dif_pos (by omega)]

theorem readChild_of_none (oob : Int → Option trieNode) (ch : Fin 26 → trieNode) {c : Char}
    (h : slotOf c = none) : readChild oob ch (childIndex c) = oob (childIndex c) := by
  unfold slotOf at h
  split at h
  · rename_i hc
    unfold readChild
    rw [dif_neg (by omega)]
  · exact absurd h (by simp)

theorem slot_in_range {c : Char} {i : Fin 26} (h : slotOf c = some i) :
    ¬ (childIndex c < 0 ∨ childIndex c ≥ 26) := by
  unfold slotOf at h
  split at h
  · exact absurd h (by simp)
  · assumption

theorem slot_out_of_range {c : Char} (h : slotOf c = none) :
    childIndex c < 0 ∨ childIndex c ≥ 26 := by
  unfold slotOf at h
  split at h
  · assumption
  · exact absurd h (by simp)

theorem queryFrom_cons_of_slot (oob : Int → Option trieNode) {c : Char} {i : Fin 26}
    (h : slotOf c = some i) (rest : List Char) (t : trieNode) :
    queryFrom oob (c :: rest) t = queryFrom oob rest (t.children i) := by
  cases t with
  | NULL => rw [queryFrom_NULL]; exact (queryFrom_NULL oob rest).symm
  | node w fr s m ch =>
    simp only [queryFrom, readChild_of_slot oob ch h, slot_in_range h, if_false, children]
    by_cases hp : (ch i).present = false
    · rw [if_pos hp, (present_false_iff _).1 hp, queryFrom_NULL]
    · rw [if_neg hp]

/-- On a symbol outside `a`..`z` at a non-null node, the answer hangs on the read
outside the array alone: the sentinel when the read finds a value, nothing when it
faults. -/
theorem queryFrom_cons_of_none (oob : Int → Option trieNode) {c : Char}
    (h : slotOf c = none) (rest : List Char) (w fr s m : Int) (ch : Fin 26 → trieNode) :
    queryFrom oob (c :: rest) (node w fr s m ch)
      = (oob (childIndex c)).map (fun _ => UNRECOGNIZED_PREFIX) := by
  simp only [queryFrom, readChild_of_none oob ch h, slot_out_of_range h, if_true]
  cases oob (childIndex c) with
  | none => rfl
  | some slot =>
    simp only [Option.map_some']
    split <;> rfl

/-- Descending along a prefix of letters and then answering at the node reached is what
`query` does. -/
theorem queryFrom_eq_nodeAt (oob : Int → Option trieNode) :
    ∀ (p : List Char) (t : trieNode), (∀ c ∈ p, isLetter c = true) →
      queryFrom oob p t = some (answerAt (nodeAt t p)) := by
  intro p
  induction p with
  | nil => intro t _; exact queryFrom_nil oob t
  | cons c rest ih =>
    intro t hp
    obtain ⟨i, hc⟩ := (slotOf_isSome_iff c).2 (hp c (List.mem_cons_self _ _))
    rw [queryFrom_cons_of_slot oob hc, nodeAt_cons_of_slot _ hc]
    exact ih _ (fun x hx => hp x (List.mem_cons_of_mem _ hx))

theorem query_eq_nodeAt (oob : Int → Option trieNode) (t : trieNode) (p : List Char)
    (hp : ∀ c ∈ p, isLetter c = true) :
    query oob t p 0 = some (answerAt (nodeAt t p)) := by
  simp [query, queryFrom_eq_nodeAt oob p t hp]

theorem letters_of_nodeAt_present : ∀ (p : List Char) (t : trieNode),
    (nodeAt t p).present = true → ∀ c ∈ p, isLetter c = true := by
  intro p
  induction p with
  | nil => intro t _ c hc; exact absurd hc (List.not_mem_nil _)
  | cons a r ih =>
    intro t h c hc
    cases ha : slotOf a with
    | none => rw [nodeAt_cons_of_none _ ha] at h; exact absurd h (by simp [present])
    | some i =>
      rw [nodeAt_cons_of_slot _ ha] at h
      rcases List.mem_cons.1 hc with rfl | hc
      · exact (slotOf_isSome_iff c).1 ⟨i, ha⟩
      · exact ih _ h c hc

theorem collect_foldl (ch : Fin 26 → trieNode) (m : Int) :
    ∀ (l : List (Fin 26)) (acc : List Char),
      l.foldl (fun result i =>
          match ch i with
          | NULL => result
          | node _ _ s _ _ => if s = m then result ++ [letter i] else result) acc
        = acc ++ (l.filter (tied ch m)).map letter := by
  intro l
  induction l with
  | nil => intro acc; simp
  | cons a l ih =>
    intro acc
    rw [List.foldl_cons, ih]
    cases h : ch a with
    | NULL => simp [List.filter_cons, tied, h, present]
    | node w fr s m2 ch2 =>
      by_cases hs : s = m
      · simp [List.filter_cons, tied, h, present, sumPrefixFreq, hs]
      · simp [List.filter_cons, tied, h, present, sumPrefixFreq, hs]

theorem queryCollect_eq (ch : Fin 26 → trieNode) (m : Int) :
    queryCollect ch m = ((List.finRange 26).filter (tied ch m)).map letter := by
  unfold queryCollect
  rw [collect_foldl]
  simp

theorem maxFreq_foldl (ch : Fin 26 → trieNode) :
    ∀ (l : List (Fin 26)) (acc : Int),
      acc ≤ l.foldl (fun maxFreq i =>
          match ch i with
          | NULL => maxFreq
          | node _ _ s _ _ => if s > maxFreq then s else maxFreq) acc ∧
      (∀ i ∈ l, (ch i).present = true → (ch i).sumPrefixFreq ≤
        l.foldl (fun maxFreq i =>
          match ch i with
          | NULL => maxFreq
          | node _ _ s _ _ => if s > maxFreq then s else maxFreq) acc) ∧
      (l.foldl (fun maxFreq i =>
          match ch i with
          | NULL => maxFreq
          | node _ _ s _ _ => if s > maxFreq then s else maxFreq) acc = acc ∨
        ∃ i ∈ l, (ch i).present = true ∧ (ch i).sumPrefixFreq =
          l.foldl (fun maxFreq i =>
            match ch i with
            | NULL => maxFreq
            | node _ _ s _ _ => if s > maxFreq then s else maxFreq) acc) := by
  intro l
  induction l with
  | nil => intro acc; simp
  | cons a l ih =>
    intro acc
    rw [List.foldl_cons]
    cases h : ch a with
    | NULL =>
      obtain ⟨h1, h2, h3⟩ := ih acc
      refine ⟨h1, ?_, ?_⟩
      · intro i hi hpi
        rcases List.mem_cons.1 hi with rfl | hi
        · simp [h, present] at hpi
        · exact h2 i hi hpi
      · rcases h3 with h3 | ⟨i, hi, hpi, hsi⟩
        · exact Or.inl h3
        · exact Or.inr ⟨i, List.mem_cons_of_mem _ hi, hpi, hsi⟩
    | node w fr s m2 ch2 =>
      simp only []
      by_cases hs : s > acc
      · rw [if_pos hs]
        obtain ⟨h1, h2, h3⟩ := ih s
        refine ⟨by omega, ?_, ?_⟩
        · intro i hi hpi
          rcases List.mem_cons.1 hi with rfl | hi
          · simpa [h, sumPrefixFreq] using h1
          · exact h2 i hi hpi
        · right
          rcases h3 with h3 | ⟨i, hi, hpi, hsi⟩
          · exact ⟨a, List.mem_cons_self _ _, by simp [h, present],
              by simp [h, sumPrefixFreq, h3]⟩
          · exact ⟨i, List.mem_cons_of_mem _ hi, hpi, hsi⟩
      · rw [if_neg hs]
        obtain ⟨h1, h2, h3⟩ := ih acc
        refine ⟨h1, ?_, ?_⟩
        · intro i hi hpi
          rcases List.mem_cons.1 hi with rfl | hi
          · have : s ≤ acc := by omega
            simpa [h, sumPrefixFreq] using le_trans this h1
          · exact h2 i hi hpi
        · rcases h3 with h3 | ⟨i, hi, hpi, hsi⟩
          · exact Or.inl h3
          · exact Or.inr ⟨i, List.mem_cons_of_mem _ hi, hpi, hsi⟩

theorem queryMaxFreq_nonneg (ch : Fin 26 → trieNode) : 0 ≤ queryMaxFreq ch :=
  (maxFreq_foldl ch (List.finRange 26) 0).1

theorem queryMaxFreq_upper (ch : Fin 26 → trieNode) (i : Fin 26)
    (h : (ch i).present = true) : (ch i).sumPrefixFreq ≤ queryMaxFreq ch :=
  (maxFreq_foldl ch (List.finRange 26) 0).2.1 i (List.mem_finRange i) h

theorem queryMaxFreq_attained (ch : Fin 26 → trieNode) :
    queryMaxFreq ch = 0 ∨
      ∃ i, (ch i).present = true ∧ (ch i).sumPrefixFreq = queryMaxFreq ch := by
  rcases (maxFreq_foldl ch (List.finRange 26) 0).2.2 with h | ⟨i, _, hp, hs⟩
  · exact Or.inl h
  · exact Or.inr ⟨i, hp, hs⟩

/-! ## What `query` answers at a node -/

theorem allNonneg_node_iff (w fr s m : Int) (ch : Fin 26 → trieNode) :
    allNonneg (node w fr s m ch) = true ↔ 0 ≤ s ∧ ∀ i, allNonneg (ch i) = true := by
  simp [allNonneg, List.mem_finRange]

theorem allNonneg_children {t : trieNode} (h : allNonneg t) (i : Fin 26) :
    allNonneg (t.children i) := by
  cases t with
  | NULL => rfl
  | node w fr s m ch => exact ((allNonneg_node_iff w fr s m ch).1 h).2 i

theorem allNonneg_nodeAt : ∀ (p : List Char) (t : trieNode), allNonneg t →
    allNonneg (nodeAt t p) := by
  intro p
  induction p with
  | nil => intro t h; exact h
  | cons c rest ih =>
    intro t h
    cases hc : slotOf c with
    | none => rw [nodeAt_cons_of_none _ hc]; rfl
    | some i => rw [nodeAt_cons_of_slot _ hc]; exact ih _ (allNonneg_children h i)

theorem allNonneg_sum {t : trieNode} (h : allNonneg t) : 0 ≤ t.sumPrefixFreq := by
  cases t with
  | NULL => simp [sumPrefixFreq]
  | node w fr s m ch => exact ((allNonneg_node_iff w fr s m ch).1 h).1

theorem letter_lt_letter : ∀ i j : Fin 26, i < j → letter i < letter j := by decide

theorem letter_injective : ∀ i j : Fin 26, letter i = letter j → i = j := by decide

theorem isLetter_letter : ∀ i : Fin 26, isLetter (letter i) = true := by decide

theorem space_ne_letter : ∀ i : Fin 26, letter i ≠ ' ' := by decide

/-- When the children carry no negative `sumPrefixFreq`, the equality test of the second
loop selects exactly the present children of largest `sumPrefixFreq`. -/
theorem tied_eq_isTop (ch : Fin 26 → trieNode)
    (hnn : ∀ i, 0 ≤ (ch i).sumPrefixFreq) (i : Fin 26) :
    tied ch (queryMaxFreq ch) i = isTop ch i := by
  unfold tied isTop
  cases hp : (ch i).present with
  | false => simp
  | true =>
    simp only [Bool.true_and, decide_eq_decide]
    constructor
    · intro h j hj
      rw [h]
      exact queryMaxFreq_upper ch j hj
    · intro h
      apply le_antisymm (queryMaxFreq_upper ch i hp)
      rcases queryMaxFreq_attained ch with h0 | ⟨j, hj, hs⟩
      · rw [h0]; exact hnn i
      · rw [← hs]; exact h j hj

theorem queryHere_eq (ch : Fin 26 → trieNode) :
    queryHere ch =
      if ((List.finRange 26).filter (tied ch (queryMaxFreq ch))).map letter = []
      then UNRECOGNIZED_PREFIX
      else ((List.finRange 26).filter (tied ch (queryMaxFreq ch))).map letter := by
  simp only [queryHere, queryCollect_eq, List.length_eq_zero]

theorem answerAt_of_nonneg (t : trieNode)
    (hnn : ∀ i, 0 ≤ (t.children i).sumPrefixFreq) :
    answerAt t =
      if ((List.finRange 26).filter (isTop t.children)).map letter = []
      then UNRECOGNIZED_PREFIX
      else ((List.finRange 26).filter (isTop t.children)).map letter := by
  cases t with
  | NULL => simp [answerAt, isTop, children, present]
  | node w fr s m ch =>
    rw [answerAt, queryHere_eq]
    have : tied ch (queryMaxFreq ch) = isTop ch := funext (tied_eq_isTop ch hnn)
    rw [this]
    rfl

theorem exists_isTop (ch : Fin 26 → trieNode) (hnn : ∀ i, 0 ≤ (ch i).sumPrefixFreq)
    (h : ∃ i, (ch i).present = true) : ∃ i, isTop ch i = true := by
  obtain ⟨i, hi⟩ := h
  rcases queryMaxFreq_attained ch with h0 | ⟨j, hj, hs⟩
  · refine ⟨i, ?_⟩
    rw [← tied_eq_isTop ch hnn]
    have := queryMaxFreq_upper ch i hi
    have := hnn i
    simp [tied, hi]
    omega
  · refine ⟨j, ?_⟩
    rw [← tied_eq_isTop ch hnn]
    simp [tied, hj, hs]

/-- Claim C1. In a tree without negative `sumPrefixFreq`, when the path of the prefix
ends at a node with at least one child, `query` returns the letters of exactly those
present children whose `sumPrefixFreq` is largest among the present children, in strictly
ascending order (so each once), with nothing in between. -/
theorem C1_query_returns_top_children (oob : Int → Option trieNode) (root : trieNode)
    (p : List Char) (hnn : allNonneg root = true)
    (hch : ∃ i, ((nodeAt root p).children i).present = true) :
    query oob root p 0
        = some (((List.finRange 26).filter (isTop (nodeAt root p).children)).map letter) ∧
      (((List.finRange 26).filter (isTop (nodeAt root p).children)).map letter).Pairwise
        (fun a b => a < b) ∧
      ∀ i : Fin 26,
        letter i ∈ ((List.finRange 26).filter (isTop (nodeAt root p).children)).map letter ↔
          isTop (nodeAt root p).children i = true := by
  have hN : ∀ i, 0 ≤ ((nodeAt root p).children i).sumPrefixFreq := fun i =>
    allNonneg_sum (allNonneg_children (allNonneg_nodeAt p root hnn) i)
  have hpres : (nodeAt root p).present = true := by
    obtain ⟨i, hi⟩ := hch
    cases h : nodeAt root p with
    | NULL => rw [h] at hi; exact absurd hi (by simp [children, present])
    | node w fr s m ch => rfl
  refine ⟨?_, ?_, ?_⟩
  · rw [query_eq_nodeAt oob root p (letters_of_nodeAt_present p root hpres),
      answerAt_of_nonneg _ hN, if_neg]
    obtain ⟨i, hi⟩ := exists_isTop _ hN hch
    intro h
    have hm : letter i ∈
        ((List.finRange 26).filter (isTop (nodeAt root p).children)).map letter :=
      List.mem_map.2 ⟨i, List.mem_filter.2 ⟨List.mem_finRange i, hi⟩, rfl⟩
    rw [h] at hm
    exact absurd hm (List.not_mem_nil _)
  · rw [List.pairwise_map]
    exact ((List.pairwise_lt_finRange 26).sublist (List.filter_sublist _)).imp
      (fun {a b} h => letter_lt_letter a b h)
  · intro i
    rw [List.mem_map]
    constructor
    · rintro ⟨j, hj, hji⟩
      rw [← letter_injective j i hji]
      exact (List.mem_filter.1 hj).2
    · intro h
      exact ⟨i, List.mem_filter.2 ⟨List.mem_finRange i, h⟩, rfl⟩

theorem allNonneg_initNode (g : Int) : allNonneg (initNode g) :=
  (allNonneg_node_iff 0 0 0 g _).2 ⟨le_refl 0, fun _ => rfl⟩

theorem allNonneg_insertFrom (junk : List Char → Int) (f : Int) (hf : 0 ≤ f) :
    ∀ (w pre : List Char) (t : trieNode), allNonneg t →
      allNonneg (insertFrom junk f pre w t) := by
  intro w
  induction w with
  | nil =>
    intro pre t ht
    cases t with
    | NULL => rfl
    | node w0 fr s m ch =>
      rw [insertFrom_nil]
      have ht := (allNonneg_node_iff w0 fr s m ch).1 ht
      exact (allNonneg_node_iff _ _ _ _ _).2 ⟨add_nonneg ht.1 hf, ht.2⟩
  | cons c rest ih =>
    intro pre t ht
    cases t with
    | NULL => rfl
    | node w0 fr s m ch =>
      cases hc : slotOf c with
      | none => rw [insertFrom_cons_none junk f pre rest hc]; exact ht
      | some i =>
        rw [insertFrom_cons_some junk f pre rest hc]
        have ht := (allNonneg_node_iff w0 fr s m ch).1 ht
        refine (allNonneg_node_iff _ _ _ _ _).2 ⟨add_nonneg ht.1 hf, fun j => ?_⟩
        by_cases hji : j = i
        · subst hji
          rw [Function.update_same]
          apply ih
          unfold ensureChild
          split
          · exact ht.2 j
          · rw [Function.update_same]; exact allNonneg_initNode _
        · rw [Function.update_noteq hji, ensureChild_of_ne ch _ hji]
          exact ht.2 j

theorem allNonneg_insert (junk : List Char → Int) (t : trieNode) (w : List Char) (f : Int)
    (hf : 0 ≤ f) (ht : allNonneg t) : allNonneg (insert junk t w f 0) := by
  rw [insert_zero]
  exact allNonneg_insertFrom junk f hf w [] t ht

/-- Witness of C1: after `insert("a", 1)` and `insert("b", 1)` on a fresh root, the
query of the empty prefix returns `"ab"`. -/
theorem C1_witness :
    allNonneg (insert (fun _ => 0) (insert (fun _ => 0) (initNode 0) "a".toList 1 0)
        "b".toList 1 0) = true ∧
      query (fun _ => none)
        (insert (fun _ => 0) (insert (fun _ => 0) (initNode 0) "a".toList 1 0)
          "b".toList 1 0) [] 0 = some "ab".toList :=
  ⟨by decide,
    (C1_query_returns_top_children (fun _ => none)
      (insert (fun _ => 0) (insert (fun _ => 0) (initNode 0) "a".toList 1 0) "b".toList 1 0)
      [] (by decide) ⟨0, by decide⟩).1.trans (by decide)⟩

/-! ## What one `insert` of a word over `a`..`z` does at every path -/

theorem validPart_eq_self {w : List Char} (h : ∀ c ∈ w, isLetter c = true) :
    validPart w = w := by
  unfold validPart
  exact List.takeWhile_eq_self_iff.2 h

theorem present_insertFrom (junk : List Char → Int) (f : Int) (pre w : List Char)
    (t : trieNode) (ht : t.present = true) : (insertFrom junk f pre w t).present = true := by
  have := (nodeAt_insertFrom_on junk f w pre [] t ht List.nil_prefix).1
  simpa [nodeAt] using this

theorem nodeAt_insert_valid (junk : List Char → Int) (f : Int) (w : List Char)
    (hw : ∀ c ∈ w, isLetter c = true) (t : trieNode) (ht : t.present = true)
    (p : List Char) :
    (nodeAt (insert junk t w f 0) p).present
        = ((nodeAt t p).present || decide (p <+: w)) ∧
      (nodeAt (insert junk t w f 0) p).isWord
        = (if p = w then 1 else (nodeAt t p).isWord) ∧
      (nodeAt (insert junk t w f 0) p).freq
        = (nodeAt t p).freq + (if p = w then f else 0) ∧
      (nodeAt (insert junk t w f 0) p).sumPrefixFreq
        = (nodeAt t p).sumPrefixFreq + (if p <+: w then f else 0) := by
  rw [insert_zero]
  by_cases hp : p <+: w
  · have hp2 : p <+: validPart w := by rw [validPart_eq_self hw]; exact hp
    obtain ⟨h1, h2, h3, h4⟩ := nodeAt_insertFrom_on junk f w [] p t ht hp2
    refine ⟨by simp [h1, hp], h2, h3, ?_⟩
    rw [h4, validPart_eq_self hw, if_pos hp, if_pos]
    by_cases hlen : p.length < w.length
    · exact Or.inl hlen
    · right
      exact List.IsPrefix.eq_of_length_le hp (by omega)
  · have hp2 : ¬ p <+: validPart w := by rw [validPart_eq_self hw]; exact hp
    have hne : p ≠ w := fun h => hp (h ▸ List.prefix_refl p)
    rw [nodeAt_insertFrom_off junk f w [] p t hp2]
    simp [hp, hne]

/-! ## What a sequence of inserts does at every path -/

theorem insertAll_nil (junk : List Char → Int) (t : trieNode) : insertAll junk t [] = t := rfl

theorem insertAll_cons (junk : List Char → Int) (t : trieNode) (e : List Char × Int)
    (L : List (List Char × Int)) :
    insertAll junk t (e :: L) = insertAll junk (insert junk t e.1 e.2 0) L := rfl

theorem present_insert (junk : List Char → Int) (t : trieNode) (w : List Char) (f : Int)
    (ht : t.present = true) : (insert junk t w f 0).present = true := by
  rw [insert_zero]
  exact present_insertFrom junk f [] w t ht

theorem freqSum_nil (q : List Char → Bool) : freqSum [] q = 0 := rfl

theorem freqSum_cons (e : List Char × Int) (L : List (List Char × Int))
    (q : List Char → Bool) :
    freqSum (e :: L) q = (if q e.1 = true then e.2 else 0) + freqSum L q := by
  unfold freqSum
  by_cases h : q e.1 = true <;> simp [List.filter_cons, h]

theorem freqSum_nonneg (L : List (List Char × Int)) (q : List Char → Bool)
    (h : ∀ e ∈ L, 0 ≤ e.2) : 0 ≤ freqSum L q := by
  induction L with
  | nil => simp [freqSum_nil]
  | cons e L ih =>
    rw [freqSum_cons]
    have h1 : 0 ≤ e.2 := h e (List.mem_cons_self _ _)
    have h2 := ih (fun x hx => h x (List.mem_cons_of_mem _ hx))
    split <;> omega

theorem nodeAt_insertAll (junk : List Char → Int) :
    ∀ (L : List (List Char × Int)) (t : trieNode), t.present = true → wordsValid L →
      ∀ p : List Char,
        (nodeAt (insertAll junk t L) p).present
          = ((nodeAt t p).present || L.any (fun e => decide (p <+: e.1))) ∧
        (nodeAt (insertAll junk t L) p).isWord
          = (if L.any (fun e => decide (p = e.1)) = true then 1 else (nodeAt t p).isWord) ∧
        (nodeAt (insertAll junk t L) p).freq
          = (nodeAt t p).freq + freqSum L (fun w => decide (p = w)) ∧
        (nodeAt (insertAll junk t L) p).sumPrefixFreq
          = (nodeAt t p).sumPrefixFreq + freqSum L (fun w => decide (p <+: w)) := by
  intro L
  induction L with
  | nil => intro t _ _ p; simp [insertAll_nil, freqSum_nil]
  | cons e L ih =>
    intro t ht hL p
    have hw : ∀ c ∈ e.1, isLetter c = true := hL e (List.mem_cons_self _ _)
    have hL2 : wordsValid L := fun x hx => hL x (List.mem_cons_of_mem _ hx)
    obtain ⟨a1, a2, a3, a4⟩ :=
      ih (insert junk t e.1 e.2 0) (present_insert junk t e.1 e.2 ht) hL2 p
    obtain ⟨b1, b2, b3, b4⟩ := nodeAt_insert_valid junk e.2 e.1 hw t ht p
    rw [insertAll_cons, a1, a2, a3, a4, b1, b2, b3, b4, freqSum_cons, freqSum_cons]
    refine ⟨?_, ?_, ?_, ?_⟩
    · simp [Bool.or_assoc]
    · by_cases h1 : p = e.1
      · simp [List.any_cons, h1]
      · have h2 : decide (p = e.1) = false := by simp [h1]
        simp only [List.any_cons, h2, Bool.false_or, if_neg h1]
    · simp only [decide_eq_true_eq]; ring
    · simp only [decide_eq_true_eq]; ring

theorem insertAll_present (junk : List Char → Int) (L : List (List Char × Int))
    (t : trieNode) (ht : t.present = true) : (insertAll junk t L).present = true := by
  induction L generalizing t with
  | nil => exact ht
  | cons e L ih => rw [insertAll_cons]; exact ih _ (present_insert junk t e.1 e.2 ht)

theorem nodeAt_initNode (g : Int) (p : List Char) :
    (nodeAt (initNode g) p).present = decide (p = []) ∧
      (nodeAt (initNode g) p).isWord = 0 ∧ (nodeAt (initNode g) p).freq = 0 ∧
      (nodeAt (initNode g) p).sumPrefixFreq = 0 := by
  cases p with
  | nil => simp [nodeAt, initNode, present, isWord, freq, sumPrefixFreq]
  | cons c r =>
    rw [nodeAt_initNode_cons]
    simp [present, isWord, freq, sumPrefixFreq]

/-- The tree built from a fresh root by the entries of `L`, read at every path: a node
exists at the root and at every initial part of an inserted word, and its fields are the
sums over the entries the node stands for. -/
theorem nodeAt_build (junk : List Char → Int) (g : Int) (L : List (List Char × Int))
    (hL : wordsValid L) (p : List Char) :
    (nodeAt (insertAll junk (initNode g) L) p).present
        = (decide (p = []) || L.any (fun e => decide (p <+: e.1))) ∧
      (nodeAt (insertAll junk (initNode g) L) p).isWord
        = (if L.any (fun e => decide (p = e.1)) = true then 1 else 0) ∧
      (nodeAt (insertAll junk (initNode g) L) p).freq = freqSum L (fun w => decide (p = w)) ∧
      (nodeAt (insertAll junk (initNode g) L) p).sumPrefixFreq
        = freqSum L (fun w => decide (p <+: w)) := by
  obtain ⟨a1, a2, a3, a4⟩ := nodeAt_insertAll junk L (initNode g) rfl hL p
  obtain ⟨b1, b2, b3, b4⟩ := nodeAt_initNode g p
  rw [a1, a2, a3, a4, b1, b2, b3, b4]
  simp

theorem nodeAt_append : ∀ (p q : List Char) (t : trieNode),
    nodeAt t (p ++ q) = nodeAt (nodeAt t p) q := by
  intro p
  induction p with
  | nil => intro q t; rfl
  | cons c r ih =>
    intro q t
    rw [List.cons_append]
    cases hc : slotOf c with
    | none => rw [nodeAt_cons_of_none _ hc, nodeAt_cons_of_none _ hc, nodeAt_NULL]
    | some i => rw [nodeAt_cons_of_slot _ hc, nodeAt_cons_of_slot _ hc, ih]

theorem nodeAt_snoc_letter (t : trieNode) (p : List Char) (i : Fin 26) :
    nodeAt t (p ++ [letter i]) = (nodeAt t p).children i := by
  rw [nodeAt_append, nodeAt_cons_of_slot _ (slotOf_letter i)]
  rfl

/-! ## Agreement of `query` with the list of inserted entries -/

theorem child_present_build (junk : List Char → Int) (g : Int) (L : List (List Char × Int))
    (hL : wordsValid L) (P : List Char) (i : Fin 26) :
    ((nodeAt (insertAll junk (initNode g) L) P).children i).present
      = continues L P (letter i) := by
  rw [← nodeAt_snoc_letter, (nodeAt_build junk g L hL _).1]
  simp [continues]

theorem child_sum_build (junk : List Char → Int) (g : Int) (L : List (List Char × Int))
    (hL : wordsValid L) (P : List Char) (i : Fin 26) :
    ((nodeAt (insertAll junk (initNode g) L) P).children i).sumPrefixFreq
      = mass L P (letter i) := by
  rw [← nodeAt_snoc_letter, (nodeAt_build junk g L hL _).2.2.2]
  rfl

theorem mem_continuing (L : List (List Char × Int)) (P : List Char) (d : Char) :
    d ∈ alphabet.filter (continues L P) ↔
      ∃ j : Fin 26, d = letter j ∧ continues L P (letter j) = true := by
  unfold alphabet
  rw [List.mem_filter, List.mem_map]
  constructor
  · rintro ⟨⟨j, _, rfl⟩, h⟩
    exact ⟨j, rfl, h⟩
  · rintro ⟨j, rfl, h⟩
    exact ⟨⟨j, List.mem_finRange j, rfl⟩, h⟩

/-- The answer at the node of `P` in the tree built from `L`, in the words of the
reference definition. -/
theorem answer_build_eq_reference (junk : List Char → Int) (g : Int)
    (L : List (List Char × Int)) (P : List Char)
    (hL : wordsValid L) (hf : ∀ e ∈ L, 0 ≤ e.2) :
    answerAt (nodeAt (insertAll junk (initNode g) L) P) = referenceQuery L P := by
  have hsum := child_sum_build junk g L hL P
  have hpres := child_present_build junk g L hL P
  have hnn : ∀ i, 0 ≤ ((nodeAt (insertAll junk (initNode g) L) P).children i).sumPrefixFreq := by
    intro i
    rw [hsum]
    exact freqSum_nonneg L _ hf
  rw [answerAt_of_nonneg _ hnn]
  have htop : ∀ i : Fin 26,
      isTop (nodeAt (insertAll junk (initNode g) L) P).children i
        = (continues L P (letter i) &&
            (alphabet.filter (continues L P)).all
              (fun d => decide (mass L P d ≤ mass L P (letter i)))) := by
    intro i
    unfold isTop
    rw [hpres]
    congr 1
    rw [Bool.eq_iff_iff]
    simp only [decide_eq_true_eq, List.all_eq_true]
    constructor
    · intro h d hd
      obtain ⟨j, rfl, hj⟩ := (mem_continuing L P d).1 hd
      have := h j (by rw [hpres]; exact hj)
      rwa [hsum, hsum] at this
    · intro h j hj
      rw [hpres] at hj
      rw [hsum, hsum]
      exact h (letter j) ((mem_continuing L P _).2 ⟨j, rfl, hj⟩)
  have hlist : ((List.finRange 26).filter
        (isTop (nodeAt (insertAll junk (initNode g) L) P).children)).map letter
      = (alphabet.filter (continues L P)).filter
          (fun c => (alphabet.filter (continues L P)).all
            (fun d => decide (mass L P d ≤ mass L P c))) := by
    rw [List.filter_filter]
    unfold alphabet
    rw [List.filter_map]
    congr 1
    apply List.filter_congr
    intro i _
    rw [htop]
    simp [Function.comp, Bool.and_comm, alphabet]
  unfold referenceQuery
  simp only []
  rw [hlist]
  by_cases hC : alphabet.filter (continues L P) = []
  · rw [if_pos hC, hC]
    simp
  · rw [if_neg hC, if_neg]
    rw [← hlist]
    obtain ⟨d, hd⟩ := List.exists_mem_of_ne_nil _ hC
    obtain ⟨j, _, hj⟩ := (mem_continuing L P d).1 hd
    obtain ⟨i, hi⟩ := exists_isTop _ hnn ⟨j, by rw [hpres]; exact hj⟩
    intro h
    have hm : letter i ∈ ((List.finRange 26).filter
        (isTop (nodeAt (insertAll junk (initNode g) L) P).children)).map letter :=
      List.mem_map.2 ⟨i, List.mem_filter.2 ⟨List.mem_finRange i, hi⟩, rfl⟩
    rw [h] at hm
    exact absurd hm (List.not_mem_nil _)

theorem query_build_eq_reference (oob : Int → Option trieNode) (junk : List Char → Int)
    (g : Int) (L : List (List Char × Int)) (P : List Char)
    (hL : wordsValid L) (hf : ∀ e ∈ L, 0 ≤ e.2) (hP : ∀ c ∈ P, isLetter c = true) :
    query oob (insertAll junk (initNode g) L) P 0 = some (referenceQuery L P) := by
  rw [query_eq_nodeAt oob _ P hP, answer_build_eq_reference junk g L P hL hf]

/-! ## The aggregation invariant -/

theorem subtreeFreq_node (w fr s m : Int) (ch : Fin 26 → trieNode) :
    subtreeFreq (node w fr s m ch)
      = fr + Finset.univ.sum (fun i : Fin 26 => subtreeFreq (ch i)) := by
  rw [Fin.sum_univ_def]
  rfl

theorem aggregated_node_iff (w fr s m : Int) (ch : Fin 26 → trieNode) :
    aggregated (node w fr s m ch) = true ↔
      s = fr + Finset.univ.sum (fun i : Fin 26 => subtreeFreq (ch i)) ∧
        ∀ i, aggregated (ch i) = true := by
  rw [Fin.sum_univ_def]
  simp [aggregated, List.mem_finRange]

theorem subtreeFreq_initNode (g : Int) : subtreeFreq (initNode g) = 0 := by
  unfold initNode
  rw [subtreeFreq_node]
  simp [subtreeFreq]

theorem aggregated_initNode (g : Int) : aggregated (initNode g) := by
  unfold initNode
  rw [aggregated_node_iff]
  simp [subtreeFreq, aggregated]

theorem subtreeFreq_ensureChild (ch : Fin 26 → trieNode) (i : Fin 26) (g : Int) (j : Fin 26) :
    subtreeFreq (ensureChild ch i g j) = subtreeFreq (ch j) := by
  by_cases hji : j = i
  · subst hji
    unfold ensureChild
    split
    · rfl
    · rename_i hp
      have hN : ch j = NULL := (present_false_iff _).1 (by simpa using hp)
      rw [Function.update_same, hN, subtreeFreq_initNode]
      rfl
  · rw [ensureChild_of_ne ch _ hji]

theorem aggregated_ensureChild (ch : Fin 26 → trieNode) (i : Fin 26) (g : Int)
    (h : ∀ j, aggregated (ch j)) (j : Fin 26) : aggregated (ensureChild ch i g j) := by
  unfold ensureChild
  split
  · exact h j
  · by_cases hji : j = i
    · subst hji; rw [Function.update_same]; exact aggregated_initNode g
    · rw [Function.update_noteq hji]; exact h j

/-- Inserting a word over `a`..`z` with frequency `f` raises the total of the `freq`
fields of the tree by `f`. -/
theorem subtreeFreq_insertFrom (junk : List Char → Int) (f : Int) :
    ∀ (w pre : List Char) (t : trieNode), (∀ c ∈ w, isLetter c = true) →
      t.present = true → subtreeFreq (insertFrom junk f pre w t) = subtreeFreq t + f := by
  intro w
  induction w with
  | nil =>
    intro pre t _ ht
    cases t with
    | NULL => simp [present] at ht
    | node w0 fr s m ch => rw [insertFrom_nil, subtreeFreq_node, subtreeFreq_node]; ring
  | cons c rest ih =>
    intro pre t hw ht
    cases t with
    | NULL => simp [present] at ht
    | node w0 fr s m ch =>
      have hcl : isLetter c = true := hw c (List.mem_cons_self _ _)
      obtain ⟨i, hc⟩ := (slotOf_isSome_iff c).2 hcl
      rw [insertFrom_cons_some junk f pre rest hc, subtreeFreq_node, subtreeFreq_node]
      have hpt : ∀ j : Fin 26,
          subtreeFreq (Function.update (ensureChild ch i (junk (pre ++ [c]))) i
            (insertFrom junk f (pre ++ [c]) rest (ensureChild ch i (junk (pre ++ [c])) i)) j)
          = subtreeFreq (ch j) + (if j = i then f else 0) := by
        intro j
        by_cases hji : j = i
        · subst hji
          rw [Function.update_same,
            ih _ _ (fun x hx => hw x (List.mem_cons_of_mem _ hx))
              (ensureChild_same_present ch j _),
            subtreeFreq_ensureChild, if_pos rfl]
        · rw [Function.update_noteq hji, subtreeFreq_ensureChild, if_neg hji, add_zero]
      rw [Finset.sum_congr rfl (fun j _ => hpt j), Finset.sum_add_distrib]
      simp
      ring

/-- Inserting a word over `a`..`z` keeps the aggregation invariant. -/
theorem aggregated_insertFrom (junk : List Char → Int) (f : Int) :
    ∀ (w pre : List Char) (t : trieNode), (∀ c ∈ w, isLetter c = true) →
      aggregated t → aggregated (insertFrom junk f pre w t) := by
  intro w
  induction w with
  | nil =>
    intro pre t _ ht
    cases t with
    | NULL => rfl
    | node w0 fr s m ch =>
      rw [insertFrom_nil]
      have ht := (aggregated_node_iff w0 fr s m ch).1 ht
      refine (aggregated_node_iff _ _ _ _ _).2 ⟨?_, ht.2⟩
      rw [ht.1]; ring
  | cons c rest ih =>
    intro pre t hw ht
    cases t with
    | NULL => rfl
    | node w0 fr s m ch =>
      have ht := (aggregated_node_iff w0 fr s m ch).1 ht
      have hcl : isLetter c = true := hw c (List.mem_cons_self _ _)
      have hrest : ∀ x ∈ rest, isLetter x = true := fun x hx => hw x (List.mem_cons_of_mem _ hx)
      obtain ⟨i, hc⟩ := (slotOf_isSome_iff c).2 hcl
      rw [insertFrom_cons_some junk f pre rest hc]
      refine (aggregated_node_iff _ _ _ _ _).2 ⟨?_, ?_⟩
      · have hpt : ∀ j : Fin 26,
            subtreeFreq (Function.update (ensureChild ch i (junk (pre ++ [c]))) i
              (insertFrom junk f (pre ++ [c]) rest
                (ensureChild ch i (junk (pre ++ [c])) i)) j)
            = subtreeFreq (ch j) + (if j = i then f else 0) := by
          intro j
          by_cases hji : j = i
          · subst hji
            rw [Function.update_same,
              subtreeFreq_insertFrom junk f rest _ _ hrest (ensureChild_same_present ch j _),
              subtreeFreq_ensureChild, if_pos rfl]
          · rw [Function.update_noteq hji, subtreeFreq_ensureChild, if_neg hji, add_zero]
        rw [Finset.sum_congr rfl (fun j _ => hpt j), Finset.sum_add_distrib, ht.1]
        simp
        ring
      · intro j
        by_cases hji : j = i
        · subst hji
          rw [Function.update_same]
          exact ih _ _ hrest (aggregated_ensureChild ch j _ ht.2 j)
        · rw [Function.update_noteq hji]
          exact aggregated_ensureChild ch i _ ht.2 j

theorem aggregated_insertAll (junk : List Char → Int) :
    ∀ (L : List (List Char × Int)) (t : trieNode), wordsValid L → aggregated t →
      aggregated (insertAll junk t L) := by
  intro L
  induction L with
  | nil => intro t _ ht; exact ht
  | cons e L ih =>
    intro t hL ht
    rw [insertAll_cons]
    apply ih _ (fun x hx => hL x (List.mem_cons_of_mem _ hx))
    rw [insert_zero]
    exact aggregated_insertFrom junk e.2 e.1 [] t (hL e (List.mem_cons_self _ _)) ht

/-! ## The `maxFreq` loop of `insert` -/

theorem maxChildFreq_foldl (ch : Fin 26 → trieNode) (m v : Int) :
    ∀ (l : List (Fin 26)) (acc : Int),
      l.foldl (fun maxChildFreq i =>
          match ch i with
          | NULL => maxChildFreq
          | node _ _ s _ _ => if s > m then v else maxChildFreq) acc
        = if (∃ i ∈ l, (ch i).present = true ∧ (ch i).sumPrefixFreq > m) then v else acc := by
  intro l
  induction l with
  | nil => intro acc; simp
  | cons a l ih =>
    intro acc
    rw [List.foldl_cons, ih]
    cases h : ch a with
    | NULL =>
      simp only [List.mem_cons, exists_eq_or_imp, h, present, Bool.false_eq_true, false_and,
        false_or]
    | node w fr s m2 ch2 =>
      simp only [List.mem_cons, exists_eq_or_imp, h, present, sumPrefixFreq, true_and]
      by_cases hs : s > m
      · simp [hs]
      · simp [hs]

/-- The value the loop at lines 109-116 leaves in `maxFreq`: the `sumPrefixFreq` of the
child at `childIndex` when some present child exceeds the old `maxFreq`, and 0
otherwise. -/
theorem maxChildFreqLoop_eq (ch : Fin 26 → trieNode) (m : Int) (idx : Fin 26) :
    maxChildFreqLoop ch m idx
      = if (∃ i, (ch i).present = true ∧ (ch i).sumPrefixFreq > m)
        then (ch idx).sumPrefixFreq else 0 := by
  unfold maxChildFreqLoop
  rw [maxChildFreq_foldl]
  simp [List.mem_finRange]

/-! ## Inserting the same word twice -/

/-- At every path, the two calls `insert(w, f1)`, `insert(w, f2)` and the single call
`insert(w, f1 + f2)` leave a node present or absent alike, with the same `isWord`, `freq`
and `sumPrefixFreq`. -/
theorem insert_twice_same_data (junk : List Char → Int) (t : trieNode)
    (ht : t.present = true) (w : List Char) (hw : ∀ c ∈ w, isLetter c = true)
    (f1 f2 : Int) (p : List Char) :
    (nodeAt (insert junk (insert junk t w f1 0) w f2 0) p).present
        = (nodeAt (insert junk t w (f1 + f2) 0) p).present ∧
      (nodeAt (insert junk (insert junk t w f1 0) w f2 0) p).isWord
        = (nodeAt (insert junk t w (f1 + f2) 0) p).isWord ∧
      (nodeAt (insert junk (insert junk t w f1 0) w f2 0) p).freq
        = (nodeAt (insert junk t w (f1 + f2) 0) p).freq ∧
      (nodeAt (insert junk (insert junk t w f1 0) w f2 0) p).sumPrefixFreq
        = (nodeAt (insert junk t w (f1 + f2) 0) p).sumPrefixFreq := by
  obtain ⟨a1, a2, a3, a4⟩ := nodeAt_insert_valid junk f1 w hw t ht p
  obtain ⟨b1, b2, b3, b4⟩ :=
    nodeAt_insert_valid junk f2 w hw _ (present_insert junk t w f1 ht) p
  obtain ⟨c1, c2, c3, c4⟩ := nodeAt_insert_valid junk (f1 + f2) w hw t ht p
  rw [b1, b2, b3, b4, a1, a2, a3, a4, c1, c2, c3, c4]
  refine ⟨?_, ?_, ?_, ?_⟩
  · cases (nodeAt t p).present <;> cases decide (p <+: w) <;> rfl
  · by_cases h : p = w <;> simp [h]
  · by_cases h : p = w <;> simp [h]; ring
  · by_cases h : p <+: w <;> simp [h]; ring

theorem slotOf_a : slotOf 'a' = some 0 := by decide

theorem ensureChild_fresh (g : Int) :
    ensureChild (fun _ => NULL) (0 : Fin 26) g
      = Function.update (fun _ => NULL) 0 (initNode g) := by
  unfold ensureChild
  rw [if_neg]
  simp [present]

theorem ensureChild_of_present (ch : Fin 26 → trieNode) (i : Fin 26) (g : Int)
    (h : (ch i).present = true) : ensureChild ch i g = ch := by
  unfold ensureChild
  rw [if_pos h]

/-- The tree after `insert("a", f)` on a fresh root, whatever the allocations held: the
root gets `maxFreq = 0`. -/
theorem insert_a_fresh (junk : List Char → Int) (g f : Int) :
    insert junk (initNode g) ['a'] f 0
      = node 0 0 (0 + f) 0
          (Function.update (Function.update (fun _ => NULL) 0 (initNode (junk ['a']))) 0
            (node 1 (0 + f) (0 + f) (junk ['a']) (fun _ => NULL))) := by
  rw [insert_zero]
  unfold initNode
  rw [insertFrom_cons_some junk f [] [] slotOf_a, List.nil_append, ensureChild_fresh,
    Function.update_same, maxChildFreqLoop_eq, Function.update_same]
  unfold initNode
  rw [insertFrom_nil]
  congr 1
  split
  · rfl
  · rfl

/-- After a second `insert("a", _)` the root holds in `maxFreq` what the first call
credited to the child. -/
theorem maxFreq_insert_a_twice (junk : List Char → Int) (g f1 f2 : Int) (h : 0 < f1) :
    (insert junk (insert junk (initNode g) ['a'] f1 0) ['a'] f2 0).maxFreq = f1 := by
  rw [insert_a_fresh, insert_zero, insertFrom_cons_some junk f2 [] [] slotOf_a,
    ensureChild_of_present _ _ _ (by rw [Function.update_same]; rfl)]
  simp only [maxFreq]
  rw [maxChildFreqLoop_eq, Function.update_same, if_pos]
  · simp [sumPrefixFreq]
  · exact ⟨0, by rw [Function.update_same]; rfl,
      by rw [Function.update_same]; simpa [sumPrefixFreq] using h⟩

/-- Claim C4, the code at the failing input. On a fresh root, whatever the allocations
held, `insert("a", 5)` followed by `insert("a", 3)` leaves `maxFreq = 5` in the root,
while the single `insert("a", 5 + 3)` leaves `maxFreq = 0` there: the two states differ
in `maxFreq`. -/
theorem C4_maxFreq_differs (junk : List Char → Int) (g : Int) :
    (insert junk (insert junk (initNode g) "a".toList 5 0) "a".toList 3 0).maxFreq = 5 ∧
      (insert junk (initNode g) "a".toList (5 + 3) 0).maxFreq = 0 ∧
      insert junk (insert junk (initNode g) "a".toList 5 0) "a".toList 3 0
        ≠ insert junk (initNode g) "a".toList (5 + 3) 0 := by
  have ha : "a".toList = ['a'] := rfl
  have h1 : (insert junk (insert junk (initNode g) "a".toList 5 0) "a".toList 3 0).maxFreq
      = 5 := by
    rw [ha]; exact maxFreq_insert_a_twice junk g 5 3 (by decide)
  have h2 : (insert junk (initNode g) "a".toList (5 + 3) 0).maxFreq = 0 := by
    rw [ha, insert_a_fresh]; rfl
  refine ⟨h1, h2, fun h => ?_⟩
  have h3 := congrArg trieNode.maxFreq h
  rw [h1, h2] at h3
  exact absurd h3 (by decide)

/-! ## When `query` answers with the sentinel -/

theorem mem_alphabet_ne_space {c : Char} (h : c ∈ alphabet) : c ≠ ' ' := by
  unfold alphabet at h
  obtain ⟨i, _, rfl⟩ := List.mem_map.1 h
  exact space_ne_letter i

theorem space_mem_sentinel : ' ' ∈ UNRECOGNIZED_PREFIX := by decide

theorem letters_ne_sentinel {l : List Char} (h : ∀ c ∈ l, c ∈ alphabet) :
    l ≠ UNRECOGNIZED_PREFIX := by
  intro hl
  have := h ' ' (hl ▸ space_mem_sentinel)
  exact mem_alphabet_ne_space this rfl

theorem continues_of_proper (L : List (List Char × Int)) (hL : wordsValid L)
    (P : List Char) {e : List Char × Int} (he : e ∈ L) (hp : P <+: e.1) (hne : P ≠ e.1) :
    ∃ j : Fin 26, continues L P (letter j) = true := by
  obtain ⟨q, hq⟩ := hp
  cases q with
  | nil => exact absurd (by simpa using hq) hne
  | cons c q2 =>
    have hc : isLetter c = true := hL e he c (by rw [← hq]; simp)
    obtain ⟨j, hj⟩ := (slotOf_isSome_iff c).2 hc
    refine ⟨j, ?_⟩
    unfold continues
    rw [List.any_eq_true]
    refine ⟨e, he, ?_⟩
    rw [decide_eq_true_eq, letter_of_slotOf hj, ← hq]
    exact (List.prefix_append_right_inj P).2 (by simp)

theorem proper_of_continues (L : List (List Char × Int)) (P : List Char) {d : Char}
    (h : continues L P d = true) : ∃ e ∈ L, P <+: e.1 ∧ P ≠ e.1 := by
  unfold continues at h
  rw [List.any_eq_true] at h
  obtain ⟨e, he, hpe⟩ := h
  rw [decide_eq_true_eq] at hpe
  refine ⟨e, he, (List.prefix_append P [d]).trans hpe, ?_⟩
  intro hP
  have := hpe.length_le
  rw [← hP] at this
  simp at this

/-- The reference answer is the sentinel exactly when no entry has the prefix as a proper
initial part. -/
theorem reference_sentinel_iff (L : List (List Char × Int)) (P : List Char)
    (hL : ∀ e ∈ L, ∀ c ∈ e.1, isLetter c = true) :
    referenceQuery L P = UNRECOGNIZED_PREFIX ↔ ¬ ∃ e ∈ L, P <+: e.1 ∧ P ≠ e.1 := by
  unfold referenceQuery
  simp only []
  by_cases hC : alphabet.filter (continues L P) = []
  · rw [if_pos hC]
    refine ⟨fun _ => ?_, fun _ => rfl⟩
    rintro ⟨e, he, hp, hne⟩
    obtain ⟨j, hj⟩ := continues_of_proper L hL P he hp hne
    have : letter j ∈ alphabet.filter (continues L P) :=
      (mem_continuing L P _).2 ⟨j, rfl, hj⟩
    rw [hC] at this
    exact absurd this (List.not_mem_nil _)
  · rw [if_neg hC]
    obtain ⟨d, hd⟩ := List.exists_mem_of_ne_nil _ hC
    have hex : ∃ e ∈ L, P <+: e.1 ∧ P ≠ e.1 :=
      proper_of_continues L P (List.mem_filter.1 hd).2
    refine ⟨fun h => absurd h ?_, fun h => absurd hex h⟩
    apply letters_ne_sentinel
    intro c hc
    exact (List.mem_filter.1 (List.mem_filter.1 hc).1).1

/-! ## Two words that part right after the prefix -/

theorem filter_finRange_eq (q : Fin 26 → Bool) (l : List (Fin 26))
    (hs : l.Pairwise (fun a b => a < b)) (hm : ∀ i, q i = true ↔ i ∈ l) :
    (List.finRange 26).filter q = l := by
  have h1 : ((List.finRange 26).filter q).Pairwise (fun a b => a ≤ b) :=
    (List.pairwise_le_finRange 26).sublist (List.filter_sublist _)
  have h2 : l.Pairwise (fun a b => a ≤ b) := hs.imp (fun h => le_of_lt h)
  have hn1 : ((List.finRange 26).filter q).Nodup := (List.nodup_finRange 26).filter _
  have hn2 : l.Nodup := hs.imp (fun h => ne_of_lt h)
  have hperm : ((List.finRange 26).filter q).Perm l := by
    rw [List.perm_ext_iff_of_nodup hn1 hn2]
    intro i
    rw [List.mem_filter, ← hm i]
    simp [List.mem_finRange]
  exact List.eq_of_perm_of_sorted hperm h1 h2

theorem lt_of_letter_lt : ∀ i j : Fin 26, letter i < letter j → i < j := by decide

theorem snoc_prefix_append_cons (P : List Char) (x c : Char) (s : List Char) :
    P ++ [x] <+: P ++ c :: s ↔ x = c := by
  rw [List.prefix_append_right_inj, List.cons_prefix_cons]
  simp

theorem continues_two (P : List Char) (c d : Char) (s t : List Char) (fc fd : Int)
    (x : Char) :
    continues [(P ++ c :: s, fc), (P ++ d :: t, fd)] P x
      = (decide (x = c) || decide (x = d)) := by
  simp [continues, snoc_prefix_append_cons]

theorem mass_two (P : List Char) (c d : Char) (s t : List Char) (fc fd : Int) (x : Char) :
    mass [(P ++ c :: s, fc), (P ++ d :: t, fd)] P x
      = (if x = c then fc else 0) + (if x = d then fd else 0) := by
  simp [mass, freqSum_cons, freqSum_nil, snoc_prefix_append_cons]

/-- The answer at `P` when the children of its node are exactly the two letters `c` and
`d`, with `sumPrefixFreq` equal to `fc` and `fd`. -/
theorem answer_two_children (root : trieNode) (P : List Char)
    (ic id : Fin 26) (fc fd : Int) (hne : ic ≠ id) (hfd : 0 ≤ fd) (hle : fd ≤ fc)
    (hp : ∀ i, ((nodeAt root P).children i).present = (decide (i = ic) || decide (i = id)))
    (hs : ∀ i, ((nodeAt root P).children i).sumPrefixFreq
      = (if i = ic then fc else 0) + (if i = id then fd else 0)) :
    (fd < fc → answerAt (nodeAt root P) = [letter ic]) ∧
      (fd = fc → ic < id → answerAt (nodeAt root P) = [letter ic, letter id]) := by
  have hsc : ((nodeAt root P).children ic).sumPrefixFreq = fc := by
    rw [hs]; simp [hne]
  have hsd : ((nodeAt root P).children id).sumPrefixFreq = fd := by
    rw [hs]; simp [Ne.symm hne]
  have hnn : ∀ i, 0 ≤ ((nodeAt root P).children i).sumPrefixFreq := by
    intro i
    rw [hs]
    split <;> split <;> omega
  have hcases : ∀ j, ((nodeAt root P).children j).present = true → j = ic ∨ j = id := by
    intro j hj
    rw [hp] at hj
    simpa using hj
  have hpc : ((nodeAt root P).children ic).present = true := by rw [hp]; simp
  have hpd : ((nodeAt root P).children id).present = true := by rw [hp]; simp
  have htopc : isTop (nodeAt root P).children ic = true := by
    unfold isTop
    rw [hpc, Bool.true_and, decide_eq_true_eq]
    intro j hj
    rcases hcases j hj with rfl | rfl
    · exact le_refl _
    · rw [hsc, hsd]; exact hle
  rw [answerAt_of_nonneg _ hnn]
  constructor
  · intro hlt
    have hfil : (List.finRange 26).filter (isTop (nodeAt root P).children) = [ic] := by
      apply filter_finRange_eq
      · simp
      · intro i
        rw [List.mem_singleton]
        constructor
        · intro hi
          have hi2 := hi
          unfold isTop at hi2
          rw [Bool.and_eq_true, decide_eq_true_eq] at hi2
          rcases hcases i hi2.1 with rfl | rfl
          · rfl
          · have := hi2.2 ic hpc
            rw [hsc, hsd] at this
            omega
        · rintro rfl
          exact htopc
    rw [hfil]
    simp
  · intro heq hlt
    have htopd : isTop (nodeAt root P).children id = true := by
      unfold isTop
      rw [hpd, Bool.true_and, decide_eq_true_eq]
      intro j hj
      rcases hcases j hj with rfl | rfl
      · rw [hsc, hsd]; omega
      · exact le_refl _
    have hfil : (List.finRange 26).filter (isTop (nodeAt root P).children) = [ic, id] := by
      apply filter_finRange_eq
      · simp [hlt]
      · intro i
        constructor
        · intro hi
          unfold isTop at hi
          rw [Bool.and_eq_true] at hi
          rcases hcases i hi.1 with rfl | rfl <;> simp
        · intro hi
          simp only [List.mem_cons, List.mem_singleton, List.not_mem_nil, or_false] at hi
          rcases hi with rfl | rfl
          · exact htopc
          · exact htopd
    rw [hfil]
    simp

/-- The tree built from a fresh root by two words that share `P` and continue with the
distinct letters `c` and `d`: the answer at `P`. -/
theorem query_two_entries (oob : Int → Option trieNode) (junk : List Char → Int) (g : Int)
    (P s t : List Char) (c d : Char) (fc fd : Int)
    (hP : ∀ x ∈ P, isLetter x = true) (hs : ∀ x ∈ s, isLetter x = true)
    (ht : ∀ x ∈ t, isLetter x = true) (hc : isLetter c = true) (hd : isLetter d = true)
    (hcd : c ≠ d) (hfd : 0 ≤ fd) (hle : fd ≤ fc)
    (L : List (List Char × Int))
    (hLm : ∀ e ∈ L, e = (P ++ c :: s, fc) ∨ e = (P ++ d :: t, fd))
    (hcont : ∀ x, continues L P x = (decide (x = c) || decide (x = d)))
    (hmass : ∀ x, mass L P x = (if x = c then fc else 0) + (if x = d then fd else 0)) :
    (fd < fc → query oob (insertAll junk (initNode g) L) P 0 = some [c]) ∧
      (fd = fc → c < d → query oob (insertAll junk (initNode g) L) P 0 = some [c, d]) := by
  have hL : wordsValid L := by
    intro e he x hx
    rcases hLm e he with rfl | rfl
    · simp only [List.mem_append, List.mem_cons] at hx
      rcases hx with hx | rfl | hx
      · exact hP x hx
      · exact hc
      · exact hs x hx
    · simp only [List.mem_append, List.mem_cons] at hx
      rcases hx with hx | rfl | hx
      · exact hP x hx
      · exact hd
      · exact ht x hx
  obtain ⟨ic, hic⟩ := (slotOf_isSome_iff c).2 hc
  obtain ⟨id, hid⟩ := (slotOf_isSome_iff d).2 hd
  have hlc : letter ic = c := letter_of_slotOf hic
  have hld : letter id = d := letter_of_slotOf hid
  have hne : ic ≠ id := by
    intro h
    apply hcd
    rw [← hlc, ← hld, h]
  have hinj : ∀ (i k : Fin 26), (letter i = letter k) = (i = k) := fun i k =>
    propext ⟨letter_injective i k, fun h => h ▸ rfl⟩
  rw [query_eq_nodeAt oob _ P hP]
  have key := answer_two_children (insertAll junk (initNode g) L) P ic id fc fd hne hfd hle
    (by
      intro i
      rw [child_present_build junk g L hL, hcont, ← hlc, ← hld]
      simp only [hinj])
    (by
      intro i
      rw [child_sum_build junk g L hL, hmass, ← hlc, ← hld]
      simp only [hinj])
  rw [hlc, hld] at key
  refine ⟨fun h1 => congrArg some (key.1 h1), fun h1 h2 => congrArg some (key.2 h1 ?_)⟩
  apply lt_of_letter_lt
  rw [hlc, hld]
  exact h2

/-- Claim C6. Ties are all reported: after `insert(P+c+s, f)` and `insert(P+d+t, f)` on a
fresh root, in either order, with letters `c < d` and `f ≥ 0`, the query of `P` returns
the two-character string `cd`. -/
theorem C6_ties_all_reported (oob : Int → Option trieNode) (junk : List Char → Int) (g : Int)
    (P s t : List Char) (c d : Char) (f : Int)
    (hP : ∀ x ∈ P, isLetter x = true) (hs : ∀ x ∈ s, isLetter x = true)
    (ht : ∀ x ∈ t, isLetter x = true) (hc : isLetter c = true) (hd : isLetter d = true)
    (hcd : c < d) (hf : 0 ≤ f) :
    query oob (insert junk (insert junk (initNode g) (P ++ c :: s) f 0) (P ++ d :: t) f 0)
        P 0 = some [c, d] ∧
      query oob (insert junk (insert junk (initNode g) (P ++ d :: t) f 0) (P ++ c :: s) f 0)
        P 0 = some [c, d] := by
  have hne : c ≠ d := ne_of_lt hcd
  constructor
  · exact (query_two_entries oob junk g P s t c d f f hP hs ht hc hd hne hf (le_refl f)
      [(P ++ c :: s, f), (P ++ d :: t, f)]
      (by intro e he; simpa using he)
      (continues_two P c d s t f f) (mass_two P c d s t f f)).2 rfl hcd
  · exact (query_two_entries oob junk g P s t c d f f hP hs ht hc hd hne hf (le_refl f)
      [(P ++ d :: t, f), (P ++ c :: s, f)]
      (by intro e he; simpa [or_comm] using he)
      (fun x => by rw [continues_two, Bool.or_comm])
      (fun x => by rw [mass_two, add_comm])).2 rfl hcd

/-- Witness of C6: `"cat"` 5 and `"car"` 5, the query of `"ca"` returns `"rt"`. -/
theorem C6_witness :
    query (fun _ => none)
        (insert (fun _ => 0) (insert (fun _ => 0) (initNode 0) "cat".toList 5 0)
          "car".toList 5 0) "ca".toList 0 = some "rt".toList :=
  (C6_ties_all_reported (fun _ => none) (fun _ => 0) 0 "ca".toList [] [] 'r' 't' 5
    (by decide) (by decide) (by decide) (by decide) (by decide) (by decide) (by decide)).2

/-- Claim C7. A strict maximum wins alone: after `insert(P+c+s, f1)` and `insert(P+d+t, f2)`
on a fresh root, in either order, with distinct letters `c`, `d` and `f1 > f2 ≥ 0`, the
query of `P` returns the one-character string `c`. -/
theorem C7_strict_maximum_wins (oob : Int → Option trieNode) (junk : List Char → Int) (g : Int)
    (P s t : List Char) (c d : Char) (f1 f2 : Int)
    (hP : ∀ x ∈ P, isLetter x = true) (hs : ∀ x ∈ s, isLetter x = true)
    (ht : ∀ x ∈ t, isLetter x = true) (hc : isLetter c = true) (hd : isLetter d = true)
    (hcd : c ≠ d) (hf2 : 0 ≤ f2) (hf : f2 < f1) :
    query oob (insert junk (insert junk (initNode g) (P ++ c :: s) f1 0) (P ++ d :: t) f2 0)
        P 0 = some [c] ∧
      query oob (insert junk (insert junk (initNode g) (P ++ d :: t) f2 0) (P ++ c :: s) f1 0)
        P 0 = some [c] := by
  constructor
  · exact (query_two_entries oob junk g P s t c d f1 f2 hP hs ht hc hd hcd hf2 (le_of_lt hf)
      [(P ++ c :: s, f1), (P ++ d :: t, f2)]
      (by intro e he; simpa using he)
      (continues_two P c d s t f1 f2) (mass_two P c d s t f1 f2)).1 hf
  · exact (query_two_entries oob junk g P s t c d f1 f2 hP hs ht hc hd hcd hf2 (le_of_lt hf)
      [(P ++ d :: t, f2), (P ++ c :: s, f1)]
      (by intro e he; simpa [or_comm] using he)
      (fun x => by rw [continues_two, Bool.or_comm])
      (fun x => by rw [mass_two, add_comm])).1 hf

/-- Witness of C7: `"cat"` 10 and `"car"` 3, the query of `"ca"` returns `"t"`. -/
theorem C7_witness :
    query (fun _ => none)
        (insert (fun _ => 0) (insert (fun _ => 0) (initNode 0) "cat".toList 10 0)
          "car".toList 3 0) "ca".toList 0 = some "t".toList :=
  (C7_strict_maximum_wins (fun _ => none) (fun _ => 0) 0 "ca".toList [] [] 't' 'r' 10 3
    (by decide) (by decide) (by decide) (by decide) (by decide) (by decide) (by decide)
    (by decide)).1

/-! ## Symbols outside the alphabet -/

theorem nodeAt_of_invalid : ∀ (p : List Char) (t : trieNode),
    (∃ c ∈ p, isLetter c = false) → nodeAt t p = NULL := by
  intro p
  induction p with
  | nil => intro t h; obtain ⟨c, hc, _⟩ := h; exact absurd hc (List.not_mem_nil _)
  | cons a r ih =>
    intro t h
    cases ha : slotOf a with
    | none => exact nodeAt_cons_of_none _ ha r
    | some i =>
      rw [nodeAt_cons_of_slot _ ha]
      apply ih
      obtain ⟨c, hc, hcl⟩ := h
      rcases List.mem_cons.1 hc with rfl | hc
      · have := (slotOf_isSome_iff c).1 ⟨i, ha⟩
        rw [hcl] at this
        exact absurd this (by simp)
      · exact ⟨c, hc, hcl⟩

theorem queryFrom_append_letters (oob : Int → Option trieNode) :
    ∀ (v q : List Char) (t : trieNode), (∀ c ∈ v, isLetter c = true) →
      queryFrom oob (v ++ q) t = queryFrom oob q (nodeAt t v) := by
  intro v
  induction v with
  | nil => intro q t _; rfl
  | cons c rest ih =>
    intro q t hv
    obtain ⟨i, hc⟩ := (slotOf_isSome_iff c).2 (hv c (List.mem_cons_self _ _))
    rw [List.cons_append, queryFrom_cons_of_slot oob hc, nodeAt_cons_of_slot _ hc]
    exact ih q _ (fun x hx => hv x (List.mem_cons_of_mem _ hx))

/-- The answer of `query` on a prefix whose first symbol outside `a`..`z` is `x`, after
the letters `v`: the sentinel when the path of `v` leaves the tree; otherwise the read of
`children[childIndex]` outside the array decides, the sentinel when it finds a value and
no answer when it faults. -/
theorem query_at_invalid_symbol (oob : Int → Option trieNode) (root : trieNode)
    (v : List Char) (x : Char) (r : List Char) (hv : ∀ c ∈ v, isLetter c = true)
    (hx : isLetter x = false) :
    query oob root (v ++ x :: r) 0
      = if (nodeAt root v).present = true
        then (oob (childIndex x)).map (fun _ => UNRECOGNIZED_PREFIX)
        else some UNRECOGNIZED_PREFIX := by
  have hq : query oob root (v ++ x :: r) 0 = queryFrom oob (x :: r) (nodeAt root v) := by
    simp [query, queryFrom_append_letters oob v (x :: r) root hv]
  rw [hq]
  cases h : nodeAt root v with
  | NULL => rw [queryFrom_NULL]; simp [present]
  | node w fr s m ch =>
    rw [queryFrom_cons_of_none oob ((slotOf_eq_none_iff x).2 hx)]
    simp [present]

/-- When no read outside the array faults, a prefix holding a symbol outside `a`..`z`
gets the sentinel. -/
theorem query_invalid_of_no_fault (oob : Int → Option trieNode) (root : trieNode)
    (P : List Char) (hoob : ∀ i, (oob i).isSome = true)
    (h : ∃ c ∈ P, isLetter c = false) :
    query oob root P 0 = some UNRECOGNIZED_PREFIX := by
  have hsplit : ∃ v x r, P = v ++ x :: r ∧ (∀ c ∈ v, isLetter c = true) ∧
      isLetter x = false := by
    clear hoob
    induction P with
    | nil => obtain ⟨c, hc, _⟩ := h; exact absurd hc (List.not_mem_nil _)
    | cons a rest ih =>
      by_cases ha : isLetter a = true
      · obtain ⟨c, hc, hcl⟩ := h
        rcases List.mem_cons.1 hc with rfl | hc
        · rw [ha] at hcl; exact absurd hcl (by simp)
        · obtain ⟨v, x, r, hP, hv, hx⟩ := ih ⟨c, hc, hcl⟩
          refine ⟨a :: v, x, r, by rw [hP]; rfl, ?_, hx⟩
          intro y hy
          rcases List.mem_cons.1 hy with rfl | hy
          · exact ha
          · exact hv y hy
      · exact ⟨[], a, rest, rfl, fun _ hc => absurd hc (List.not_mem_nil _),
          by simpa using ha⟩
  obtain ⟨v, x, r, rfl, hv, hx⟩ := hsplit
  rw [query_at_invalid_symbol oob root v x r hv hx]
  split
  · obtain ⟨y, hy⟩ := Option.isSome_iff_exists.1 (hoob (childIndex x))
    rw [hy]
    rfl
  · rfl

/-- Claim C9, the code at the failing input. On any non-null root, `query(root, "A", 0)`
computes `childIndex = -32` and reads `children[-32]` (line 181) before the range check
(line 189): the call returns the sentinel only if that read outside the array finds a
value, and returns nothing when the read faults. -/
theorem C9_read_outside_array_before_check (w fr s m : Int) (ch : Fin 26 → trieNode) :
    childIndex 'A' = -32 ∧
      (∀ oob : Int → Option trieNode,
        query oob (node w fr s m ch) "A".toList 0
          = (oob (-32)).map (fun _ => UNRECOGNIZED_PREFIX)) ∧
      query (fun _ => none) (node w fr s m ch) "A".toList 0 = none ∧
      query (fun _ => none) (node w fr s m ch) "A".toList 0 ≠ some UNRECOGNIZED_PREFIX := by
  have hA : "A".toList = [] ++ 'A' :: [] := rfl
  have hidx : childIndex 'A' = -32 := by decide
  have hall : ∀ oob : Int → Option trieNode,
      query oob (node w fr s m ch) "A".toList 0
        = (oob (-32)).map (fun _ => UNRECOGNIZED_PREFIX) := by
    intro oob
    rw [hA, query_at_invalid_symbol oob _ [] 'A' []
      (fun _ hc => absurd hc (List.not_mem_nil _)) (by decide), hidx]
    simp [nodeAt, present]
  refine ⟨hidx, hall, ?_, ?_⟩
  · rw [hall]; rfl
  · rw [hall]; simp

/-! ## The node made by `initialize` -/

/-- Claim C11, the code at the failing input. `initialize` sets `isWord`, `freq` and
`sumPrefixFreq` to 0 and every child to `NULL`, but never assigns `maxFreq`: the field
keeps what the allocated block held, 7 in a block that held 7 there. -/
theorem C11_maxFreq_left_unassigned :
    (∀ g : Int, (initNode g).isWord = 0 ∧ (initNode g).freq = 0 ∧
      (initNode g).sumPrefixFreq = 0 ∧ ∀ i, (initNode g).children i = NULL) ∧
      (∀ g : Int, (initNode g).maxFreq = g) ∧
      (initNode 7).maxFreq = 7 ∧ (initNode 7).maxFreq ≠ 0 := by
  refine ⟨fun g => ⟨rfl, rfl, rfl, fun _ => rfl⟩, fun g => rfl, rfl, by decide⟩

/-! ## Where nodes exist -/

/-- Whatever the word, `insert` keeps every node and adds nodes on the path of the word
only. -/
theorem present_after_insert (junk : List Char → Int) (t : trieNode) (ht : t.present = true)
    (w : List Char) (f : Int) (p : List Char) :
    (nodeAt (insert junk t w f 0) p).present
      = ((nodeAt t p).present || decide (p <+: validPart w)) := by
  rw [insert_zero]
  by_cases hp : p <+: validPart w
  · rw [(nodeAt_insertFrom_on junk f w [] p t ht hp).1]
    simp [hp]
  · rw [nodeAt_insertFrom_off junk f w [] p t hp]
    simp [hp]

theorem validPart_initial (w : List Char) : validPart w <+: w :=
  List.takeWhile_prefix _

/-- Claim C12 as stated fails on the empty list of inserts: the root is there although no
word was inserted, so the empty string has a node without being an initial part of an
inserted word. -/
theorem C12_counterexample :
    ¬ ((nodeAt (insertAll (fun _ => 0) (initNode 0) []) []).present = true ↔
      ∃ e ∈ ([] : List (List Char × Int)), [] <+: e.1) := by
  decide

/-- Claim C12, amended. After inserts of words over `a`..`z` into a fresh root, a string
over `a`..`z` has a node at its path exactly when it is empty (the root, there from the
start) or an initial part, possibly the whole, of an inserted word. Whatever the tree and
the word, `insert` removes no node, the nodes it adds lie on the path of the word, and a
child that is present is kept rather than allocated again. -/
theorem C12_nodes_exist_where_needed (junk : List Char → Int) :
    (∀ (g : Int) (L : List (List Char × Int)) (p : List Char),
      (∀ e ∈ L, ∀ c ∈ e.1, isLetter c = true) → (∀ c ∈ p, isLetter c = true) →
        ((nodeAt (insertAll junk (initNode g) L) p).present = true ↔
          p = [] ∨ ∃ e ∈ L, p <+: e.1)) ∧
      (∀ (t : trieNode) (w : List Char) (f : Int) (p : List Char), t.present = true →
        ((nodeAt t p).present = true → (nodeAt (insert junk t w f 0) p).present = true) ∧
        ((nodeAt (insert junk t w f 0) p).present = true → (nodeAt t p).present = false →
          p <+: w)) ∧
      (∀ (ch : Fin 26 → trieNode) (i : Fin 26) (g : Int), (ch i).present = true →
        ensureChild ch i g = ch) := by
  refine ⟨?_, ?_, fun ch i g h => ensureChild_of_present ch i g h⟩
  · intro g L p hL _
    rw [(nodeAt_build junk g L hL p).1]
    simp only [Bool.or_eq_true, decide_eq_true_eq, List.any_eq_true]
  · intro t w f p ht
    rw [present_after_insert junk t ht w f p]
    constructor
    · intro h; simp [h]
    · intro h habs
      rw [habs] at h
      simp only [Bool.false_or, decide_eq_true_eq] at h
      exact h.trans (validPart_initial w)

/-- Witness of C12 on the entries `("cat", 5)`, `("car", 5)`: `"ca"` has a node, `"cb"`
has none, and the node of `"ca"` survives a further `insert("dog", 1)`. -/
theorem C12_witness :
    (nodeAt (insertAll (fun _ => 0) (initNode 0) [("cat".toList, 5), ("car".toList, 5)])
        "ca".toList).present = true ∧
      ¬ (nodeAt (insertAll (fun _ => 0) (initNode 0) [("cat".toList, 5), ("car".toList, 5)])
        "cb".toList).present = true ∧
      (nodeAt (insert (fun _ => 0)
        (insertAll (fun _ => 0) (initNode 0) [("cat".toList, 5), ("car".toList, 5)])
        "dog".toList 1 0) "ca".toList).present = true :=
  ⟨((C12_nodes_exist_where_needed (fun _ => 0)).1 0
      [("cat".toList, 5), ("car".toList, 5)] "ca".toList (by decide) (by decide)).2
      (by decide),
    fun h => absurd (((C12_nodes_exist_where_needed (fun _ => 0)).1 0
      [("cat".toList, 5), ("car".toList, 5)] "cb".toList (by decide) (by decide)).1 h)
      (by decide),
    ((C12_nodes_exist_where_needed (fun _ => 0)).2.1
      (insertAll (fun _ => 0) (initNode 0) [("cat".toList, 5), ("car".toList, 5)])
      "dog".toList 1 "ca".toList (by decide)).1 (by decide)⟩

/-! ## The cached maximum -/

/-- Claim C14, the code at the failing input. After `insert("a", 5)` on a fresh root,
whatever the allocations held, the root has `maxFreq = 0` while its only child has
`sumPrefixFreq = 5`, so `maxFreq` is not the largest `sumPrefixFreq` among the children. -/
theorem C14_maxFreq_is_not_the_child_maximum (junk : List Char → Int) (g : Int) :
    (insert junk (initNode g) "a".toList 5 0).maxFreq = 0 ∧
      childMax (insert junk (initNode g) "a".toList 5 0).children = 5 ∧
      maxFreqCached (insert junk (initNode g) "a".toList 5 0) = false := by
  have ha : "a".toList = ['a'] := rfl
  rw [ha, insert_a_fresh]
  refine ⟨rfl, rfl, ?_⟩
  have h : childMax (Function.update (Function.update (fun _ => NULL) 0
      (initNode (junk ['a']))) (0 : Fin 26)
      (node 1 (0 + 5) (0 + 5) (junk ['a']) (fun _ => NULL))) = 5 := rfl
  simp only [maxFreqCached, h]
  rfl

/-! ## Trees that differ in `maxFreq` only -/

theorem sameButMaxFreq_node_iff (w f s m : Int) (ch : Fin 26 → trieNode)
    (w2 f2 s2 m2 : Int) (ch2 : Fin 26 → trieNode) :
    sameButMaxFreq (node w f s m ch) (node w2 f2 s2 m2 ch2) = true ↔
      w = w2 ∧ f = f2 ∧ s = s2 ∧ ∀ i, sameButMaxFreq (ch i) (ch2 i) = true := by
  simp [sameButMaxFreq, List.mem_finRange, and_assoc]

theorem sameButMaxFreq_refl : ∀ t : trieNode, sameButMaxFreq t t = true := by
  intro t
  induction t with
  | NULL => rfl
  | node w f s m ch ih => exact (sameButMaxFreq_node_iff _ _ _ _ _ _ _ _ _ _).2 ⟨rfl, rfl, rfl, ih⟩

theorem sameButMaxFreq_initNode (g1 g2 : Int) :
    sameButMaxFreq (initNode g1) (initNode g2) = true :=
  (sameButMaxFreq_node_iff _ _ _ _ _ _ _ _ _ _).2 ⟨rfl, rfl, rfl, fun _ => rfl⟩

theorem sameButMaxFreq_present {a b : trieNode} (h : sameButMaxFreq a b = true) :
    a.present = b.present := by
  cases a <;> cases b <;> simp_all [sameButMaxFreq, present]

theorem sameButMaxFreq_sum {a b : trieNode} (h : sameButMaxFreq a b = true) :
    a.sumPrefixFreq = b.sumPrefixFreq := by
  cases a with
  | NULL => cases b with
    | NULL => rfl
    | node _ _ _ _ _ => simp [sameButMaxFreq] at h
  | node w f s m ch => cases b with
    | NULL => simp [sameButMaxFreq] at h
    | node w2 f2 s2 m2 ch2 => exact ((sameButMaxFreq_node_iff _ _ _ _ _ _ _ _ _ _).1 h).2.2.1

theorem sameButMaxFreq_children {a b : trieNode} (h : sameButMaxFreq a b = true)
    (i : Fin 26) : sameButMaxFreq (a.children i) (b.children i) = true := by
  cases a with
  | NULL => cases b with
    | NULL => rfl
    | node _ _ _ _ _ => simp [sameButMaxFreq] at h
  | node w f s m ch => cases b with
    | NULL => simp [sameButMaxFreq] at h
    | node w2 f2 s2 m2 ch2 => exact ((sameButMaxFreq_node_iff _ _ _ _ _ _ _ _ _ _).1 h).2.2.2 i

theorem sameButMaxFreq_nodeAt : ∀ (p : List Char) (a b : trieNode),
    sameButMaxFreq a b = true → sameButMaxFreq (nodeAt a p) (nodeAt b p) = true := by
  intro p
  induction p with
  | nil => intro a b h; exact h
  | cons c r ih =>
    intro a b h
    cases hc : slotOf c with
    | none => rw [nodeAt_cons_of_none _ hc, nodeAt_cons_of_none _ hc]; rfl
    | some i =>
      rw [nodeAt_cons_of_slot _ hc, nodeAt_cons_of_slot _ hc]
      exact ih _ _ (sameButMaxFreq_children h i)

theorem sameButMaxFreq_cases {x y : trieNode} (h : sameButMaxFreq x y = true) :
    (x = NULL ∧ y = NULL) ∨
      ∃ (w f s m : Int) (c : Fin 26 → trieNode) (m2 : Int) (c2 : Fin 26 → trieNode),
        x = node w f s m c ∧ y = node w f s m2 c2 ∧
          ∀ i, sameButMaxFreq (c i) (c2 i) = true := by
  cases x with
  | NULL => cases y with
    | NULL => exact Or.inl ⟨rfl, rfl⟩
    | node _ _ _ _ _ => simp [sameButMaxFreq] at h
  | node w f s m c => cases y with
    | NULL => simp [sameButMaxFreq] at h
    | node w2 f2 s2 m2 c2 =>
      obtain ⟨rfl, rfl, rfl, h4⟩ := (sameButMaxFreq_node_iff _ _ _ _ _ _ _ _ _ _).1 h
      exact Or.inr ⟨w, f, s, m, c, m2, c2, rfl, rfl, h4⟩

/-- The two loops of `query` read the children's presence and `sumPrefixFreq` only. -/
theorem queryHere_congr (ch ch2 : Fin 26 → trieNode)
    (h : ∀ i, sameButMaxFreq (ch i) (ch2 i) = true) : queryHere ch = queryHere ch2 := by
  have hstep1 : (fun (maxFreq : Int) (i : Fin 26) =>
        match ch i with
        | NULL => maxFreq
        | node _ _ s _ _ => if s > maxFreq then s else maxFreq)
      = (fun (maxFreq : Int) (i : Fin 26) =>
        match ch2 i with
        | NULL => maxFreq
        | node _ _ s _ _ => if s > maxFreq then s else maxFreq) := by
    funext acc i
    rcases sameButMaxFreq_cases (h i) with ⟨h1, h2⟩ | ⟨w, f, s, m, c, m2, c2, h1, h2, _⟩ <;>
      simp only [h1, h2]
  have hmax : queryMaxFreq ch = queryMaxFreq ch2 := by
    unfold queryMaxFreq
    rw [hstep1]
  have hstep2 : ∀ m : Int, (fun (result : List Char) (i : Fin 26) =>
        match ch i with
        | NULL => result
        | node _ _ s _ _ => if s = m then result ++ [letter i] else result)
      = (fun (result : List Char) (i : Fin 26) =>
        match ch2 i with
        | NULL => result
        | node _ _ s _ _ => if s = m then result ++ [letter i] else result) := by
    intro m
    funext acc i
    rcases sameButMaxFreq_cases (h i) with ⟨h1, h2⟩ | ⟨w, f, s, m, c, m2, c2, h1, h2, _⟩ <;>
      simp only [h1, h2]
  unfold queryHere queryCollect
  rw [hmax, hstep2]

theorem answerAt_congr {a b : trieNode} (h : sameButMaxFreq a b = true) :
    answerAt a = answerAt b := by
  cases a with
  | NULL => cases b with
    | NULL => rfl
    | node _ _ _ _ _ => simp [sameButMaxFreq] at h
  | node w f s m ch => cases b with
    | NULL => simp [sameButMaxFreq] at h
    | node w2 f2 s2 m2 ch2 =>
      exact queryHere_congr ch ch2 ((sameButMaxFreq_node_iff _ _ _ _ _ _ _ _ _ _).1 h).2.2.2

/-- On trees that differ in `maxFreq` only, `query` gives the same outcome for every
prefix, also when the two runs find different values outside the array, as long as a
read faults in both or in neither. -/
theorem queryFrom_congr (oob1 oob2 : Int → Option trieNode)
    (hoob : ∀ i, (oob1 i).isSome = (oob2 i).isSome) :
    ∀ (p : List Char) (a b : trieNode), sameButMaxFreq a b = true →
      queryFrom oob1 p a = queryFrom oob2 p b := by
  intro p
  induction p with
  | nil =>
    intro a b h
    rw [queryFrom_nil, queryFrom_nil, answerAt_congr h]
  | cons c r ih =>
    intro a b h
    cases hc : slotOf c with
    | some i =>
      rw [queryFrom_cons_of_slot oob1 hc, queryFrom_cons_of_slot oob2 hc]
      exact ih _ _ (sameButMaxFreq_children h i)
    | none =>
      cases a with
      | NULL => cases b with
        | NULL => rw [queryFrom_NULL, queryFrom_NULL]
        | node _ _ _ _ _ => simp [sameButMaxFreq] at h
      | node w f s m ch => cases b with
        | NULL => simp [sameButMaxFreq] at h
        | node w2 f2 s2 m2 ch2 =>
          rw [queryFrom_cons_of_none oob1 hc, queryFrom_cons_of_none oob2 hc]
          have := hoob (childIndex c)
          cases h1 : oob1 (childIndex c) <;> cases h2 : oob2 (childIndex c) <;>
            simp_all

/-- The fields other than `maxFreq` that `insert` writes do not depend on any `maxFreq`. -/
theorem insertFrom_congr (junk1 junk2 : List Char → Int) (f : Int) :
    ∀ (w pre1 pre2 : List Char) (a b : trieNode), sameButMaxFreq a b = true →
      sameButMaxFreq (insertFrom junk1 f pre1 w a) (insertFrom junk2 f pre2 w b) = true := by
  intro w
  induction w with
  | nil =>
    intro pre1 pre2 a b h
    cases a with
    | NULL => cases b with
      | NULL => rfl
      | node _ _ _ _ _ => simp [sameButMaxFreq] at h
    | node w0 fr s m ch => cases b with
      | NULL => simp [sameButMaxFreq] at h
      | node w2 f2 s2 m2 ch2 =>
        obtain ⟨_, h2, h3, h4⟩ := (sameButMaxFreq_node_iff _ _ _ _ _ _ _ _ _ _).1 h
        rw [insertFrom_nil, insertFrom_nil]
        exact (sameButMaxFreq_node_iff _ _ _ _ _ _ _ _ _ _).2
          ⟨rfl, by rw [h2], by rw [h3], h4⟩
  | cons c rest ih =>
    intro pre1 pre2 a b h
    cases a with
    | NULL => cases b with
      | NULL => rfl
      | node _ _ _ _ _ => simp [sameButMaxFreq] at h
    | node w0 fr s m ch => cases b with
      | NULL => simp [sameButMaxFreq] at h
      | node w2 f2 s2 m2 ch2 =>
        obtain ⟨h1, h2, h3, h4⟩ := (sameButMaxFreq_node_iff _ _ _ _ _ _ _ _ _ _).1 h
        cases hc : slotOf c with
        | none =>
          rw [insertFrom_cons_none junk1 f pre1 rest hc,
            insertFrom_cons_none junk2 f pre2 rest hc]
          exact h
        | some i =>
          rw [insertFrom_cons_some junk1 f pre1 rest hc,
            insertFrom_cons_some junk2 f pre2 rest hc]
          refine (sameButMaxFreq_node_iff _ _ _ _ _ _ _ _ _ _).2
            ⟨h1, h2, by rw [h3], fun j => ?_⟩
          have hens : ∀ k, sameButMaxFreq (ensureChild ch i (junk1 (pre1 ++ [c])) k)
              (ensureChild ch2 i (junk2 (pre2 ++ [c])) k) = true := by
            intro k
            have hpi := sameButMaxFreq_present (h4 i)
            unfold ensureChild
            rw [← hpi]
            split
            · exact h4 k
            · by_cases hki : k = i
              · subst hki
                rw [Function.update_same, Function.update_same]
                exact sameButMaxFreq_initNode _ _
              · rw [Function.update_noteq hki, Function.update_noteq hki]
                exact h4 k
          by_cases hji : j = i
          · subst hji
            rw [Function.update_same, Function.update_same]
            exact ih _ _ _ _ (hens j)
          · rw [Function.update_noteq hji, Function.update_noteq hji]
            exact hens j

theorem insertAll_congr (junk1 junk2 : List Char → Int) :
    ∀ (L : List (List Char × Int)) (a b : trieNode), sameButMaxFreq a b = true →
      sameButMaxFreq (insertAll junk1 a L) (insertAll junk2 b L) = true := by
  intro L
  induction L with
  | nil => intro a b h; exact h
  | cons e L ih =>
    intro a b h
    rw [insertAll_cons, insertAll_cons, insert_zero, insert_zero]
    exact ih _ _ (insertFrom_congr junk1 junk2 e.2 e.1 [] [] a b h)

/-- Claim C15. `maxFreq` is non-authoritative: for two trees identical except for the
values of `maxFreq`, (1) `query` gives the same outcome on both for every prefix, and
(2) the same `insert(root, w, f, 0)` on both leaves trees that still have the same nodes
with the same `isWord`, `freq` and `sumPrefixFreq`. Hence the answers on a dictionary
built from a fresh root do not depend on what `initialize` leaves in `maxFreq`. -/
theorem C15_maxFreq_is_not_authoritative (a b : trieNode)
    (hab : sameButMaxFreq a b = true) :
    (∀ (oob1 oob2 : Int → Option trieNode) (p : List Char),
      (∀ i, (oob1 i).isSome = (oob2 i).isSome) → query oob1 a p 0 = query oob2 b p 0) ∧
      (∀ (junk1 junk2 : List Char → Int) (w : List Char) (f : Int),
        sameButMaxFreq (insert junk1 a w f 0) (insert junk2 b w f 0) = true) ∧
      (∀ (junk1 junk2 : List Char → Int) (g1 g2 : Int) (L : List (List Char × Int))
        (oob : Int → Option trieNode) (p : List Char),
        query oob (insertAll junk1 (initNode g1) L) p 0
          = query oob (insertAll junk2 (initNode g2) L) p 0) := by
  refine ⟨?_, ?_, ?_⟩
  · intro oob1 oob2 p hoob
    unfold query
    exact queryFrom_congr oob1 oob2 hoob _ a b hab
  · intro junk1 junk2 w f
    rw [insert_zero, insert_zero]
    exact insertFrom_congr junk1 junk2 f w [] [] a b hab
  · intro junk1 junk2 g1 g2 L oob p
    unfold query
    exact queryFrom_congr oob oob (fun _ => rfl) _ _ _
      (insertAll_congr junk1 junk2 L _ _ (sameButMaxFreq_initNode g1 g2))

/-- Witness of C15: the tree of `"cat"` and `"car"` built over allocations holding 0, and
the same built over allocations holding 9. -/
theorem C15_witness :
    sameButMaxFreq
        (insertAll (fun _ => 0) (initNode 0) [("cat".toList, 5), ("car".toList, 3)])
        (insertAll (fun _ => 9) (initNode 9) [("cat".toList, 5), ("car".toList, 3)]) = true ∧
      query (fun _ => none)
        (insertAll (fun _ => 0) (initNode 0) [("cat".toList, 5), ("car".toList, 3)])
        "ca".toList 0
      = query (fun _ => none)
        (insertAll (fun _ => 9) (initNode 9) [("cat".toList, 5), ("car".toList, 3)])
        "ca".toList 0 :=
  ⟨by decide,
    (C15_maxFreq_is_not_authoritative
      (insertAll (fun _ => 0) (initNode 0) [("cat".toList, 5), ("car".toList, 3)])
      (insertAll (fun _ => 9) (initNode 9) [("cat".toList, 5), ("car".toList, 3)])
      (by decide)).1 (fun _ => none) (fun _ => none) "ca".toList (fun _ => rfl)⟩

/-! ## The order of two inserts -/

/-- Two trees that show the same nodes and the same `isWord`, `freq` and `sumPrefixFreq`
at every path differ in `maxFreq` only. -/
theorem sameButMaxFreq_of_paths : ∀ (a b : trieNode),
    (∀ p : List Char, (nodeAt a p).present = (nodeAt b p).present ∧
      (nodeAt a p).isWord = (nodeAt b p).isWord ∧ (nodeAt a p).freq = (nodeAt b p).freq ∧
      (nodeAt a p).sumPrefixFreq = (nodeAt b p).sumPrefixFreq) →
    sameButMaxFreq a b = true := by
  intro a
  induction a with
  | NULL =>
    intro b h
    have h0 := (h []).1
    simp only [nodeAt, present] at h0
    rw [(present_false_iff b).1 h0.symm]
    rfl
  | node w f s m ch ih =>
    intro b h
    cases b with
    | NULL =>
      have h0 := (h []).1
      simp [nodeAt, present] at h0
    | node w2 f2 s2 m2 ch2 =>
      obtain ⟨_, h2, h3, h4⟩ := h []
      refine (sameButMaxFreq_node_iff _ _ _ _ _ _ _ _ _ _).2 ⟨h2, h3, h4, fun i => ?_⟩
      apply ih i (ch2 i)
      intro p
      have := h (letter i :: p)
      rw [nodeAt_cons_of_slot _ (slotOf_letter i), nodeAt_cons_of_slot _ (slotOf_letter i)]
        at this
      exact this

theorem nodeAt_insert_two (junk : List Char → Int) (t : trieNode) (ht : t.present = true)
    (w1 w2 : List Char) (h1 : ∀ c ∈ w1, isLetter c = true) (h2 : ∀ c ∈ w2, isLetter c = true)
    (f1 f2 : Int) (p : List Char) :
    (nodeAt (insert junk (insert junk t w1 f1 0) w2 f2 0) p).present
        = (((nodeAt t p).present || decide (p <+: w1)) || decide (p <+: w2)) ∧
      (nodeAt (insert junk (insert junk t w1 f1 0) w2 f2 0) p).isWord
        = (if p = w2 then 1 else if p = w1 then 1 else (nodeAt t p).isWord) ∧
      (nodeAt (insert junk (insert junk t w1 f1 0) w2 f2 0) p).freq
        = (nodeAt t p).freq + (if p = w1 then f1 else 0) + (if p = w2 then f2 else 0) ∧
      (nodeAt (insert junk (insert junk t w1 f1 0) w2 f2 0) p).sumPrefixFreq
        = (nodeAt t p).sumPrefixFreq + (if p <+: w1 then f1 else 0)
          + (if p <+: w2 then f2 else 0) := by
  obtain ⟨a1, a2, a3, a4⟩ := nodeAt_insert_valid junk f1 w1 h1 t ht p
  obtain ⟨b1, b2, b3, b4⟩ :=
    nodeAt_insert_valid junk f2 w2 h2 _ (present_insert junk t w1 f1 ht) p
  rw [b1, b2, b3, b4, a1, a2, a3, a4]
  exact ⟨rfl, rfl, rfl, rfl⟩

/-- Claim C17. Insertion order does not matter for the authoritative state: for every
tree and all words `w1`, `w2` over `a`..`z`, `insert(w1, f1)` then `insert(w2, f2)` and
the two calls in the other order leave trees with the same nodes and the same `isWord`,
`freq` and `sumPrefixFreq` at every node, hence the same `query` outcome for every
prefix. -/
theorem C17_insertion_order_does_not_matter (junk1 junk2 : List Char → Int)
    (root : trieNode) (w1 w2 : List Char) (f1 f2 : Int)
    (h1 : ∀ c ∈ w1, isLetter c = true) (h2 : ∀ c ∈ w2, isLetter c = true) :
    sameButMaxFreq (insert junk1 (insert junk1 root w1 f1 0) w2 f2 0)
        (insert junk2 (insert junk2 root w2 f2 0) w1 f1 0) = true ∧
      (∀ p : List Char,
        (nodeAt (insert junk1 (insert junk1 root w1 f1 0) w2 f2 0) p).present
          = (nodeAt (insert junk2 (insert junk2 root w2 f2 0) w1 f1 0) p).present ∧
        (nodeAt (insert junk1 (insert junk1 root w1 f1 0) w2 f2 0) p).isWord
          = (nodeAt (insert junk2 (insert junk2 root w2 f2 0) w1 f1 0) p).isWord ∧
        (nodeAt (insert junk1 (insert junk1 root w1 f1 0) w2 f2 0) p).freq
          = (nodeAt (insert junk2 (insert junk2 root w2 f2 0) w1 f1 0) p).freq ∧
        (nodeAt (insert junk1 (insert junk1 root w1 f1 0) w2 f2 0) p).sumPrefixFreq
          = (nodeAt (insert junk2 (insert junk2 root w2 f2 0) w1 f1 0) p).sumPrefixFreq) ∧
      (∀ (oob : Int → Option trieNode) (p : List Char),
        query oob (insert junk1 (insert junk1 root w1 f1 0) w2 f2 0) p 0
          = query oob (insert junk2 (insert junk2 root w2 f2 0) w1 f1 0) p 0) := by
  have hpaths : ∀ p : List Char,
      (nodeAt (insert junk1 (insert junk1 root w1 f1 0) w2 f2 0) p).present
        = (nodeAt (insert junk2 (insert junk2 root w2 f2 0) w1 f1 0) p).present ∧
      (nodeAt (insert junk1 (insert junk1 root w1 f1 0) w2 f2 0) p).isWord
        = (nodeAt (insert junk2 (insert junk2 root w2 f2 0) w1 f1 0) p).isWord ∧
      (nodeAt (insert junk1 (insert junk1 root w1 f1 0) w2 f2 0) p).freq
        = (nodeAt (insert junk2 (insert junk2 root w2 f2 0) w1 f1 0) p).freq ∧
      (nodeAt (insert junk1 (insert junk1 root w1 f1 0) w2 f2 0) p).sumPrefixFreq
        = (nodeAt (insert junk2 (insert junk2 root w2 f2 0) w1 f1 0) p).sumPrefixFreq := by
    intro p
    by_cases hr : root.present = true
    · obtain ⟨a1, a2, a3, a4⟩ := nodeAt_insert_two junk1 root hr w1 w2 h1 h2 f1 f2 p
      obtain ⟨b1, b2, b3, b4⟩ := nodeAt_insert_two junk2 root hr w2 w1 h2 h1 f2 f1 p
      rw [a1, a2, a3, a4, b1, b2, b3, b4]
      refine ⟨?_, ?_, ?_, ?_⟩
      · cases (nodeAt root p).present <;> cases decide (p <+: w1) <;>
          cases decide (p <+: w2) <;> rfl
      · by_cases e1 : p = w1 <;> by_cases e2 : p = w2 <;> simp [e1, e2]
      · ring
      · ring
    · have hN : root = NULL := (present_false_iff root).1 (by simpa using hr)
      subst hN
      simp only [insert_zero, insertFrom_NULL]
      exact ⟨trivial, trivial, trivial, trivial⟩
  have hsame := sameButMaxFreq_of_paths _ _ hpaths
  refine ⟨hsame, hpaths, fun oob p => ?_⟩
  unfold query
  exact queryFrom_congr oob oob (fun _ => rfl) _ _ _ hsame

/-- Witness of C17: `"cat"` 5 and `"car"` 3 in the two orders on a fresh root. -/
theorem C17_witness :
    query (fun _ => none)
        (insert (fun _ => 0) (insert (fun _ => 0) (initNode 0) "cat".toList 5 0)
          "car".toList 3 0) "ca".toList 0
      = query (fun _ => none)
        (insert (fun _ => 0) (insert (fun _ => 0) (initNode 0) "car".toList 3 0)
          "cat".toList 5 0) "ca".toList 0 :=
  (C17_insertion_order_does_not_matter (fun _ => 0) (fun _ => 0) (initNode 0)
    "cat".toList "car".toList 5 3 (by decide) (by decide)).2.2 (fun _ => none) "ca".toList

/-! ## The indices used on the child array -/

/-- Every index `insert` uses on `children` lies in `0..25`: its range check comes
first. -/
theorem insertIndices_in_range (junk : List Char → Int) (f : Int) :
    ∀ (w pre : List Char) (t : trieNode), ∀ i ∈ insertIndices junk f pre w t,
      0 ≤ i ∧ i < 26 := by
  intro w
  induction w with
  | nil =>
    intro pre t i hi
    cases t <;> simp [insertIndices] at hi
  | cons c rest ih =>
    intro pre t i hi
    cases t with
    | NULL => simp [insertIndices] at hi
    | node w0 fr s m ch =>
      unfold insertIndices at hi
      split at hi
      · simp at hi
      · rename_i hc
        simp only [List.mem_append, List.mem_singleton, List.mem_map, List.mem_filter] at hi
        rcases hi with (((hi | hi) | hi) | hi) | hi
        · rw [hi]; omega
        · split at hi
          · simp at hi
          · rw [List.mem_singleton] at hi; rw [hi]; omega
        · obtain ⟨_, _, rfl⟩ := hi; omega
        · rw [hi]; omega
        · exact ih _ _ i hi

/-- Claim C16, the code at the failing input. On any non-null root, `query(root, "A", 0)`
indexes `children` with `childIndex = -32` at line 181, before the range check of line
189, whatever the read finds; `insert` never uses an index outside `0..25`. -/
theorem C16_query_indexes_before_range_check (w fr s m : Int) (ch : Fin 26 → trieNode)
    (oob : Int → Option trieNode) :
    queryIndices oob "A".toList (node w fr s m ch) = [-32] ∧
      ¬ (∀ i ∈ queryIndices oob "A".toList (node w fr s m ch), 0 ≤ i ∧ i < 26) ∧
      (∀ (junk : List Char → Int) (f : Int) (word : List Char) (t : trieNode),
        ∀ i ∈ insertIndices junk f [] word t, 0 ≤ i ∧ i < 26) := by
  have hA : "A".toList = ['A'] := rfl
  have hidx : childIndex 'A' = -32 := by decide
  have hs : slotOf 'A' = none := by decide
  have h1 : queryIndices oob "A".toList (node w fr s m ch) = [-32] := by
    have hr : readChild oob ch (-32) = oob (-32) := by
      rw [← hidx]; exact readChild_of_none oob ch hs
    rw [hA]
    simp only [queryIndices, hidx, hr]
    cases oob (-32) with
    | none => rfl
    | some slot => simp
  refine ⟨h1, ?_, fun junk f word t => insertIndices_in_range junk f word [] t⟩
  rw [h1]
  intro h
  have := h (-32) (List.mem_singleton.2 rfl)
  omega

/-! ## Counters on 32 bits -/

theorem wrap32_of_range {x : Int} (h0 : 0 ≤ x) (h1 : x ≤ INT_MAX) : wrap32 x = x := by
  unfold INT_MAX at h1
  unfold wrap32
  rw [Int.emod_eq_of_lt (by omega) (by omega)]
  omega

theorem boundedBy_node_iff (B w fr s m : Int) (ch : Fin 26 → trieNode) :
    boundedBy B (node w fr s m ch) = true ↔
      (0 ≤ fr ∧ fr ≤ B ∧ 0 ≤ s ∧ s ≤ B) ∧ ∀ i, boundedBy B (ch i) = true := by
  simp [boundedBy, List.mem_finRange, and_assoc]

theorem countersNonneg_node_iff (w fr s m : Int) (ch : Fin 26 → trieNode) :
    countersNonneg (node w fr s m ch) = true ↔
      (0 ≤ fr ∧ 0 ≤ s) ∧ ∀ i, countersNonneg (ch i) = true := by
  simp [countersNonneg, List.mem_finRange, and_assoc]

theorem boundedBy_mono {B B2 : Int} (h : B ≤ B2) : ∀ t : trieNode,
    boundedBy B t = true → boundedBy B2 t = true := by
  intro t
  induction t with
  | NULL => intro _; rfl
  | node w fr s m ch ih =>
    intro ht
    obtain ⟨⟨h1, h2, h3, h4⟩, h5⟩ := (boundedBy_node_iff _ _ _ _ _ _).1 ht
    exact (boundedBy_node_iff _ _ _ _ _ _).2
      ⟨⟨h1, by omega, h3, by omega⟩, fun i => ih i (h5 i)⟩

theorem countersNonneg_of_boundedBy (B : Int) : ∀ t : trieNode,
    boundedBy B t = true → countersNonneg t = true := by
  intro t
  induction t with
  | NULL => intro _; rfl
  | node w fr s m ch ih =>
    intro ht
    obtain ⟨⟨h1, _, h3, _⟩, h5⟩ := (boundedBy_node_iff _ _ _ _ _ _).1 ht
    exact (countersNonneg_node_iff _ _ _ _ _).2 ⟨⟨h1, h3⟩, fun i => ih i (h5 i)⟩

theorem boundedBy_initNode (B g : Int) (hB : 0 ≤ B) : boundedBy B (initNode g) = true :=
  (boundedBy_node_iff _ _ _ _ _ _).2 ⟨⟨le_refl 0, hB, le_refl 0, hB⟩, fun _ => rfl⟩

theorem boundedBy_ensureChild (B : Int) (hB : 0 ≤ B) (ch : Fin 26 → trieNode) (i : Fin 26)
    (g : Int) (h : ∀ j, boundedBy B (ch j) = true) (j : Fin 26) :
    boundedBy B (ensureChild ch i g j) = true := by
  unfold ensureChild
  split
  · exact h j
  · by_cases hji : j = i
    · subst hji; rw [Function.update_same]; exact boundedBy_initNode B g hB
    · rw [Function.update_noteq hji]; exact h j

theorem insertFrom32_NULL (junk : List Char → Int) (f : Int) (pre w : List Char) :
    insertFrom32 junk f pre w NULL = NULL := by
  cases w <;> rfl

/-- As long as the counters of the tree are at most `B` and `B + f` fits in an `int`, no
addition of `insert` wraps: the 32-bit run leaves the tree of the exact run, with
counters at most `B + f`. -/
theorem insertFrom32_of_bounded (junk : List Char → Int) (f B : Int) (hf : 0 ≤ f)
    (hB : 0 ≤ B) (hfit : B + f ≤ INT_MAX) :
    ∀ (w pre : List Char) (t : trieNode), boundedBy B t = true →
      insertFrom32 junk f pre w t = insertFrom junk f pre w t ∧
        boundedBy (B + f) (insertFrom junk f pre w t) = true := by
  intro w
  induction w with
  | nil =>
    intro pre t ht
    cases t with
    | NULL => exact ⟨rfl, rfl⟩
    | node w0 fr s m ch =>
      obtain ⟨⟨h1, h2, h3, h4⟩, h5⟩ := (boundedBy_node_iff _ _ _ _ _ _).1 ht
      constructor
      · show node 1 (wrap32 (fr + f)) (wrap32 (s + f)) m ch = node 1 (fr + f) (s + f) m ch
        rw [wrap32_of_range (by omega) (by omega), wrap32_of_range (by omega) (by omega)]
      · rw [insertFrom_nil]
        exact (boundedBy_node_iff _ _ _ _ _ _).2
          ⟨⟨by omega, by omega, by omega, by omega⟩,
            fun i => boundedBy_mono (by omega) _ (h5 i)⟩
  | cons c rest ih =>
    intro pre t ht
    cases t with
    | NULL => exact ⟨rfl, rfl⟩
    | node w0 fr s m ch =>
      obtain ⟨⟨h1, h2, h3, h4⟩, h5⟩ := (boundedBy_node_iff _ _ _ _ _ _).1 ht
      cases hc : slotOf c with
      | none =>
        rw [insertFrom_cons_none junk f pre rest hc]
        refine ⟨?_, boundedBy_mono (by omega) _ ht⟩
        have hr := slot_out_of_range hc
        simp only [insertFrom32, hr, dite_true]
      | some i =>
        have hr := slot_in_range hc
        have hi : (⟨(childIndex c).toNat, by omega⟩ : Fin 26) = i := by
          unfold slotOf at hc
          rw [dif_neg hr] at hc
          exact Option.some.inj hc
        obtain ⟨e1, e2⟩ := ih (pre ++ [c]) (ensureChild ch i (junk (pre ++ [c])) i)
          (boundedBy_ensureChild B hB ch i _ h5 i)
        rw [insertFrom_cons_some junk f pre rest hc]
        constructor
        · simp only [insertFrom32, hr, dite_false, hi]
          rw [wrap32_of_range (by omega) (by omega), e1]
        · refine (boundedBy_node_iff _ _ _ _ _ _).2
            ⟨⟨by omega, by omega, by omega, by omega⟩, fun j => ?_⟩
          by_cases hji : j = i
          · subst hji; rw [Function.update_same]; exact e2
          · rw [Function.update_noteq hji]
            exact boundedBy_mono (by omega) _ (boundedBy_ensureChild B hB ch i _ h5 j)

theorem insertAll32_cons (junk : List Char → Int) (t : trieNode) (e : List Char × Int)
    (L : List (List Char × Int)) :
    insertAll32 junk t (e :: L) = insertAll32 junk (insert32 junk t e.1 e.2 0) L := rfl

theorem insertAll32_of_bounded (junk : List Char → Int) :
    ∀ (L : List (List Char × Int)) (t : trieNode) (B : Int), 0 ≤ B →
      boundedBy B t = true → (∀ e ∈ L, 0 ≤ e.2) → B + (L.map (fun e => e.2)).sum ≤ INT_MAX →
      insertAll32 junk t L = insertAll junk t L ∧
        boundedBy (B + (L.map (fun e => e.2)).sum) (insertAll junk t L) = true := by
  intro L
  induction L with
  | nil => intro t B _ ht _ _; exact ⟨rfl, by simpa using ht⟩
  | cons e L ih =>
    intro t B hB ht hL hfit
    have he : 0 ≤ e.2 := hL e (List.mem_cons_self _ _)
    have hL2 : ∀ x ∈ L, 0 ≤ x.2 := fun x hx => hL x (List.mem_cons_of_mem _ hx)
    have hsum : 0 ≤ (L.map (fun e => e.2)).sum := by
      apply List.sum_nonneg
      intro x hx
      obtain ⟨y, hy, rfl⟩ := List.mem_map.1 hx
      exact hL2 y hy
    simp only [List.map_cons, List.sum_cons] at hfit ⊢
    obtain ⟨e1, e2⟩ := insertFrom32_of_bounded junk e.2 B he hB (by omega) e.1 [] t ht
    have hstep : insert32 junk t e.1 e.2 0 = insert junk t e.1 e.2 0 := by
      simp only [insert32, insert, List.take_zero, List.drop_zero]
      exact e1
    rw [insertAll32_cons, insertAll_cons, hstep]
    have e2b : boundedBy (B + e.2) (insert junk t e.1 e.2 0) = true := by
      rw [insert_zero]; exact e2
    obtain ⟨r1, r2⟩ := ih (insert junk t e.1 e.2 0) (B + e.2) (by omega) e2b hL2 (by omega)
    refine ⟨r1, ?_⟩
    rw [← add_assoc]
    exact r2

/-- Claim C19 as stated fails: on 32-bit counters that wrap around, `insert("a",
2147483647)` followed by `insert("a", 1)` on a fresh root, both frequencies within
`0..2^31-1`, leaves `freq = -2147483648` at the node of `"a"`. -/
theorem C19_counterexample :
    (nodeAt (insertAll32 (fun _ => 0) (initNode 0)
        [("a".toList, 2147483647), ("a".toList, 1)]) "a".toList).freq = -2147483648 ∧
      countersNonneg (insertAll32 (fun _ => 0) (initNode 0)
        [("a".toList, 2147483647), ("a".toList, 1)]) = false := by
  decide

/-- Claim C19, amended. On 32-bit counters, for every sequence of inserts whose
frequencies are each `≥ 0` and add up to at most `2^31-1`, no addition wraps, the tree
is the one of the exact run, and every node has `freq ≥ 0` and `sumPrefixFreq ≥ 0`. (The
words need not be over `a`..`z` for this.) -/
theorem C19_counters_nonneg_without_overflow (junk : List Char → Int) (g : Int)
    (L : List (List Char × Int)) (hL : ∀ e ∈ L, 0 ≤ e.2)
    (hfit : (L.map (fun e => e.2)).sum ≤ INT_MAX) :
    countersNonneg (insertAll32 junk (initNode g) L) = true ∧
      insertAll32 junk (initNode g) L = insertAll junk (initNode g) L := by
  obtain ⟨e1, e2⟩ := insertAll32_of_bounded junk L (initNode g) 0 (le_refl 0)
    (boundedBy_initNode 0 g (le_refl 0)) hL (by omega)
  exact ⟨e1 ▸ countersNonneg_of_boundedBy _ _ e2, e1⟩

/-- Witness of C19 on the entries `("cat", 2147483000)`, `("car", 647)`, which add up to
`2^31-1` exactly. -/
theorem C19_witness :
    countersNonneg (insertAll32 (fun _ => 0) (initNode 0)
      [("cat".toList, 2147483000), ("car".toList, 647)]) = true :=
  (C19_counters_nonneg_without_overflow (fun _ => 0) 0
    [("cat".toList, 2147483000), ("car".toList, 647)] (by decide) (by decide)).1

/-! ## `query` on the memory writes to no node -/

theorem keepsCells_refl (h : Heap) : keepsCells h h := ⟨le_refl _, fun _ _ => rfl⟩

theorem keepsCells_trans {h1 h2 h3 : Heap} (a : keepsCells h1 h2) (b : keepsCells h2 h3) :
    keepsCells h1 h3 :=
  ⟨le_trans a.1 b.1, fun x hx => (b.2 x (lt_of_lt_of_le hx a.1)).trans (a.2 x hx)⟩

theorem keepsCells_malloc (h : Heap) : keepsCells h h.malloc.1 := by
  refine ⟨Nat.le_succ _, fun a ha => ?_⟩
  show Function.update h.cells h.next _ a = h.cells a
  rw [Function.update_noteq (Nat.ne_of_lt ha)]

theorem keepsCells_store {h0 g : Heap} (hk : keepsCells h0 g) {p : Nat} (hp : h0.next ≤ p)
    (pos : Nat) (c : Char) : keepsCells h0 (g.store p pos c) := by
  unfold Heap.store
  split
  · refine ⟨hk.1, fun a ha => ?_⟩
    show Function.update g.cells p _ a = h0.cells a
    rw [Function.update_noteq (by omega)]
    exact hk.2 a ha
  · exact hk

theorem keepsCells_strcpy {h0 g : Heap} (hk : keepsCells h0 g) {p : Nat} (hp : h0.next ≤ p)
    (s : List Char) : keepsCells h0 (g.strcpy p s) := by
  unfold Heap.strcpy
  split
  · refine ⟨hk.1, fun a ha => ?_⟩
    show Function.update g.cells p _ a = h0.cells a
    rw [Function.update_noteq (by omega)]
    exact hk.2 a ha
  · exact hk

theorem keepsCells_free {h0 g : Heap} (hk : keepsCells h0 g) {p : Nat} (hp : h0.next ≤ p) :
    keepsCells h0 (g.free p) := by
  refine ⟨hk.1, fun a ha => ?_⟩
  show Function.update g.cells p _ a = h0.cells a
  rw [Function.update_noteq (by omega)]
  exact hk.2 a ha

theorem keepsCells_sentinelResult (h : Heap) : keepsCells h (sentinelResult h).1 :=
  keepsCells_strcpy (keepsCells_malloc h) (le_refl _) _

theorem stringAt_sentinelResult (h : Heap) :
    (sentinelResult h).1.stringAt (sentinelResult h).2 = UNRECOGNIZED_PREFIX := by
  simp only [sentinelResult, Heap.malloc, Heap.strcpy, Heap.stringAt, Function.update_same]
  decide

theorem child_of_keeps {h g : Heap} (hk : keepsCells h g) {a : Nat} (ha : a < h.next)
    (i : Fin 26) : g.child a i = h.child a i := by
  unfold Heap.child
  rw [hk.2 a ha]

theorem sumAt_of_keeps {h g : Heap} (hk : keepsCells h g) {a : Nat} (ha : a < h.next) :
    g.sumAt a = h.sumAt a := by
  unfold Heap.sumAt
  rw [hk.2 a ha]

theorem represents_node_iff (h : Heap) (a : Nat) (w f s m : Int) (ch : Fin 26 → trieNode) :
    represents h a (node w f s m ch) = true ↔
      a ≠ 0 ∧ a < h.next ∧ ∃ kids : Fin 26 → Nat,
        h.cells a = some (Cell.nodeCell w f s m kids) ∧
          ∀ i, represents h (kids i) (ch i) = true := by
  rw [represents]
  cases hc : h.cells a with
  | none => simp
  | some cell =>
    cases cell with
    | chars l => simp
    | nodeCell w2 f2 s2 m2 kids =>
      simp only [Bool.and_eq_true, decide_eq_true_eq, List.all_eq_true, List.mem_finRange,
        true_implies, Option.some.injEq, Cell.nodeCell.injEq]
      constructor
      · rintro ⟨⟨⟨⟨⟨⟨h1, h2⟩, rfl⟩, rfl⟩, rfl⟩, rfl⟩, h7⟩
        exact ⟨h1, h2, kids, ⟨rfl, rfl, rfl, rfl, rfl⟩, h7⟩
      · rintro ⟨h1, h2, kids2, ⟨rfl, rfl, rfl, rfl, rfl⟩, h7⟩
        exact ⟨⟨⟨⟨⟨⟨h1, h2⟩, rfl⟩, rfl⟩, rfl⟩, rfl⟩, h7⟩

theorem represents_NULL_iff (h : Heap) (a : Nat) : represents h a NULL = true ↔ a = 0 := by
  simp [represents]

/-- A memory that keeps the cells of `h` holds the trees `h` holds, at the same
addresses. -/
theorem represents_of_keeps {h g : Heap} (hk : keepsCells h g) : ∀ (t : trieNode) (a : Nat),
    represents h a t = true → represents g a t = true := by
  intro t
  induction t with
  | NULL => intro a ha; rw [represents_NULL_iff] at ha ⊢; exact ha
  | node w f s m ch ih =>
    intro a ha
    obtain ⟨h1, h2, kids, h3, h4⟩ := (represents_node_iff _ _ _ _ _ _ _).1 ha
    refine (represents_node_iff _ _ _ _ _ _ _).2
      ⟨h1, lt_of_lt_of_le h2 hk.1, kids, (hk.2 a h2).trans h3, fun i => ih i _ (h4 i)⟩

theorem represents_zero_iff {h : Heap} {a : Nat} {t : trieNode}
    (ht : represents h a t = true) : a = 0 ↔ t = NULL := by
  cases t with
  | NULL => rw [represents_NULL_iff] at ht; simp [ht]
  | node w f s m ch =>
    have := ((represents_node_iff _ _ _ _ _ _ _).1 ht).1
    simp [this]

theorem represents_lt {h : Heap} {a : Nat} {t : trieNode}
    (ht : represents h a t = true) (ha : a ≠ 0) : a < h.next := by
  cases t with
  | NULL => rw [represents_NULL_iff] at ht; exact absurd ht ha
  | node w f s m ch => exact ((represents_node_iff _ _ _ _ _ _ _).1 ht).2.1

theorem represents_sumAt {h : Heap} {a : Nat} {t : trieNode}
    (ht : represents h a t = true) (ha : a ≠ 0) : h.sumAt a = t.sumPrefixFreq := by
  cases t with
  | NULL => rw [represents_NULL_iff] at ht; exact absurd ht ha
  | node w f s m ch =>
    obtain ⟨_, _, kids, h3, _⟩ := (represents_node_iff _ _ _ _ _ _ _).1 ht
    simp [Heap.sumAt, h3, sumPrefixFreq]

theorem child_facts {h0 g : Heap} {root : Nat} {w f s m : Int} {ch : Fin 26 → trieNode}
    (hrep : represents h0 root (node w f s m ch) = true) (hk : keepsCells h0 g)
    (i : Fin 26) :
    represents h0 (g.child root i) (ch i) = true ∧
      (g.child root i = 0 ↔ ch i = NULL) ∧
      (g.child root i ≠ 0 → g.sumAt (g.child root i) = (ch i).sumPrefixFreq) := by
  obtain ⟨_, h2, kids, h3, h4⟩ := (represents_node_iff _ _ _ _ _ _ _).1 hrep
  have hc : g.child root i = kids i := by
    rw [child_of_keeps hk h2]
    simp [Heap.child, h3]
  rw [hc]
  refine ⟨h4 i, represents_zero_iff (h4 i), fun hne => ?_⟩
  rw [sumAt_of_keeps hk (represents_lt (h4 i) hne)]
  exact represents_sumAt (h4 i) hne

/-- The first loop on the memory computes what the first loop on the tree computes. -/
theorem queryMaxFreqMem_eq {h0 g : Heap} {root : Nat} {w f s m : Int}
    {ch : Fin 26 → trieNode} (hrep : represents h0 root (node w f s m ch) = true)
    (hk : keepsCells h0 g) : queryMaxFreqMem g root = queryMaxFreq ch := by
  unfold queryMaxFreqMem queryMaxFreq
  congr 1
  funext acc i
  obtain ⟨_, hz, hs⟩ := child_facts hrep hk i
  cases hci : ch i with
  | NULL =>
    have : g.child root i = 0 := hz.2 hci
    simp [this]
  | node w2 f2 s2 m2 ch2 =>
    have hne : g.child root i ≠ 0 := fun h0 => by rw [hz.1 h0] at hci; exact absurd hci (by simp)
    have hsum := hs hne
    rw [hci] at hsum
    simp only [sumPrefixFreq] at hsum
    simp [hne, hsum]

theorem store_append {g : Heap} {p : Nat} {l : List Char}
    (h : g.cells p = some (Cell.chars l)) (c : Char) :
    (g.store p l.length c).cells p = some (Cell.chars (l ++ [c])) := by
  simp [Heap.store, h]

/-- The second loop on the memory: round by round it keeps every cell allocated before
the call and leaves in `result` the letters the loop on the tree collects. -/
theorem queryCollectMem_foldl {h0 : Heap} {root result : Nat} {w f s m : Int}
    {ch : Fin 26 → trieNode} (hrep : represents h0 root (node w f s m ch) = true)
    (hres : h0.next ≤ result) (M : Int) :
    ∀ (l : List (Fin 26)) (st : Heap × Nat) (acc : List Char),
      keepsCells h0 st.1 → st.1.cells result = some (Cell.chars acc) → st.2 = acc.length →
      keepsCells h0 (l.foldl (fun (st : Heap × Nat) i =>
          if st.1.child root i ≠ 0 ∧ st.1.sumAt (st.1.child root i) = M
          then (st.1.store result st.2 (letter i), st.2 + 1) else st) st).1 ∧
        (l.foldl (fun (st : Heap × Nat) i =>
          if st.1.child root i ≠ 0 ∧ st.1.sumAt (st.1.child root i) = M
          then (st.1.store result st.2 (letter i), st.2 + 1) else st) st).1.cells result
          = some (Cell.chars (l.foldl (fun result i =>
              match ch i with
              | NULL => result
              | node _ _ s _ _ => if s = M then result ++ [letter i] else result) acc)) ∧
        (l.foldl (fun (st : Heap × Nat) i =>
          if st.1.child root i ≠ 0 ∧ st.1.sumAt (st.1.child root i) = M
          then (st.1.store result st.2 (letter i), st.2 + 1) else st) st).2
          = (l.foldl (fun result i =>
              match ch i with
              | NULL => result
              | node _ _ s _ _ => if s = M then result ++ [letter i] else result) acc).length := by
  intro l
  induction l with
  | nil => intro st acc hk hc hp; exact ⟨hk, hc, hp⟩
  | cons i l ih =>
    intro st acc hk hc hp
    rw [List.foldl_cons, List.foldl_cons]
    obtain ⟨_, hz, hs⟩ := child_facts hrep hk i
    cases hci : ch i with
    | NULL =>
      have h0 : st.1.child root i = 0 := hz.2 hci
      rw [if_neg (by simp [h0])]
      exact ih st acc hk hc hp
    | node w2 f2 s2 m2 ch2 =>
      have hne : st.1.child root i ≠ 0 := fun h0 => by
        rw [hz.1 h0] at hci; exact absurd hci (by simp)
      have hsum := hs hne
      rw [hci] at hsum
      simp only [sumPrefixFreq] at hsum
      rw [hsum]
      by_cases hM : s2 = M
      · rw [if_pos ⟨hne, hM⟩]
        simp only [hM, if_true]
        apply ih
        · exact keepsCells_store hk hres _ _
        · show (st.1.store result st.2 (letter i)).cells result = _
          rw [hp]
          exact store_append hc _
        · simp [hp]
      · rw [if_neg (fun h => hM h.2)]
        simp only [hM, if_false]
        exact ih st acc hk hc hp

theorem letter_ne_nul : ∀ i : Fin 26, (letter i != Char.ofNat 0) = true := by decide

theorem takeWhile_append_nul (l : List Char) (hl : ∀ c ∈ l, (c != Char.ofNat 0) = true) :
    (l ++ [Char.ofNat 0]).takeWhile (fun c => c != Char.ofNat 0) = l := by
  induction l with
  | nil => rfl
  | cons a r ih =>
    rw [List.cons_append, List.takeWhile_cons, hl a (List.mem_cons_self _ _)]
    simp only [if_true]
    rw [ih (fun c hc => hl c (List.mem_cons_of_mem _ hc))]

theorem queryCollect_letters (ch : Fin 26 → trieNode) (M : Int) :
    ∀ c ∈ queryCollect ch M, (c != Char.ofNat 0) = true := by
  intro c hc
  rw [queryCollect_eq] at hc
  obtain ⟨i, _, rfl⟩ := List.mem_map.1 hc
  exact letter_ne_nul i

/-- The branch `k == strlen(prefix)` on the memory keeps every cell allocated before the
call and returns the string the branch on the tree returns. -/
theorem queryHereMem_spec {h : Heap} {root : Nat} {w f s m : Int} {ch : Fin 26 → trieNode}
    (hrep : represents h root (node w f s m ch) = true) :
    keepsCells h (queryHereMem h root).1 ∧
      (queryHereMem h root).1.stringAt (queryHereMem h root).2 = queryHere ch ∧
      h.next ≤ (queryHereMem h root).2 := by
  have hk1 : keepsCells h h.malloc.1 := keepsCells_malloc h
  have hM : queryMaxFreqMem h.malloc.1 root = queryMaxFreq ch := queryMaxFreqMem_eq hrep hk1
  have key : keepsCells h (queryCollectMem h.malloc.1 root h.next (queryMaxFreq ch)).1 ∧
      (queryCollectMem h.malloc.1 root h.next (queryMaxFreq ch)).1.cells h.next
        = some (Cell.chars (queryCollect ch (queryMaxFreq ch))) ∧
      (queryCollectMem h.malloc.1 root h.next (queryMaxFreq ch)).2
        = (queryCollect ch (queryMaxFreq ch)).length := by
    have hcell : h.malloc.1.cells h.next = some (Cell.chars []) := by
      show Function.update h.cells h.next _ h.next = _
      rw [Function.update_same]
    unfold queryCollectMem queryCollect
    exact queryCollectMem_foldl hrep (le_refl h.next) (queryMaxFreq ch)
      (List.finRange 26) (h.malloc.1, 0) [] hk1 hcell rfl
  have hq : queryHereMem h root
      = if (queryCollectMem h.malloc.1 root h.next (queryMaxFreq ch)).2 = 0
        then sentinelResult
          ((queryCollectMem h.malloc.1 root h.next (queryMaxFreq ch)).1.free h.next)
        else ((queryCollectMem h.malloc.1 root h.next (queryMaxFreq ch)).1.store h.next
          (queryCollectMem h.malloc.1 root h.next (queryMaxFreq ch)).2 (Char.ofNat 0),
          h.next) := by
    unfold queryHereMem
    simp only [hM]
    rfl
  rw [hq]
  generalize queryCollectMem h.malloc.1 root h.next (queryMaxFreq ch) = st at key
  obtain ⟨c1, c2, c3⟩ := key
  unfold queryHere
  simp only []
  by_cases hpos : st.2 = 0
  · rw [if_pos hpos, if_pos (by rw [← c3]; exact hpos)]
    exact ⟨keepsCells_trans (keepsCells_free c1 (le_refl _)) (keepsCells_sentinelResult _),
      stringAt_sentinelResult _, c1.1⟩
  · rw [if_neg hpos, if_neg (by rw [← c3]; exact hpos)]
    refine ⟨keepsCells_store c1 (le_refl _) _ _, ?_, le_refl _⟩
    simp only [Heap.stringAt]
    rw [c3, store_append c2]
    exact takeWhile_append_nul _ (queryCollect_letters ch (queryMaxFreq ch))

theorem readChildMem_of_slot (oob : Int → Option Nat) (h : Heap) (root : Nat) {c : Char}
    {i : Fin 26} (hc : slotOf c = some i) :
    readChildMem oob h root (childIndex c) = some (h.child root i) := by
  unfold slotOf at hc
  split at hc
  · exact absurd hc (by simp)
  · rename_i hr
    simp only [Option.some.injEq] at hc
    subst hc
    unfold readChildMem
    rw [dif_pos (by omega)]

theorem readChildMem_of_none (oob : Int → Option Nat) (h : Heap) (root : Nat) {c : Char}
    (hc : slotOf c = none) : readChildMem oob h root (childIndex c) = oob (childIndex c) := by
  have hr := slot_out_of_range hc
  unfold readChildMem
  rw [dif_neg (by omega)]

theorem isNode_of_represents {h : Heap} {root : Nat} {w f s m : Int}
    {ch : Fin 26 → trieNode} (hrep : represents h root (node w f s m ch) = true) :
    root ≠ 0 ∧ h.isNode root = true := by
  obtain ⟨h1, _, kids, h3, _⟩ := (represents_node_iff _ _ _ _ _ _ _).1 hrep
  exact ⟨h1, by simp [Heap.isNode, h3]⟩

/-- The run of `query` on the memory and the run on the tree the memory holds: the same
outcome (the same string, or a fault in both), every cell allocated before the call is
left as it was, and the returned string lies in a cell allocated by the call. -/
theorem queryMemFrom_spec (oob : Int → Option Nat) :
    ∀ (p : List Char) (h : Heap) (root : Nat) (t : trieNode), represents h root t = true →
      (queryMemFrom oob p h root).map (fun x => x.1.stringAt x.2)
          = queryFrom (treeOob oob) p t ∧
        ∀ x, queryMemFrom oob p h root = some x → keepsCells h x.1 ∧ h.next ≤ x.2 := by
  intro p
  induction p with
  | nil =>
    intro h root t hrep
    cases t with
    | NULL =>
      have h0 : root = 0 := (represents_NULL_iff h root).1 hrep
      simp only [queryMemFrom, h0, if_true, Option.map_some', queryFrom_NULL,
        stringAt_sentinelResult, Option.some.injEq, true_and]
      rintro x rfl
      exact ⟨keepsCells_sentinelResult h, le_refl _⟩
    | node w f s m ch =>
      obtain ⟨hne, hnode⟩ := isNode_of_represents hrep
      obtain ⟨k1, k2, k3⟩ := queryHereMem_spec hrep
      simp only [queryMemFrom, hne, if_false, hnode, if_true, Option.map_some', k2,
        Option.some.injEq]
      refine ⟨rfl, ?_⟩
      rintro x rfl
      exact ⟨k1, k3⟩
  | cons c rest ih =>
    intro h root t hrep
    cases t with
    | NULL =>
      have h0 : root = 0 := (represents_NULL_iff h root).1 hrep
      simp only [queryMemFrom, h0, if_true, Option.map_some', queryFrom_NULL,
        stringAt_sentinelResult, Option.some.injEq, true_and]
      rintro x rfl
      exact ⟨keepsCells_sentinelResult h, le_refl _⟩
    | node w f s m ch =>
      obtain ⟨hne, hnode⟩ := isNode_of_represents hrep
      cases hc : slotOf c with
      | some i =>
        obtain ⟨hci, hz, _⟩ := child_facts hrep (keepsCells_refl h) i
        rw [queryFrom_cons_of_slot (treeOob oob) hc]
        simp only [queryMemFrom, hne, if_false, hnode, if_true,
          readChildMem_of_slot oob h root hc, slot_in_range hc, children]
        by_cases hp : h.child root i = 0
        · rw [if_pos hp, hz.1 hp, queryFrom_NULL]
          simp only [Option.map_some', stringAt_sentinelResult, Option.some.injEq, true_and]
          rintro x rfl
          exact ⟨keepsCells_sentinelResult h, le_refl _⟩
        · rw [if_neg hp]
          exact ih h _ _ hci
      | none =>
        rw [queryFrom_cons_of_none (treeOob oob) hc]
        simp only [queryMemFrom, hne, if_false, hnode, if_true,
          readChildMem_of_none oob h root hc, slot_out_of_range hc, treeOob]
        cases oob (childIndex c) with
        | none => simp
        | some ptr =>
          simp only [Option.map_some']
          by_cases hp : ptr = 0
          · simp only [hp, if_true, Option.map_some', stringAt_sentinelResult,
              Option.some.injEq, true_and]
            rintro x rfl
            exact ⟨keepsCells_sentinelResult h, le_refl _⟩
          · simp only [hp, if_false, Option.map_some', stringAt_sentinelResult,
              Option.some.injEq, true_and]
            rintro x rfl
            exact ⟨keepsCells_sentinelResult h, le_refl _⟩

theorem queryString_eq (oob : Int → Option Nat) (h : Heap) (root : Nat) (t : trieNode)
    (hrep : represents h root t = true) (p : List Char) :
    queryString oob h root p = query (treeOob oob) t p 0 := by
  unfold queryString queryMem query
  exact (queryMemFrom_spec oob _ h root t hrep).1

theorem queryMem_keeps (oob : Int → Option Nat) (h : Heap) (root : Nat) (t : trieNode)
    (hrep : represents h root t = true) (p : List Char) (x : Heap × Nat)
    (hx : queryMem oob h root p 0 = some x) : keepsCells h x.1 ∧ h.next ≤ x.2 :=
  (queryMemFrom_spec oob _ h root t hrep).2 x hx

/-- The queries of `main`, each followed by the `free` of its result, keep every cell
allocated before them. -/
theorem runQueries_keeps (oob : Int → Option Nat) (root : Nat) (t : trieNode) :
    ∀ (qs : List (List Char)) (h h2 : Heap), represents h root t = true →
      runQueries oob root qs h = some h2 → keepsCells h h2 := by
  intro qs
  induction qs with
  | nil =>
    intro h h2 _ hrun
    simp only [runQueries, Option.some.injEq] at hrun
    rw [← hrun]
    exact keepsCells_refl h
  | cons q qs ih =>
    intro h h2 hrep hrun
    simp only [runQueries] at hrun
    cases hq : queryMem oob h root q 0 with
    | none => rw [hq] at hrun; exact absurd hrun (by simp)
    | some x =>
      rw [hq] at hrun
      simp only [] at hrun
      obtain ⟨k1, k2⟩ := queryMem_keeps oob h root t hrep q x hq
      have k3 : keepsCells h (x.1.free x.2) := keepsCells_free k1 k2
      exact keepsCells_trans k3 (ih _ _ (represents_of_keeps k3 t root hrep) hrun)

/-- Claim C13. `query` is read-only and deterministic. On a memory that holds the tree
`t` at `root`: a call of `query` leaves every cell allocated before the call as it was,
so every node keeps its `isWord`, `freq`, `sumPrefixFreq`, `maxFreq` and children and
the memory still holds `t`; on a prefix over `a`..`z` the call returns, and what it
returns is the answer read off `t`; and the same query run again right after, or after
any queries of `main` in between, has the outcome it had before. -/
theorem C13_query_is_read_only (oob : Int → Option Nat) (h : Heap) (root : Nat)
    (t : trieNode) (hrep : represents h root t = true) :
    (∀ (p : List Char) (x : Heap × Nat), queryMem oob h root p 0 = some x →
      keepsCells h x.1 ∧ represents x.1 root t = true ∧
        ∀ q, queryString oob x.1 root q = queryString oob h root q) ∧
      (∀ p : List Char, (∀ c ∈ p, isLetter c = true) →
        queryString oob h root p = some (answerAt (nodeAt t p))) ∧
      (∀ p : List Char, queryString oob h root p = query (treeOob oob) t p 0) ∧
      (∀ (qs : List (List Char)) (h2 : Heap), runQueries oob root qs h = some h2 →
        keepsCells h h2 ∧ represents h2 root t = true ∧
          ∀ q, queryString oob h2 root q = queryString oob h root q) := by
  refine ⟨?_, ?_, fun p => queryString_eq oob h root t hrep p, ?_⟩
  · intro p x hx
    have k := (queryMem_keeps oob h root t hrep p x hx).1
    have hrep2 := represents_of_keeps k t root hrep
    refine ⟨k, hrep2, fun q => ?_⟩
    rw [queryString_eq oob _ root t hrep2, queryString_eq oob h root t hrep]
  · intro p hp
    rw [queryString_eq oob h root t hrep, query_eq_nodeAt _ t p hp]
  · intro qs h2 hrun
    have k := runQueries_keeps oob root t qs h h2 hrep hrun
    have hrep2 := represents_of_keeps k t root hrep
    refine ⟨k, hrep2, fun q => ?_⟩
    rw [queryString_eq oob _ root t hrep2, queryString_eq oob h root t hrep]

set_option maxRecDepth 8000 in
/-- Witness of C13 on the memory `sampleHeap`, which holds the tree of the single word
`"c"`: the query of the empty prefix returns `"c"`, and returns it again after the
queries of `"c"` and of the empty prefix. -/
theorem C13_witness :
    represents sampleHeap 1 (insert (fun _ => 0) (initNode 0) "c".toList 5 0) = true ∧
      queryString (fun _ => none) sampleHeap 1 [] = some "c".toList ∧
      (runQueries (fun _ => none) 1 ["c".toList, []] sampleHeap).isSome = true ∧
      ∀ h2, runQueries (fun _ => none) 1 ["c".toList, []] sampleHeap = some h2 →
        queryString (fun _ => none) h2 1 [] = some "c".toList :=
  have w := C13_query_is_read_only (fun _ => none) sampleHeap 1
    (insert (fun _ => 0) (initNode 0) "c".toList 5 0) (by decide)
  ⟨by decide, (w.2.2.1 []).trans (by decide), by decide,
    fun h2 hrun => ((w.2.2.2 _ h2 hrun).2.2 []).trans ((w.2.2.1 []).trans (by decide))⟩

/-! ## `insert` on 32-bit counters, read at every path -/

theorem wrap32_of_int_range {x : Int} (h0 : -2147483648 ≤ x) (h1 : x ≤ INT_MAX) :
    wrap32 x = x := by
  unfold INT_MAX at h1
  unfold wrap32
  rw [Int.emod_eq_of_lt (by omega) (by omega)]
  omega

theorem wrap32_zero : wrap32 0 = 0 := by decide

/-- Wrapping after every addition gives what wrapping once at the end gives. -/
theorem wrap32_wrap32_add (a b : Int) : wrap32 (wrap32 a + b) = wrap32 (a + b) := by
  unfold wrap32
  omega

/-- The value of `wrap32` is a 32-bit `int`. -/
theorem wrap32_in_range (x : Int) : -2147483648 ≤ wrap32 x ∧ wrap32 x ≤ INT_MAX := by
  unfold wrap32 INT_MAX
  omega

theorem insertFrom32_nil (junk : List Char → Int) (f : Int) (pre : List Char)
    (w fr s m : Int) (ch : Fin 26 → trieNode) :
    insertFrom32 junk f pre [] (node w fr s m ch)
      = node 1 (wrap32 (fr + f)) (wrap32 (s + f)) m ch := rfl

theorem insertFrom32_cons_none (junk : List Char → Int) (f : Int) (pre rest : List Char)
    {c : Char} (h : slotOf c = none) (w fr s m : Int) (ch : Fin 26 → trieNode) :
    insertFrom32 junk f pre (c :: rest) (node w fr s m ch) = node w fr s m ch := by
  unfold slotOf at h
  split at h
  · rename_i hc
    simp only [insertFrom32, hc, dite_true]
  · exact absurd h (by simp)

theorem insertFrom32_cons_some (junk : List Char → Int) (f : Int) (pre rest : List Char)
    {c : Char} {i : Fin 26} (h : slotOf c = some i) (w fr s m : Int)
    (ch : Fin 26 → trieNode) :
    insertFrom32 junk f pre (c :: rest) (node w fr s m ch) =
      node w fr (wrap32 (s + f))
        (maxChildFreqLoop (ensureChild ch i (junk (pre ++ [c]))) m i)
        (Function.update (ensureChild ch i (junk (pre ++ [c]))) i
          (insertFrom32 junk f (pre ++ [c]) rest
            (ensureChild ch i (junk (pre ++ [c])) i))) := by
  unfold slotOf at h
  split at h
  · exact absurd h (by simp)
  · rename_i hc
    simp only [Option.some.injEq] at h
    subst h
    simp only [insertFrom32, hc, dite_false]

theorem insert32_zero (junk : List Char → Int) (t : trieNode) (w : List Char) (f : Int) :
    insert32 junk t w f 0 = insertFrom32 junk f [] w t := by
  simp [insert32]

/-- Off the path spelled by the letters of `w`, `insert` leaves every subtree as it
was. -/
theorem nodeAt_insertFrom32_off (junk : List Char → Int) (f : Int) :
    ∀ (w pre p : List Char) (t : trieNode), ¬ p <+: validPart w →
      nodeAt (insertFrom32 junk f pre w t) p = nodeAt t p := by
  intro w
  induction w with
  | nil =>
    intro pre p t hp
    cases t with
    | NULL => rfl
    | node w0 fr s m ch =>
      cases p with
      | nil => exact absurd (List.nil_prefix) hp
      | cons d r =>
        rw [insertFrom32_nil]
        cases hd : slotOf d with
        | none => rw [nodeAt_cons_of_none _ hd, nodeAt_cons_of_none _ hd]
        | some j => rw [nodeAt_cons_of_slot _ hd, nodeAt_cons_of_slot _ hd]; rfl
  | cons c rest ih =>
    intro pre p t hp
    cases t with
    | NULL => rw [insertFrom32_NULL]
    | node w0 fr s m ch =>
      cases hc : slotOf c with
      | none => rw [insertFrom32_cons_none junk f pre rest hc]
      | some i =>
        have hcl : isLetter c = true := (slotOf_isSome_iff c).1 ⟨i, hc⟩
        rw [validPart_cons_letter hcl] at hp
        rw [insertFrom32_cons_some junk f pre rest hc]
        cases p with
        | nil => exact absurd (List.nil_prefix) hp
        | cons d r =>
          cases hd : slotOf d with
          | none => rw [nodeAt_cons_of_none _ hd, nodeAt_cons_of_none _ hd]
          | some j =>
            rw [nodeAt_cons_of_slot _ hd, nodeAt_cons_of_slot _ hd]
            simp only [children]
            by_cases hji : j = i
            · subst hji
              have hdc : d = c := by rw [← letter_of_slotOf hd, ← letter_of_slotOf hc]
              subst hdc
              have hr : ¬ r <+: validPart rest := by
                intro h
                exact hp ((List.cons_prefix_cons).2 ⟨rfl, h⟩)
              rw [Function.update_same, ih _ _ _ hr]
              cases r with
              | nil => exact absurd (List.nil_prefix) hr
              | cons e r2 => exact nodeAt_ensureChild_cons ch j _ e r2
            · rw [Function.update_noteq hji, ensureChild_of_ne ch _ hji]

/-- On the path spelled by the letters of `w`, `insert` makes every node present, marks
the node of `w` itself and adds `f` to its `freq`, and adds `f` to `sumPrefixFreq` at
every node it walked through; each addition is a 32-bit one. -/
theorem nodeAt_insertFrom32_on (junk : List Char → Int) (f : Int) :
    ∀ (w pre p : List Char) (t : trieNode), t.present = true → p <+: validPart w →
      (nodeAt (insertFrom32 junk f pre w t) p).present = true ∧
      (nodeAt (insertFrom32 junk f pre w t) p).isWord
        = (if p = w then 1 else (nodeAt t p).isWord) ∧
      (nodeAt (insertFrom32 junk f pre w t) p).freq
        = (if p = w then wrap32 ((nodeAt t p).freq + f) else (nodeAt t p).freq) ∧
      (nodeAt (insertFrom32 junk f pre w t) p).sumPrefixFreq
        = (if p.length < (validPart w).length ∨ p = w
            then wrap32 ((nodeAt t p).sumPrefixFreq + f) else (nodeAt t p).sumPrefixFreq) := by
  intro w
  induction w with
  | nil =>
    intro pre p t ht hp
    have hp0 : p = [] := by simpa [validPart] using hp
    subst hp0
    cases t with
    | NULL => simp [present] at ht
    | node w0 fr s m ch =>
      simp [insertFrom32_nil, nodeAt, present, isWord, freq, sumPrefixFreq]
  | cons c rest ih =>
    intro pre p t ht hp
    cases t with
    | NULL => simp [present] at ht
    | node w0 fr s m ch =>
      cases hc : slotOf c with
      | none =>
        have hcl : isLetter c = false := (slotOf_eq_none_iff c).1 hc
        rw [validPart_cons_other hcl] at hp ⊢
        have hp0 : p = [] := by simpa using hp
        subst hp0
        rw [insertFrom32_cons_none junk f pre rest hc]
        simp [nodeAt, present]
      | some i =>
        have hcl : isLetter c = true := (slotOf_isSome_iff c).1 ⟨i, hc⟩
        rw [validPart_cons_letter hcl] at hp ⊢
        rw [insertFrom32_cons_some junk f pre rest hc]
        cases p with
        | nil => simp [nodeAt, present, isWord, freq, sumPrefixFreq]
        | cons d r =>
          obtain ⟨hdc, hr⟩ := (List.cons_prefix_cons).1 hp
          subst hdc
          rw [nodeAt_cons_of_slot _ hc, nodeAt_cons_of_slot _ hc]
          simp only [children, Function.update_same]
          obtain ⟨h1, h2, h3, h4⟩ :=
            ih (pre ++ [d]) r (ensureChild ch i (junk (pre ++ [d])) i)
              (ensureChild_same_present ch i _) hr
          obtain ⟨e1, e2, e3⟩ := ensureChild_data ch i (junk (pre ++ [d])) r
          rw [e1] at h2
          rw [e2] at h3
          rw [e3] at h4
          refine ⟨h1, ?_, ?_, ?_⟩
          · rw [h2]; simp
          · rw [h3]; simp
          · rw [h4]; simp

theorem present_insert32 (junk : List Char → Int) (t : trieNode) (w : List Char) (f : Int)
    (ht : t.present = true) : (insert32 junk t w f 0).present = true := by
  rw [insert32_zero]
  have := (nodeAt_insertFrom32_on junk f w [] [] t ht List.nil_prefix).1
  simpa [nodeAt] using this

/-- One `insert` of a word over `a`..`z`, read at every path. -/
theorem nodeAt_insert32_valid (junk : List Char → Int) (f : Int) (w : List Char)
    (hw : ∀ c ∈ w, isLetter c = true) (t : trieNode) (ht : t.present = true)
    (p : List Char) :
    (nodeAt (insert32 junk t w f 0) p).present
        = ((nodeAt t p).present || decide (p <+: w)) ∧
      (nodeAt (insert32 junk t w f 0) p).isWord
        = (if p = w then 1 else (nodeAt t p).isWord) ∧
      (nodeAt (insert32 junk t w f 0) p).freq
        = (if p = w then wrap32 ((nodeAt t p).freq + f) else (nodeAt t p).freq) ∧
      (nodeAt (insert32 junk t w f 0) p).sumPrefixFreq
        = (if p <+: w then wrap32 ((nodeAt t p).sumPrefixFreq + f)
            else (nodeAt t p).sumPrefixFreq) := by
  rw [insert32_zero]
  by_cases hp : p <+: w
  · have hp2 : p <+: validPart w := by rw [validPart_eq_self hw]; exact hp
    obtain ⟨h1, h2, h3, h4⟩ := nodeAt_insertFrom32_on junk f w [] p t ht hp2
    refine ⟨by simp [h1, hp], h2, h3, ?_⟩
    rw [h4, validPart_eq_self hw, if_pos hp, if_pos]
    by_cases hlen : p.length < w.length
    · exact Or.inl hlen
    · right
      exact List.IsPrefix.eq_of_length_le hp (by omega)
  · have hp2 : ¬ p <+: validPart w := by rw [validPart_eq_self hw]; exact hp
    have hne : p ≠ w := fun h => hp (h ▸ List.prefix_refl p)
    rw [nodeAt_insertFrom32_off junk f w [] p t hp2]
    simp [hp, hne]

/-! ## A sequence of inserts on 32-bit counters, read at every path -/

theorem freqSum_of_not_any (L : List (List Char × Int)) (q : List Char → Bool)
    (h : ¬ L.any (fun e => q e.1) = true) : freqSum L q = 0 := by
  induction L with
  | nil => rfl
  | cons e L ih =>
    rw [List.any_cons, Bool.or_eq_true, not_or] at h
    rw [freqSum_cons, if_neg h.1, ih h.2, add_zero]

theorem wrap32_fold_step (o f S : Int) (a b : Prop) [Decidable a] [Decidable b]
    (hS : ¬ b → S = 0) :
    (if b then wrap32 ((if a then wrap32 (o + f) else o) + S)
      else (if a then wrap32 (o + f) else o))
      = (if a ∨ b then wrap32 (o + ((if a then f else 0) + S)) else o) := by
  by_cases ha : a <;> by_cases hb : b
  · simp only [ha, hb, if_true, or_self, wrap32_wrap32_add, add_assoc]
  · simp only [ha, hb, if_true, if_false, or_false, hS hb, add_zero]
  · simp only [ha, hb, if_true, if_false, or_true, zero_add]
  · simp only [ha, hb, if_false, or_self]

theorem insertAll32_nil (junk : List Char → Int) (t : trieNode) :
    insertAll32 junk t [] = t := rfl

/-- A sequence of inserts of words over `a`..`z`, read at every path: the counters of
a node that some entry reaches hold the old value plus the sum of the frequencies of
those entries, reduced to 32 bits. -/
theorem nodeAt_insertAll32 (junk : List Char → Int) :
    ∀ (L : List (List Char × Int)) (t : trieNode), t.present = true → wordsValid L →
      ∀ p : List Char,
        (nodeAt (insertAll32 junk t L) p).present
          = ((nodeAt t p).present || L.any (fun e => decide (p <+: e.1))) ∧
        (nodeAt (insertAll32 junk t L) p).isWord
          = (if L.any (fun e => decide (p = e.1)) = true then 1 else (nodeAt t p).isWord) ∧
        (nodeAt (insertAll32 junk t L) p).freq
          = (if L.any (fun e => decide (p = e.1)) = true
              then wrap32 ((nodeAt t p).freq + freqSum L (fun w => decide (p = w)))
              else (nodeAt t p).freq) ∧
        (nodeAt (insertAll32 junk t L) p).sumPrefixFreq
          = (if L.any (fun e => decide (p <+: e.1)) = true
              then wrap32 ((nodeAt t p).sumPrefixFreq + freqSum L (fun w => decide (p <+: w)))
              else (nodeAt t p).sumPrefixFreq) := by
  intro L
  induction L with
  | nil => intro t _ _ p; simp [insertAll32_nil]
  | cons e L ih =>
    intro t ht hL p
    have hw : ∀ c ∈ e.1, isLetter c = true := hL e (List.mem_cons_self _ _)
    have hL2 : wordsValid L := fun x hx => hL x (List.mem_cons_of_mem _ hx)
    obtain ⟨a1, a2, a3, a4⟩ :=
      ih (insert32 junk t e.1 e.2 0) (present_insert32 junk t e.1 e.2 ht) hL2 p
    obtain ⟨b1, b2, b3, b4⟩ := nodeAt_insert32_valid junk e.2 e.1 hw t ht p
    rw [insertAll32_cons, a1, a2, a3, a4, b1, b2, b3, b4, freqSum_cons, freqSum_cons]
    refine ⟨?_, ?_, ?_, ?_⟩
    · simp [Bool.or_assoc]
    · by_cases h1 : p = e.1
      · simp [List.any_cons, h1]
      · have h2 : decide (p = e.1) = false := by simp [h1]
        simp only [List.any_cons, h2, Bool.false_or, if_neg h1]
    · have h := wrap32_fold_step (nodeAt t p).freq e.2
        (freqSum L (fun w => decide (p = w))) (p = e.1)
        (L.any (fun e => decide (p = e.1)) = true)
        (freqSum_of_not_any L (fun w => decide (p = w)))
      simp only [List.any_cons, Bool.or_eq_true, decide_eq_true_eq]
      exact h
    · have h := wrap32_fold_step (nodeAt t p).sumPrefixFreq e.2
        (freqSum L (fun w => decide (p <+: w))) (p <+: e.1)
        (L.any (fun e => decide (p <+: e.1)) = true)
        (freqSum_of_not_any L (fun w => decide (p <+: w)))
      simp only [List.any_cons, Bool.or_eq_true, decide_eq_true_eq]
      exact h

/-- The tree built from a fresh root by the entries of `L` on 32-bit counters, read at
every path: a node exists at the root and at every initial part of an inserted word;
`isWord` tells whether the path is an inserted word; `freq` and `sumPrefixFreq` are the
sums over the entries the node stands for, reduced to 32 bits. -/
theorem nodeAt_build32 (junk : List Char → Int) (g : Int) (L : List (List Char × Int))
    (hL : wordsValid L) (p : List Char) :
    (nodeAt (insertAll32 junk (initNode g) L) p).present
        = (decide (p = []) || L.any (fun e => decide (p <+: e.1))) ∧
      (nodeAt (insertAll32 junk (initNode g) L) p).isWord
        = (if L.any (fun e => decide (p = e.1)) = true then 1 else 0) ∧
      (nodeAt (insertAll32 junk (initNode g) L) p).freq
        = wrap32 (freqSum L (fun w => decide (p = w))) ∧
      (nodeAt (insertAll32 junk (initNode g) L) p).sumPrefixFreq
        = wrap32 (freqSum L (fun w => decide (p <+: w))) := by
  obtain ⟨a1, a2, a3, a4⟩ := nodeAt_insertAll32 junk L (initNode g) rfl hL p
  obtain ⟨b1, b2, b3, b4⟩ := nodeAt_initNode g p
  rw [a1, a2, a3, a4, b1, b2, b3, b4]
  refine ⟨rfl, rfl, ?_, ?_⟩
  · by_cases h : L.any (fun e => decide (p = e.1)) = true
    · rw [if_pos h, zero_add]
    · rw [if_neg h, freqSum_of_not_any L _ h, wrap32_zero]
  · by_cases h : L.any (fun e => decide (p <+: e.1)) = true
    · rw [if_pos h, zero_add]
    · rw [if_neg h, freqSum_of_not_any L _ h, wrap32_zero]

/-! ## Symbols outside the alphabet: what `insert` has done when it stops -/

/-- Claim C10. Partial update on an invalid symbol. Let the first symbol of `word` outside
`a`..`z` be at index `j`, so that `validPart word` is the first `j` symbols. Then
`insert(root, word, f, 0)` on a non-null root, with the 32-bit counters of the code, read
at every path `p`:
* a node is present after the call exactly when it was present before or `p` is an initial
  part of those `j` symbols (the missing nodes of the path at depths `1..j` are created,
  nothing is removed);
* `sumPrefixFreq` has had `f` added by `+=` exactly at the nodes of the path at depths
  `0..j-1`, and is unchanged elsewhere, the depth-`j` node included; the sum is the 32-bit
  one, and it is the exact sum `sumPrefixFreq + f` whenever that is an `int`;
* `isWord` and `freq` are unchanged everywhere;
* a node the call created has `isWord = 0`, `freq = 0`, no child off the path, and
  `sumPrefixFreq` equal to what the walk added to the 0 of `initialize` (`f` above depth
  `j`, nothing at depth `j`);
* off the path every subtree is as it was, and for `j = 0` the tree is unchanged. -/
theorem C10_partial_update_on_invalid_symbol (junk : List Char → Int) (root : trieNode)
    (word : List Char) (f : Int) (hroot : root.present = true)
    (hj : (validPart word).length < word.length) :
    (∀ p : List Char,
      (nodeAt (insert32 junk root word f 0) p).present
          = ((nodeAt root p).present || decide (p <+: validPart word)) ∧
        (nodeAt (insert32 junk root word f 0) p).sumPrefixFreq
          = (if p <+: validPart word ∧ p.length < (validPart word).length
              then wrap32 ((nodeAt root p).sumPrefixFreq + f)
              else (nodeAt root p).sumPrefixFreq) ∧
        (p <+: validPart word → p.length < (validPart word).length →
          -2147483648 ≤ (nodeAt root p).sumPrefixFreq + f →
          (nodeAt root p).sumPrefixFreq + f ≤ INT_MAX →
          (nodeAt (insert32 junk root word f 0) p).sumPrefixFreq
            = (nodeAt root p).sumPrefixFreq + f) ∧
        (nodeAt (insert32 junk root word f 0) p).isWord = (nodeAt root p).isWord ∧
        (nodeAt (insert32 junk root word f 0) p).freq = (nodeAt root p).freq ∧
        ((nodeAt root p).present = false → p <+: validPart word →
          (nodeAt (insert32 junk root word f 0) p).isWord = 0 ∧
          (nodeAt (insert32 junk root word f 0) p).freq = 0 ∧
          (nodeAt (insert32 junk root word f 0) p).sumPrefixFreq
            = (if p.length < (validPart word).length then wrap32 f else 0) ∧
          ∀ i : Fin 26, ((nodeAt (insert32 junk root word f 0) p).children i).present
            = decide (p ++ [letter i] <+: validPart word)) ∧
        (¬ p <+: validPart word → nodeAt (insert32 junk root word f 0) p = nodeAt root p)) ∧
      ((validPart word).length = 0 → insert32 junk root word f 0 = root) := by
  rw [insert32_zero]
  have hoff := nodeAt_insertFrom32_off junk f word []
  have hon := nodeAt_insertFrom32_on junk f word []
  have hmain : ∀ p : List Char,
      (nodeAt (insertFrom32 junk f [] word root) p).present
          = ((nodeAt root p).present || decide (p <+: validPart word)) ∧
        (nodeAt (insertFrom32 junk f [] word root) p).sumPrefixFreq
          = (if p <+: validPart word ∧ p.length < (validPart word).length
              then wrap32 ((nodeAt root p).sumPrefixFreq + f)
              else (nodeAt root p).sumPrefixFreq) ∧
        (nodeAt (insertFrom32 junk f [] word root) p).isWord = (nodeAt root p).isWord ∧
        (nodeAt (insertFrom32 junk f [] word root) p).freq = (nodeAt root p).freq := by
    intro p
    by_cases hp : p <+: validPart word
    · obtain ⟨h1, h2, h3, h4⟩ := hon p root hroot hp
      have hne : p ≠ word := by
        intro h
        have := hp.length_le
        rw [h] at this
        omega
      rw [h1, h2, h3, h4]
      simp [hp, hne]
    · rw [hoff p root hp]
      simp [hp]
  refine ⟨fun p => ?_, ?_⟩
  · obtain ⟨m1, m2, m3, m4⟩ := hmain p
    refine ⟨m1, m2, ?_, m3, m4, ?_, hoff p root⟩
    · intro hp hlt h0 h1
      rw [m2, if_pos ⟨hp, hlt⟩]
      exact wrap32_of_int_range h0 h1
    · intro habs hp
      have hN : nodeAt root p = NULL := (present_false_iff _).1 habs
      refine ⟨?_, ?_, ?_, ?_⟩
      · rw [m3, hN]; rfl
      · rw [m4, hN]; rfl
      · rw [m2, hN]; simp [hp, sumPrefixFreq]
      · intro i
        rw [← nodeAt_snoc_letter, (hmain _).1, nodeAt_snoc_letter, hN]
        simp [children, present]
  · intro h0
    cases word with
    | nil => simp [validPart] at hj
    | cons c rest =>
      cases root with
      | NULL => rfl
      | node w0 fr s m ch =>
        cases hc : slotOf c with
        | none => exact insertFrom32_cons_none junk f [] rest hc w0 fr s m ch
        | some i =>
          have hcl : isLetter c = true := (slotOf_isSome_iff c).1 ⟨i, hc⟩
          rw [validPart_cons_letter hcl] at h0
          simp at h0

/-- Witness of C10: `insert("ab!", 7)` on a fresh root adds 7 at the root and at the node
of `"a"`, creates the node of `"ab"` with `sumPrefixFreq = 0`, and marks no word; and
`insert("a!", 1)` on the tree of `("ab", 2147483647)` takes the `sumPrefixFreq` of the
root from `2147483647` to `-2147483648`. -/
theorem C10_witness :
    (nodeAt (insert32 (fun _ => 0) (initNode 0) "ab!".toList 7 0) []).sumPrefixFreq = 7 ∧
      (nodeAt (insert32 (fun _ => 0) (initNode 0) "ab!".toList 7 0) "a".toList).sumPrefixFreq
        = 7 ∧
      (nodeAt (insert32 (fun _ => 0) (initNode 0) "ab!".toList 7 0) "ab".toList).present
        = true ∧
      (nodeAt (insert32 (fun _ => 0) (initNode 0) "ab!".toList 7 0) "ab".toList).sumPrefixFreq
        = 0 ∧
      (nodeAt (insert32 (fun _ => 0) (initNode 0) "ab!".toList 7 0) "ab".toList).isWord = 0 ∧
      (nodeAt (insert32 (fun _ => 0)
        (insertAll32 (fun _ => 0) (initNode 0) [("ab".toList, 2147483647)])
        "a!".toList 1 0) []).sumPrefixFreq = -2147483648 :=
  have h := (C10_partial_update_on_invalid_symbol (fun _ => 0) (initNode 0) "ab!".toList 7
    (by decide) (by decide)).1
  have h2 := (C10_partial_update_on_invalid_symbol (fun _ => 0)
    (insertAll32 (fun _ => 0) (initNode 0) [("ab".toList, 2147483647)]) "a!".toList 1
    (by decide) (by decide)).1
  ⟨(h []).2.2.1 (by decide) (by decide) (by decide) (by decide),
    (h "a".toList).2.1.trans (by decide),
    (h "ab".toList).1.trans (by decide), (h "ab".toList).2.1.trans (by decide),
    (h "ab".toList).2.2.2.1.trans (by decide), (h2 []).2.1.trans (by decide)⟩

/-! ## The frame of `insert` -/

/-- Claim C18. Frame of `insert`: for a word `w` over `a`..`z`, `insert(root, w, f, 0)`,
with the 32-bit counters of the code, changes nodes on the path spelled by `w` only. Off
that path every node, with its `isWord`, `freq`, `sumPrefixFreq`, `maxFreq` and children,
is as before; on the path the nodes before the end keep `isWord` and `freq`, and the node
at the end gets `isWord = 1` and has `f` added to `freq` by the 32-bit `+=` (the exact
sum `freq + f` whenever that is an `int`). -/
theorem C18_frame_of_insert (junk : List Char → Int) (root : trieNode) (w : List Char)
    (f : Int) (hroot : root.present = true) (hw : ∀ c ∈ w, isLetter c = true) :
    (∀ p : List Char, ¬ p <+: w →
      nodeAt (insert32 junk root w f 0) p = nodeAt root p) ∧
      (∀ p : List Char, p <+: w → p ≠ w →
        (nodeAt (insert32 junk root w f 0) p).isWord = (nodeAt root p).isWord ∧
        (nodeAt (insert32 junk root w f 0) p).freq = (nodeAt root p).freq) ∧
      (nodeAt (insert32 junk root w f 0) w).isWord = 1 ∧
      (nodeAt (insert32 junk root w f 0) w).freq = wrap32 ((nodeAt root w).freq + f) ∧
      (-2147483648 ≤ (nodeAt root w).freq + f → (nodeAt root w).freq + f ≤ INT_MAX →
        (nodeAt (insert32 junk root w f 0) w).freq = (nodeAt root w).freq + f) := by
  refine ⟨?_, ?_, ?_, ?_, ?_⟩
  · intro p hp
    rw [insert32_zero]
    apply nodeAt_insertFrom32_off
    rw [validPart_eq_self hw]
    exact hp
  · intro p _ hne
    obtain ⟨_, a2, a3, _⟩ := nodeAt_insert32_valid junk f w hw root hroot p
    rw [a2, a3, if_neg hne, if_neg hne]
    exact ⟨rfl, rfl⟩
  · rw [(nodeAt_insert32_valid junk f w hw root hroot w).2.1, if_pos rfl]
  · rw [(nodeAt_insert32_valid junk f w hw root hroot w).2.2.1, if_pos rfl]
  · intro h0 h1
    rw [(nodeAt_insert32_valid junk f w hw root hroot w).2.2.1, if_pos rfl]
    exact wrap32_of_int_range h0 h1

/-- Witness of C18: inserting `"cat"` into the tree of `"car"` and `"dog"` leaves the
subtree of `"d"` and the node of `"car"` as they were, and the node of `"cat"` gets
`freq = 5`; inserting `("ab", 1)` into the tree of `("ab", 2147483647)` takes the `freq`
of the node of `"ab"` to `-2147483648`. -/
theorem C18_witness :
    nodeAt (insert32 (fun _ => 0)
        (insertAll32 (fun _ => 0) (initNode 0) [("car".toList, 3), ("dog".toList, 2)])
        "cat".toList 5 0) "d".toList
      = nodeAt (insertAll32 (fun _ => 0) (initNode 0) [("car".toList, 3), ("dog".toList, 2)])
        "d".toList ∧
      (nodeAt (insert32 (fun _ => 0)
        (insertAll32 (fun _ => 0) (initNode 0) [("car".toList, 3), ("dog".toList, 2)])
        "cat".toList 5 0) "cat".toList).freq = 5 ∧
      (nodeAt (insert32 (fun _ => 0)
        (insertAll32 (fun _ => 0) (initNode 0) [("ab".toList, 2147483647)])
        "ab".toList 1 0) "ab".toList).freq = -2147483648 :=
  ⟨(C18_frame_of_insert (fun _ => 0)
      (insertAll32 (fun _ => 0) (initNode 0) [("car".toList, 3), ("dog".toList, 2)])
      "cat".toList 5 (by decide) (by decide)).1 "d".toList (by decide),
    (C18_frame_of_insert (fun _ => 0)
      (insertAll32 (fun _ => 0) (initNode 0) [("car".toList, 3), ("dog".toList, 2)])
      "cat".toList 5 (by decide) (by decide)).2.2.2.1.trans (by decide),
    (C18_frame_of_insert (fun _ => 0)
      (insertAll32 (fun _ => 0) (initNode 0) [("ab".toList, 2147483647)])
      "ab".toList 1 (by decide) (by decide)).2.2.2.1.trans (by decide)⟩

/-! ## Word marks and word frequencies -/

/-- Claim C8 as stated fails: on the 32-bit counters of the code, `insert("a",
2147483647)` followed by `insert("a", 1)` on a fresh root leaves `freq = -2147483648` at
the node of `"a"`, which exists, while the frequencies of the inserts of `"a"` add up to
`2147483648`. -/
theorem C8_counterexample :
    (∀ e ∈ [("a".toList, (2147483647 : Int)), ("a".toList, 1)],
        ∀ c ∈ e.1, isLetter c = true) ∧
      (nodeAt (insertAll32 (fun _ => 0) (initNode 0)
        [("a".toList, 2147483647), ("a".toList, 1)]) "a".toList).present = true ∧
      (nodeAt (insertAll32 (fun _ => 0) (initNode 0)
        [("a".toList, 2147483647), ("a".toList, 1)]) "a".toList).freq = -2147483648 ∧
      (([("a".toList, (2147483647 : Int)), ("a".toList, 1)].filter
        (fun e => decide (e.1 = "a".toList))).map (fun e => e.2)).sum = 2147483648 := by
  decide

/-- Claim C8, amended. In the tree built from a fresh root by inserts of words over
`a`..`z`, on the 32-bit counters of the code, at every path `w` that exists in the tree,
`isWord` is 1 exactly when `w` itself was inserted, and `freq` is the sum of the
frequencies of the inserts of exactly `w` (0 when there is none) reduced modulo `2^32`
into the range of an `int`; it is that sum itself whenever the sum lies in
`-2^31..2^31-1`. -/
theorem C8_isWord_and_wrapped_freq (junk : List Char → Int) (g : Int)
    (L : List (List Char × Int)) (w : List Char)
    (hL : ∀ e ∈ L, ∀ c ∈ e.1, isLetter c = true)
    (_hex : (nodeAt (insertAll32 junk (initNode g) L) w).present = true) :
    ((nodeAt (insertAll32 junk (initNode g) L) w).isWord = 1 ↔ ∃ e ∈ L, e.1 = w) ∧
      (nodeAt (insertAll32 junk (initNode g) L) w).freq
        = wrap32 ((L.filter (fun e => decide (e.1 = w))).map (fun e => e.2)).sum ∧
      (-2147483648 ≤ ((L.filter (fun e => decide (e.1 = w))).map (fun e => e.2)).sum →
        ((L.filter (fun e => decide (e.1 = w))).map (fun e => e.2)).sum ≤ INT_MAX →
        (nodeAt (insertAll32 junk (initNode g) L) w).freq
          = ((L.filter (fun e => decide (e.1 = w))).map (fun e => e.2)).sum) := by
  obtain ⟨_, h2, h3, _⟩ := nodeAt_build32 junk g L hL w
  have hsum : freqSum L (fun v => decide (w = v))
      = ((L.filter (fun e => decide (e.1 = w))).map (fun e => e.2)).sum := by
    unfold freqSum
    congr 2
    apply List.filter_congr
    intro e _
    exact decide_eq_decide.2 eq_comm
  refine ⟨?_, ?_, ?_⟩
  · rw [h2]
    by_cases h : L.any (fun e => decide (w = e.1)) = true
    · rw [if_pos h]
      simp only [true_iff]
      obtain ⟨e, he, hwe⟩ := List.any_eq_true.1 h
      exact ⟨e, he, (of_decide_eq_true hwe).symm⟩
    · rw [if_neg h]
      simp only [zero_ne_one, false_iff]
      rintro ⟨e, he, hwe⟩
      exact h (List.any_eq_true.2 ⟨e, he, decide_eq_true hwe.symm⟩)
  · rw [h3, hsum]
  · intro h0 h1
    rw [h3, hsum]
    exact wrap32_of_int_range h0 h1

/-- Witness of C8: with `"cat"` inserted twice (5 and 2) and `"car"` once, the node of
`"cat"` is a word of frequency 7 and the node of `"ca"` is not a word. -/
theorem C8_witness :
    (nodeAt (insertAll32 (fun _ => 0) (initNode 0)
        [("cat".toList, 5), ("car".toList, 3), ("cat".toList, 2)]) "cat".toList).freq = 7 ∧
      ¬ (nodeAt (insertAll32 (fun _ => 0) (initNode 0)
        [("cat".toList, 5), ("car".toList, 3), ("cat".toList, 2)]) "ca".toList).isWord = 1 :=
  ⟨((C8_isWord_and_wrapped_freq (fun _ => 0) 0
      [("cat".toList, 5), ("car".toList, 3), ("cat".toList, 2)] "cat".toList
      (by decide) (by decide)).2.2 (by decide) (by decide)).trans (by decide),
    fun h => absurd ((C8_isWord_and_wrapped_freq (fun _ => 0) 0
      [("cat".toList, 5), ("car".toList, 3), ("cat".toList, 2)] "ca".toList
      (by decide) (by decide)).1.1 h) (by decide)⟩

/-! ## Agreement of `query` with the list of inserted entries, on 32-bit counters -/

/-- Claim C2 as stated fails: on the 32-bit counters of the code, after `insert("xab",
2147483647)`, `insert("xac", 1)` and `insert("xd", 5)` on a fresh root, all words non-empty
and over `a`..`z` and all frequencies `≥ 0`, `query(root, "x", 0)` returns `"d"`, while
the reference definition gives `"a"` (mass 2147483648 against 5): the `sumPrefixFreq` of
the node of `"xa"` has wrapped to `-2147483648`. The same happens at the empty prefix with
the words `"ab"`, `"ac"`, `"d"`. -/
theorem C2_counterexample :
    (∀ e ∈ [("xab".toList, (2147483647 : Int)), ("xac".toList, 1), ("xd".toList, 5)],
        e.1 ≠ [] ∧ (∀ c ∈ e.1, isLetter c = true) ∧ 0 ≤ e.2) ∧
      (∀ c ∈ "x".toList, isLetter c = true) ∧
      query (fun _ => none)
        (insertAll32 (fun _ => 0) (initNode 0)
          [("xab".toList, 2147483647), ("xac".toList, 1), ("xd".toList, 5)]) "x".toList 0
        = some "d".toList ∧
      referenceQuery [("xab".toList, 2147483647), ("xac".toList, 1), ("xd".toList, 5)]
        "x".toList = "a".toList ∧
      mass [("xab".toList, 2147483647), ("xac".toList, 1), ("xd".toList, 5)] "x".toList 'a'
        = 2147483648 ∧
      (nodeAt (insertAll32 (fun _ => 0) (initNode 0)
        [("xab".toList, 2147483647), ("xac".toList, 1), ("xd".toList, 5)])
        "xa".toList).sumPrefixFreq = -2147483648 ∧
      query (fun _ => none)
        (insertAll32 (fun _ => 0) (initNode 0)
          [("ab".toList, 2147483647), ("ac".toList, 1), ("d".toList, 5)]) [] 0
        = some "d".toList ∧
      referenceQuery [("ab".toList, 2147483647), ("ac".toList, 1), ("d".toList, 5)] []
        = "a".toList := by
  decide

/-- Claim C2, amended. On the 32-bit counters of the code, `query` agrees with the
reference definition over the list of inserted entries as long as no addition overflows:
for words over `a`..`z` and frequencies `≥ 0` that add up to at most `2^31-1`, inserted
in order into a fresh root, and for every prefix `P` over `a`..`z`, the answer is the
sentinel when no letter continues `P` in an entry, and otherwise the letters continuing
`P` whose mass is largest, ascending. (The non-emptiness of the words is not needed.) -/
theorem C2_query_agrees_without_overflow (oob : Int → Option trieNode)
    (junk : List Char → Int) (g : Int) (L : List (List Char × Int)) (P : List Char)
    (hL : ∀ e ∈ L, ∀ c ∈ e.1, isLetter c = true) (hf : ∀ e ∈ L, 0 ≤ e.2)
    (hfit : (L.map (fun e => e.2)).sum ≤ INT_MAX)
    (hP : ∀ c ∈ P, isLetter c = true) :
    query oob (insertAll32 junk (initNode g) L) P 0 = some (referenceQuery L P) := by
  rw [(insertAll32_of_bounded junk L (initNode g) 0 (le_refl 0)
    (boundedBy_initNode 0 g (le_refl 0)) hf (by omega)).1]
  exact query_build_eq_reference oob junk g L P hL hf hP

/-- Witness of C2 on the entries `("cat", 2147483000)`, `("car", 647)`, which add up to
`2^31-1` exactly, and the prefix `"ca"`. -/
theorem C2_witness :
    (∀ e ∈ [("cat".toList, (2147483000 : Int)), ("car".toList, 647)],
        ∀ c ∈ e.1, isLetter c = true) ∧
      (∀ e ∈ [("cat".toList, (2147483000 : Int)), ("car".toList, 647)], 0 ≤ e.2) ∧
      ([("cat".toList, (2147483000 : Int)), ("car".toList, 647)].map (fun e => e.2)).sum
        ≤ INT_MAX ∧
      (∀ c ∈ "ca".toList, isLetter c = true) ∧
      query (fun _ => none)
        (insertAll32 (fun _ => 0) (initNode 0)
          [("cat".toList, 2147483000), ("car".toList, 647)])
        "ca".toList 0 = some "t".toList :=
  ⟨by decide, by decide, by decide, by decide,
    (C2_query_agrees_without_overflow (fun _ => none) (fun _ => 0) 0
      [("cat".toList, 2147483000), ("car".toList, 647)] "ca".toList (by decide) (by decide)
      (by decide) (by decide)).trans (by decide)⟩

/-! ## When `query` returns the sentinel, on 32-bit counters -/

/-- Claim C5 as stated fails: on the 32-bit counters of the code, after `insert("xa",
2147483647)` and `insert("xa", 1)` on a fresh root, `query(root, "x", 0)` returns the
sentinel although the inserted word `"xa"` has `"x"` as a proper initial part: the
`sumPrefixFreq` of the only child has wrapped to `-2147483648`, below the 0 the search
for the maximum starts from. The same happens at the empty prefix with the word `"a"`. -/
theorem C5_counterexample :
    (∀ e ∈ [("xa".toList, (2147483647 : Int)), ("xa".toList, 1)],
        e.1 ≠ [] ∧ (∀ c ∈ e.1, isLetter c = true) ∧ 0 ≤ e.2) ∧
      (∀ c ∈ "x".toList, isLetter c = true) ∧
      query (fun _ => none)
        (insertAll32 (fun _ => 0) (initNode 0)
          [("xa".toList, 2147483647), ("xa".toList, 1)]) "x".toList 0
        = some UNRECOGNIZED_PREFIX ∧
      (∃ e ∈ [("xa".toList, (2147483647 : Int)), ("xa".toList, 1)],
        "x".toList <+: e.1 ∧ "x".toList ≠ e.1) ∧
      (nodeAt (insertAll32 (fun _ => 0) (initNode 0)
        [("xa".toList, 2147483647), ("xa".toList, 1)]) "xa".toList).sumPrefixFreq
        = -2147483648 ∧
      query (fun _ => none)
        (insertAll32 (fun _ => 0) (initNode 0)
          [("a".toList, 2147483647), ("a".toList, 1)]) [] 0
        = some UNRECOGNIZED_PREFIX ∧
      (∃ e ∈ [("a".toList, (2147483647 : Int)), ("a".toList, 1)],
        [] <+: e.1 ∧ [] ≠ e.1) := by
  decide

/-- Claim C5, amended. On the 32-bit counters of the code, for a dictionary built from a
fresh root by inserts of words over `a`..`z` with frequencies `≥ 0` that add up to at
most `2^31-1`, and a prefix over `a`..`z`, `query` returns the sentinel exactly when no
inserted word has the prefix as a proper initial part; a prefix no word begins with and
a prefix that is an inserted word without continuation both give the sentinel. -/
theorem C5_sentinel_iff_no_continuation (oob : Int → Option trieNode)
    (junk : List Char → Int) (g : Int) (L : List (List Char × Int)) (P : List Char)
    (hL : ∀ e ∈ L, ∀ c ∈ e.1, isLetter c = true) (hf : ∀ e ∈ L, 0 ≤ e.2)
    (hfit : (L.map (fun e => e.2)).sum ≤ INT_MAX)
    (hP : ∀ c ∈ P, isLetter c = true) :
    query oob (insertAll32 junk (initNode g) L) P 0 = some UNRECOGNIZED_PREFIX ↔
      ¬ ∃ e ∈ L, P <+: e.1 ∧ P ≠ e.1 := by
  rw [(insertAll32_of_bounded junk L (initNode g) 0 (le_refl 0)
    (boundedBy_initNode 0 g (le_refl 0)) hf (by omega)).1,
    query_build_eq_reference oob junk g L P hL hf hP, Option.some.injEq]
  exact reference_sentinel_iff L P hL

/-- Witness of C5: with `"cat"` and `"car"` inserted, `"cat"` (an inserted word without
continuation) and `"dog"` (no word begins with it) both give the sentinel, while `"ca"`
does not. -/
theorem C5_witness :
    query (fun _ => none)
        (insertAll32 (fun _ => 0) (initNode 0) [("cat".toList, 5), ("car".toList, 5)])
        "cat".toList 0 = some UNRECOGNIZED_PREFIX ∧
      query (fun _ => none)
        (insertAll32 (fun _ => 0) (initNode 0) [("cat".toList, 5), ("car".toList, 5)])
        "dog".toList 0 = some UNRECOGNIZED_PREFIX ∧
      query (fun _ => none)
        (insertAll32 (fun _ => 0) (initNode 0) [("cat".toList, 5), ("car".toList, 5)])
        "ca".toList 0 ≠ some UNRECOGNIZED_PREFIX :=
  ⟨(C5_sentinel_iff_no_continuation (fun _ => none) (fun _ => 0) 0
      [("cat".toList, 5), ("car".toList, 5)] "cat".toList (by decide) (by decide)
      (by decide) (by decide)).2 (by decide),
    (C5_sentinel_iff_no_continuation (fun _ => none) (fun _ => 0) 0
      [("cat".toList, 5), ("car".toList, 5)] "dog".toList (by decide) (by decide)
      (by decide) (by decide)).2 (by decide),
    fun h => (C5_sentinel_iff_no_continuation (fun _ => none) (fun _ => 0) 0
      [("cat".toList, 5), ("car".toList, 5)] "ca".toList (by decide) (by decide)
      (by decide) (by decide)).1 h (by decide)⟩

/-! ## The aggregation invariant, on 32-bit counters -/

/-- Claim C3 as stated fails: on the 32-bit counters of the code, after `insert("ab",
2147483647)`, `insert("ac", 1)` and `insert("d", 5)` on a fresh root, the node of `"a"`
has `sumPrefixFreq = -2147483648` while the `freq` fields in its subtree (`2147483647` at
`"ab"`, `1` at `"ac"`) add up to `2147483648`. -/
theorem C3_counterexample :
    (∀ e ∈ [("ab".toList, (2147483647 : Int)), ("ac".toList, 1), ("d".toList, 5)],
        ∀ c ∈ e.1, isLetter c = true) ∧
      aggregated (insertAll32 (fun _ => 0) (initNode 0)
        [("ab".toList, 2147483647), ("ac".toList, 1), ("d".toList, 5)]) = false ∧
      (nodeAt (insertAll32 (fun _ => 0) (initNode 0)
        [("ab".toList, 2147483647), ("ac".toList, 1), ("d".toList, 5)])
        "a".toList).sumPrefixFreq = -2147483648 ∧
      subtreeFreq (nodeAt (insertAll32 (fun _ => 0) (initNode 0)
        [("ab".toList, 2147483647), ("ac".toList, 1), ("d".toList, 5)]) "a".toList)
        = 2147483648 := by
  decide

/-- Claim C3, amended. Aggregation invariant without overflow, on the 32-bit counters of
the code: a fresh root satisfies it; `insert(root, w, f, 0)` with `w` over `a`..`z` and
`f ≥ 0` preserves it on a tree whose counters lie in `0..B` with `B + f ≤ 2^31-1`; and so
every tree reached from a fresh root by inserts of words over `a`..`z` whose frequencies
are `≥ 0` and add up to at most `2^31-1` has, at every node, `sumPrefixFreq` equal to the
sum of the `freq` fields over the subtree rooted at that node. -/
theorem C3_aggregation_without_overflow (junk : List Char → Int) :
    (∀ g : Int, aggregated (initNode g) = true) ∧
      (∀ (t : trieNode) (w : List Char) (f B : Int), (∀ c ∈ w, isLetter c = true) →
        0 ≤ f → 0 ≤ B → B + f ≤ INT_MAX → boundedBy B t = true →
        aggregated t = true → aggregated (insert32 junk t w f 0) = true) ∧
      (∀ (g : Int) (L : List (List Char × Int)),
        (∀ e ∈ L, ∀ c ∈ e.1, isLetter c = true) → (∀ e ∈ L, 0 ≤ e.2) →
        (L.map (fun e => e.2)).sum ≤ INT_MAX →
        aggregated (insertAll32 junk (initNode g) L) = true) := by
  refine ⟨aggregated_initNode, ?_, ?_⟩
  · intro t w f B hw hf hB hfit hb ht
    rw [insert32_zero, (insertFrom32_of_bounded junk f B hf hB hfit w [] t hb).1]
    exact aggregated_insertFrom junk f w [] t hw ht
  · intro g L hL hf hfit
    rw [(insertAll32_of_bounded junk L (initNode g) 0 (le_refl 0)
      (boundedBy_initNode 0 g (le_refl 0)) hf (by omega)).1]
    exact aggregated_insertAll junk L _ hL (aggregated_initNode g)

/-- Witness of C3 on the entries `("cat", 2147483000)`, `("car", 647)`, which add up to
`2^31-1` exactly, and on one `insert("xyz", 4)` into a fresh root. -/
theorem C3_witness :
    (∀ e ∈ [("cat".toList, (2147483000 : Int)), ("car".toList, 647)],
        ∀ c ∈ e.1, isLetter c = true) ∧
      aggregated (insertAll32 (fun _ => 0) (initNode 0)
        [("cat".toList, 2147483000), ("car".toList, 647)]) = true ∧
      aggregated (initNode 0) = true ∧
      aggregated (insert32 (fun _ => 0) (initNode 0) "xyz".toList 4 0) = true :=
  ⟨by decide,
    (C3_aggregation_without_overflow (fun _ => 0)).2.2 0 _ (by decide) (by decide)
      (by decide),
    (C3_aggregation_without_overflow (fun _ => 0)).1 0,
    (C3_aggregation_without_overflow (fun _ => 0)).2.1 (initNode 0) "xyz".toList 4 0
      (by decide) (by decide) (by decide) (by decide) (by decide)
      ((C3_aggregation_without_overflow (fun _ => 0)).1 0)⟩

end TriePrefix
